import Mathlib

/-!
The reduce-and-greedy hitting set solver greeduce.

A shallow embedding of `solver.cpp` and a verification development about it.

Conventions of the embedding.

* `vector<T>` is a `List T`; `v[i]` is `v.getD i d` and `v[i] = a` is `v.set i a`.
  Every theorem carries the well-formedness hypotheses under which the indices
  used by the program are in range.
* `int` values that are only ever used as indices are `Nat`; counters that the
  program decrements (`degree`, `hitcount`, `num_active_hyperedges`) are `Int`.
* `assert` failures and loops that run out of fuel are `Except.error`.
* `queue<int>` is a `List Nat` with the front at the head.
* `set<int>` is a strictly increasing `List Nat`.
* Statements about every point of a run are made over `greeduce_events`, which runs
  the loops of `greeduce` as `greeduce_schedule` does and lists the states of the
  locals at the points between rule applications, in order.
-/

namespace Greeduce

/-! ## Failures -/

/-- The ways a modelled run can stop without returning. -/
inductive Failure where
  /-- An `assert` of the program failed. -/
  | assertion
  /-- A loop of the model used up its fuel. -/
  | out_of_fuel
  deriving DecidableEq, Repr

/-! ## The incidence graph (globals of the program) -/

/-- The globals `num_objects`, `num_vertices`, `num_hyperedges`, `incidence`
and `vertex_to_original_id`. -/
structure Graph where
  num_objects : Nat
  num_vertices : Nat
  num_hyperedges : Nat
  incidence : List (List Nat)
  vertex_to_original_id : List Nat
  deriving DecidableEq, Repr

/-- The adjacency list `incidence[i]`. -/
def Graph.inc (g : Graph) (i : Nat) : List Nat := g.incidence.getD i []

/-- The original id `vertex_to_original_id[v]`. -/
def Graph.vid (g : Graph) (v : Nat) : Nat := g.vertex_to_original_id.getD v 0

/-- Model of `incidence[i].push_back(x)`. -/
def push_at (incidence : List (List Nat)) (i x : Nat) : List (List Nat) :=
  incidence.set i (incidence.getD i [] ++ [x])

/-- Final loop of `read_input`: `sort(incidence[i].begin(), incidence[i].end())`
for every object. -/
def sort_all (incidence : List (List Nat)) : List (List Nat) :=
  incidence.map (List.insertionSort (· ≤ ·))

/-- Body of the `while (edge_iss >> v)` loop of the `hs` branch, for hyperedge
number `i`: `--v; incidence[v].push_back(num_vertices + i);
incidence[num_vertices + i].push_back(v)`. The ids are taken to be in `[1, V]`, as
the format demands: for the id 0 the program writes `incidence[-1]`, which has no
defined behaviour, and a token beyond the range of `int` ends its loop. -/
def read_hyperedge (num_vertices i : Nat) (incidence : List (List Nat)) :
    List Nat → List (List Nat)
  | [] => incidence
  | v :: rest =>
    read_hyperedge num_vertices i
      (push_at (push_at incidence (v - 1) (num_vertices + i)) (num_vertices + i) (v - 1)) rest

/-- The `for (int i = 0; i < num_hyperedges; ++i)` loop of the `hs` branch; `lines`
are the parsed hyperedge lines still to be read, `i` the index of the next one. -/
def read_hyperedges (num_vertices : Nat) :
    Nat → List (List Nat) → List (List Nat) → List (List Nat)
  | _, incidence, [] => incidence
  | i, incidence, line :: rest =>
    read_hyperedges num_vertices (i + 1) (read_hyperedge num_vertices i incidence line) rest

/-- The `hs` branch of `read_input`, on the parsed problem line `p hs V H` and the
`H` parsed hyperedge lines (1-based vertex ids). -/
def read_input_hs (V : Nat) (lines : List (List Nat)) : Graph :=
  let H := lines.length
  { num_objects := V + H
    num_vertices := V
    num_hyperedges := H
    incidence := sort_all (read_hyperedges V 0 (List.replicate (V + H) []) lines)
    vertex_to_original_id := (List.range V).map (· + 1) }

/-- First loop of the `ds` branch, for `i` in `[0, num_vertices)`:
`incidence[i].push_back(num_vertices + i);
incidence[num_vertices + i].push_back(i)`. The loop is run from the list of
the indices. -/
def ds_self_loops (num_vertices : Nat) (incidence : List (List Nat)) :
    List Nat → List (List Nat)
  | [] => incidence
  | i :: rest =>
    ds_self_loops num_vertices
      (push_at (push_at incidence i (num_vertices + i)) (num_vertices + i) i) rest

/-- Second loop of the `ds` branch: each edge `a b` is range-checked by the
`assert`, decremented, and pushed on four adjacency lists. -/
def ds_edges (num_vertices : Nat) (incidence : List (List Nat)) :
    List (Int × Int) → Except Failure (List (List Nat))
  | [] => .ok incidence
  | (a, b) :: rest =>
    if 1 ≤ a ∧ a ≤ num_vertices ∧ 1 ≤ b ∧ b ≤ num_vertices then
      let a' := (a - 1).toNat
      let b' := (b - 1).toNat
      let inc1 := push_at incidence a' (num_vertices + b')
      let inc2 := push_at inc1 b' (num_vertices + a')
      let inc3 := push_at inc2 (num_vertices + a') b'
      let inc4 := push_at inc3 (num_vertices + b') a'
      ds_edges num_vertices inc4 rest
    else .error .assertion

/-- The `ds` branch of `read_input`, on the parsed problem line `p ds V E` and the
parsed edges. -/
def read_input_ds (V : Nat) (edges : List (Int × Int)) : Except Failure Graph :=
  match ds_edges V (ds_self_loops V (List.replicate (2 * V) []) (List.range V)) edges with
  | .error e => .error e
  | .ok incidence =>
    .ok { num_objects := 2 * V
          num_vertices := V
          num_hyperedges := V
          incidence := sort_all incidence
          vertex_to_original_id := (List.range V).map (· + 1) }

/-! ## Utilities -/

/-- Model of `std::lower_bound` on `v[first, first + count)`: the usual halving
loop, with `fuel` bounding the number of iterations. -/
def lower_bound (v : List Nat) (x : Nat) : Nat → Nat → Nat → Nat
  | 0, first, _ => first
  | fuel + 1, first, count =>
    if count = 0 then first
    else
      let step := count / 2
      if v.getD (first + step) 0 < x then
        lower_bound v x fuel (first + step + 1) (count - (step + 1))
      else lower_bound v x fuel first step

/-- Model of `sorted_vector_contains`, i.e. `std::binary_search`: the position
returned by `lower_bound` is inside the vector and does not hold a larger value. -/
def sorted_vector_contains (v : List Nat) (x : Nat) : Bool :=
  let first := lower_bound v x v.length 0 v.length
  decide (first ≠ v.length) && !decide (x < v.getD first 0)

/-- First loop of `prune_inactive_objects`: `new_object_id[i] = new_num_objects++`
for the active `i`. The state is `(new_num_objects, new_object_id)`. -/
def assign_new_ids (active : List Bool) (num_objects : Nat) : Nat × List Int :=
  (List.range num_objects).foldl
    (fun (s : Nat × List Int) i =>
      if active.getD i false then (s.1 + 1, s.2.set i (s.1 : Int)) else s)
    (0, List.replicate num_objects (-1))

/-- State of the second loop of `prune_inactive_objects`. -/
structure PruneState where
  incidence : List (List Nat)
  vertex_to_original_id : List Nat
  last_new_vertex_id : Int
  deriving DecidableEq, Repr

/-- Body of the second loop of `prune_inactive_objects` for object `i`. -/
def prune_object (num_vertices : Nat) (active : List Bool) (new_object_id : List Int)
    (s : PruneState) (i : Nat) : PruneState :=
  if active.getD i false then
    let new_incidence_list :=
      ((s.incidence.getD i []).filter (fun j => active.getD j false)).map
        (fun j => (new_object_id.getD j (-1)).toNat)
    let ni := (new_object_id.getD i (-1)).toNat
    let s := { s with incidence := s.incidence.set ni new_incidence_list }
    if i < num_vertices then
      { s with
        vertex_to_original_id :=
          s.vertex_to_original_id.set ni (s.vertex_to_original_id.getD i 0)
        last_new_vertex_id := new_object_id.getD i (-1) }
    else s
  else s

/-- Model of `prune_inactive_objects(active)`. The two `resize` calls shrink the
vectors, which is `List.take`. -/
def prune_inactive_objects (g : Graph) (active : List Bool) : Except Failure Graph :=
  if active.length ≠ g.num_objects then .error .assertion
  else
    let ids := assign_new_ids active g.num_objects
    let s := (List.range g.num_objects).foldl
      (prune_object g.num_vertices active ids.2)
      { incidence := g.incidence
        vertex_to_original_id := g.vertex_to_original_id
        last_new_vertex_id := -1 }
    if s.last_new_vertex_id = -1 then .error .assertion
    else
      let nv := (s.last_new_vertex_id + 1).toNat
      .ok { num_objects := ids.1
            num_vertices := nv
            num_hyperedges := ids.1 - nv
            incidence := s.incidence.take ids.1
            vertex_to_original_id := s.vertex_to_original_id.take nv }

/-! ## Minimality repair -/

/-- The type `Solution`, a `vector<bool>` indexed by vertex. -/
abbrev Solution := List Bool

/-- The statement `++hitcount[h - num_vertices]` for every `h` of an adjacency list. -/
def count_hits (num_vertices : Nat) (hitcount : List Int) (l : List Nat) : List Int :=
  l.foldl (fun hc h => hc.set (h - num_vertices) (hc.getD (h - num_vertices) 0 + 1)) hitcount

/-- First loop of `remove_unnecessary_nodes`: the hit counts of `solution`. -/
def initial_hitcount (g : Graph) (solution : Solution) : List Int :=
  (List.range g.num_vertices).foldl
    (fun hc i => if solution.getD i false then count_hits g.num_vertices hc (g.inc i) else hc)
    (List.replicate g.num_hyperedges 0)

/-- The statement `unnecessary[v] = false` for every `v` of an adjacency list. -/
def clear_all (unnecessary : List Bool) (l : List Nat) : List Bool :=
  l.foldl (fun un v => un.set v false) unnecessary

/-- Second loop of `remove_unnecessary_nodes`, over the hyperedge numbers `hs`:
the `assert(hitcount[h] > 0)` and the disqualification of the vertices of the
hyperedges hit once. -/
def mark_necessary (g : Graph) (hitcount : List Int) :
    List Nat → List Bool → Except Failure (List Bool)
  | [], unnecessary => .ok unnecessary
  | h :: rest, unnecessary =>
    if hitcount.getD h 0 > 0 then
      if hitcount.getD h 0 = 1 then
        mark_necessary g hitcount rest (clear_all unnecessary (g.inc (h + g.num_vertices)))
      else mark_necessary g hitcount rest unnecessary
    else .error .assertion

/-- State of the sweep of `remove_unnecessary_nodes`. -/
structure RepairState where
  solution : Solution
  hitcount : List Int
  unnecessary : List Bool
  deriving DecidableEq, Repr

/-- Inner loop of the sweep, over the hyperedges `h` of the removed vertex:
`--hitcount[h - num_vertices]`, the `assert`, and the disqualification. -/
def drop_hits (g : Graph) : List Nat → RepairState → Except Failure RepairState
  | [], s => .ok s
  | h :: rest, s =>
    let c := s.hitcount.getD (h - g.num_vertices) 0 - 1
    let s := { s with hitcount := s.hitcount.set (h - g.num_vertices) c }
    if c > 0 then
      if c = 1 then drop_hits g rest { s with unnecessary := clear_all s.unnecessary (g.inc h) }
      else drop_hits g rest s
    else .error .assertion

/-- The sweep of `remove_unnecessary_nodes`, over the vertices `vs`. -/
def sweep_vertices (g : Graph) : List Nat → RepairState → Except Failure RepairState
  | [], s => .ok s
  | v :: rest, s =>
    if s.unnecessary.getD v false then
      match drop_hits g (g.inc v) { s with solution := s.solution.set v false } with
      | .error e => .error e
      | .ok s => sweep_vertices g rest s
    else sweep_vertices g rest s

/-- Model of `remove_unnecessary_nodes(solution)`; the result is the repaired
`solution`. -/
def remove_unnecessary_nodes (g : Graph) (solution : Solution) : Except Failure Solution :=
  let hitcount := initial_hitcount g solution
  match mark_necessary g hitcount (List.range g.num_hyperedges) solution with
  | .error e => .error e
  | .ok unnecessary =>
    match sweep_vertices g (List.range g.num_vertices)
        { solution := solution, hitcount := hitcount, unnecessary := unnecessary } with
    | .error e => .error e
    | .ok s => .ok s.solution

/-! ## The reduction engine -/

/-- The locals of `greeduce` that the reduction engine works on, together with the
global `always_in_solution`. -/
structure Engine where
  active : List Bool
  degree : List Int
  Q : List Nat
  enqueued : List Bool
  num_active_hyperedges : Int
  solution : Solution
  always_in_solution : List Nat
  deriving DecidableEq, Repr

/-- The locals as `greeduce` initialises them: everything active and enqueued,
`degree[i] = incidence[i].size()`. -/
def init_engine (g : Graph) (always_in_solution : List Nat) : Engine :=
  { active := List.replicate g.num_objects true
    degree := (List.range g.num_objects).map (fun i => ((g.inc i).length : Int))
    Q := List.range g.num_objects
    enqueued := List.replicate g.num_objects true
    num_active_hyperedges := g.num_hyperedges
    solution := List.replicate g.num_vertices false
    always_in_solution := always_in_solution }

/-- One round of the loop that follows every deactivation:
`--degree[v]; if (active[v] && !enqueued[v]) { Q.push(v); enqueued[v] = true; }`. -/
def notify_one (st : Engine) (v : Nat) : Engine :=
  let st := { st with degree := st.degree.set v (st.degree.getD v 0 - 1) }
  if st.active.getD v false && !st.enqueued.getD v false then
    { st with Q := st.Q ++ [v], enqueued := st.enqueued.set v true }
  else st

/-- The loop `for (int v : incidence[r]) { --degree[v]; ... }` over an adjacency list. -/
def notify (st : Engine) (l : List Nat) : Engine := l.foldl notify_one st

/-- The statements `active[h] = false; --num_active_hyperedges;` and the notification
of the neighbours of `h`. -/
def deactivate_hyperedge (g : Graph) (st : Engine) (h : Nat) : Engine :=
  notify
    { st with
      active := st.active.set h false
      num_active_hyperedges := st.num_active_hyperedges - 1 }
    (g.inc h)

/-- The loop of the unit-edge rule over the hyperedges of the committed vertex:
every hyperedge that is still active is deactivated. -/
def cover_loop (g : Graph) (st : Engine) (l : List Nat) : Engine :=
  l.foldl (fun st h => if st.active.getD h false then deactivate_hyperedge g st h else st) st

/-- The loop of the greedy selection of `v` over its hyperedges: as `cover_loop`,
with `solution[v] = true` in front of every deactivation. -/
def select_loop (g : Graph) (v : Nat) (st : Engine) (l : List Nat) : Engine :=
  l.foldl
    (fun st h =>
      if st.active.getD h false then
        deactivate_hyperedge g { st with solution := st.solution.set v true } h
      else st)
    st

/-- The search for the unique active vertex of a unit hyperedge. The local `u`,
`-1` or a vertex, is an `Option`; `assert(u == -1)` fails on a second active vertex. -/
def find_unit (active : List Bool) : List Nat → Option Nat → Except Failure (Option Nat)
  | [], u => .ok u
  | v :: rest, u =>
    if active.getD v false then
      match u with
      | none => find_unit active rest (some v)
      | some _ => .error .assertion
    else find_unit active rest u

/-- The unit-edge rule for the popped hyperedge `x`. -/
def unit_edge_rule (g : Graph) (reduce_only_and_save : Bool) (x : Nat) (st : Engine) :
    Except Failure Engine :=
  match find_unit st.active (g.inc x) none with
  | .error e => .error e
  | .ok none => .error .assertion
  | .ok (some u) =>
    let st := { st with active := st.active.set u false }
    let st :=
      if reduce_only_and_save then
        { st with always_in_solution := st.always_in_solution ++ [g.vid u] }
      else { st with solution := st.solution.set u true }
    .ok (cover_loop g st (g.inc u))

/-- The call `candidates.insert(x)` on a `set<int>` kept as an increasing list. -/
def set_insert : List Nat → Nat → List Nat
  | [], x => [x]
  | a :: s, x => if x < a then x :: a :: s else if x = a then a :: s else a :: set_insert s x

/-- Candidate discovery of the domination rule: the neighbours of the neighbours
of `x`, skipping every list that would make the set exceed the cap. -/
def collect_candidates (g : Graph) (max_candidates_for_reduction : Nat) (x : Nat) : List Nat :=
  (g.inc x).foldl
    (fun candidates y =>
      if candidates.length + (g.inc y).length > max_candidates_for_reduction then candidates
      else (g.inc y).foldl set_insert candidates)
    []

/-- The subset test of the domination rule: no active `z` of `incidence[x]` is
missing from `incidence[y]`. -/
def x_is_subset_of_y (g : Graph) (st : Engine) (x y : Nat) : Bool :=
  (g.inc x).all (fun z => !(st.active.getD z false && !sorted_vector_contains (g.inc y) z))

/-- Removal of the object `r` by the domination rule. -/
def remove_dominated (g : Graph) (st : Engine) (r : Nat) : Engine :=
  let st := { st with active := st.active.set r false }
  let st :=
    if g.num_vertices ≤ r then
      { st with num_active_hyperedges := st.num_active_hyperedges - 1 }
    else st
  notify st (g.inc r)

/-- The loop of the domination rule over the candidates `y` of the popped `x`. -/
def dominate (g : Graph) (x : Nat) : List Nat → Engine → Except Failure Engine
  | [], st => .ok st
  | y :: rest, st =>
    if decide (x < g.num_vertices) ≠ decide (y < g.num_vertices) then .error .assertion
    else if x = y || !st.active.getD y false then dominate g x rest st
    else if st.degree.getD x 0 > st.degree.getD y 0 then dominate g x rest st
    else if x_is_subset_of_y g st x y then
      let r := if x < g.num_vertices then x else y
      let st := remove_dominated g st r
      if r = x then .ok st else dominate g x rest st
    else dominate g x rest st

/-- One iteration of `while (!Q.empty())` after the time check: pop `x` and apply
the unit-edge rule or the domination rule to it. -/
def reduce_step (g : Graph) (max_candidates_for_reduction : Nat) (reduce_only_and_save : Bool)
    (st : Engine) : Except Failure Engine :=
  match st.Q with
  | [] => .ok st
  | x :: rest =>
    if st.enqueued.getD x false then
      let st := { st with Q := rest, enqueued := st.enqueued.set x false }
      if max_candidates_for_reduction = 0 then .ok st
      else if !st.active.getD x false then .ok st
      else if g.num_vertices ≤ x ∧ st.degree.getD x 0 = 1 then
        unit_edge_rule g reduce_only_and_save x st
      else dominate g x (collect_candidates g max_candidates_for_reduction x) st
    else .error .assertion

/-- The loop `while (!Q.empty())`. `budget` is the clock of the reduction phase:
`some n` when `elapsed_time_ms() > REDUCTION_TIME_LIMIT_MS` turns true after `n`
more pops, `none` when it stays false. -/
def drain (g : Graph) (max_candidates_for_reduction : Nat) (reduce_only_and_save : Bool) :
    Nat → Option Nat → Engine → Except Failure Engine
  | 0, budget, st =>
    if st.Q.isEmpty then .ok st
    else if reduce_only_and_save && budget == some 0 then .ok st
    else .error .out_of_fuel
  | fuel + 1, budget, st =>
    if st.Q.isEmpty then .ok st
    else if reduce_only_and_save && budget == some 0 then .ok st
    else
      match reduce_step g max_candidates_for_reduction reduce_only_and_save st with
      | .error e => .error e
      | .ok st => drain g max_candidates_for_reduction reduce_only_and_save fuel
          (budget.map (· - 1)) st

/-- Fuel that `drain` is given: more than the pops a run can make. -/
def drain_fuel (g : Graph) : Nat := (g.num_objects + 1) * (g.num_objects + 1)

/-! ## The priority schedule -/

/-- The entries `(1, i)` of the vertices with `hint[i] == level`. -/
def level_block (g : Graph) (hint : Solution) (level : Nat) : List (Int × Int) :=
  ((List.range g.num_vertices).filter
    (fun i => (if hint.getD i false then 1 else 0) = level)).map
    (fun (i : Nat) => ((1 : Int), (i : Int)))

/-- The loop `for (size_t i = start; i < PQ.size(); ++i)`, which appends
`(k + 1, v)` for every `(k, v)` it meets with `k < degree[v]`. -/
def sweep (degree : List Int) : Nat → Nat → List (Int × Int) → Except Failure (List (Int × Int))
  | 0, i, PQ => if i < PQ.length then .error .out_of_fuel else .ok PQ
  | fuel + 1, i, PQ =>
    if i < PQ.length then
      let e := PQ.getD i (0, 0)
      if e.1 ≥ degree.getD e.2.toNat 0 then sweep degree fuel (i + 1) PQ
      else sweep degree fuel (i + 1) (PQ ++ [(e.1 + 1, e.2)])
    else .ok PQ

/-- Fuel for `sweep`: the number of entries the vertices of a block give rise to. -/
def sweep_fuel (degree : List Int) (block : List (Int × Int)) : Nat :=
  (block.map (fun e => (degree.getD e.2.toNat 0 - e.1).toNat + 1)).sum

/-- One round of `for (int level = 0; level < 2; ++level)`; `shuffle` is the
outcome of `shuffle(PQ.begin() + start, PQ.end(), prg)` on the block. -/
def add_level (g : Graph) (hint : Solution) (degree : List Int)
    (shuffle : List (Int × Int) → List (Int × Int)) (level : Nat) (PQ : List (Int × Int)) :
    Except Failure (List (Int × Int)) :=
  let start := PQ.length
  let block := shuffle (level_block g hint level)
  sweep degree (sweep_fuel degree block) start (PQ ++ block)

/-- The schedule `PQ` of a call with `reduce_only_and_save = false`. -/
def build_schedule (g : Graph) (hint : Solution) (degree : List Int)
    (shuffle : Nat → List (Int × Int) → List (Int × Int)) : Except Failure (List (Int × Int)) :=
  match add_level g hint degree (shuffle 0) 0 [] with
  | .error e => .error e
  | .ok PQ =>
    match add_level g hint degree (shuffle 1) 1 PQ with
    | .error e => .error e
    | .ok PQ => .ok PQ.reverse

/-! ## greeduce -/

/-- The greedy choice for the schedule entry `iter`, made when its vertex is active
and has the required degree. -/
def greedy_choice (g : Graph) (v : Nat) (st : Engine) : Engine :=
  select_loop g v { st with active := st.active.set v false } (g.inc v)

/-- The loop `for (auto iter : PQ)`. With `reduce_only_and_save` the body leaves the
function after the first drain; the loop then stops with the drained state and
the caller prunes. -/
def schedule_loop (g : Graph) (max_candidates_for_reduction : Nat) (reduce_only_and_save : Bool)
    (budget : Option Nat) : List (Int × Int) → Engine → Except Failure Engine
  | [], st => .ok st
  | iter :: rest, st =>
    match drain g max_candidates_for_reduction reduce_only_and_save (drain_fuel g) budget st with
    | .error e => .error e
    | .ok st =>
      if reduce_only_and_save then .ok st
      else
        let v := iter.2.toNat
        if !st.active.getD v false then
          schedule_loop g max_candidates_for_reduction reduce_only_and_save budget rest st
        else if iter.1 ≠ st.degree.getD v 0 then
          schedule_loop g max_candidates_for_reduction reduce_only_and_save budget rest st
        else
          let st := greedy_choice g v st
          if st.num_active_hyperedges = 0 then .ok st
          else schedule_loop g max_candidates_for_reduction reduce_only_and_save budget rest st

/-- The globals that `greeduce` and `check_signal` read and write. -/
structure Globals where
  graph : Graph
  always_in_solution : List Nat
  best : Solution
  best_cost : Int
  deriving DecidableEq, Repr

/-- The part of `greeduce` up to the end of the loop over `PQ`: the state in which
a call with `reduce_only_and_save = false` reaches `assert(num_active_hyperedges == 0)`,
and in which a call with `reduce_only_and_save = true` calls `prune_inactive_objects`. -/
def greeduce_schedule (gl : Globals) (hint : Solution) (max_candidates_for_reduction : Nat)
    (reduce_only_and_save : Bool) (shuffle : Nat → List (Int × Int) → List (Int × Int))
    (budget : Option Nat) : Except Failure Engine :=
  let st := init_engine gl.graph gl.always_in_solution
  let schedule :=
    if reduce_only_and_save then .ok [(-1, -1)]
    else build_schedule gl.graph hint st.degree shuffle
  match schedule with
  | .error e => .error e
  | .ok PQ =>
    schedule_loop gl.graph max_candidates_for_reduction reduce_only_and_save budget PQ st

/-- The cost of a solution: `int sum = 0; for (bool x : solution) sum += x;`. -/
def solution_cost (solution : Solution) : Int :=
  solution.foldl (fun sum x => sum + if x then 1 else 0) 0

/-- Model of `greeduce(hint, max_candidates_for_reduction, reduce_only_and_save)`
on the globals, for a run in which `check_signal` does not fire. -/
def greeduce (gl : Globals) (hint : Solution) (max_candidates_for_reduction : Nat)
    (reduce_only_and_save : Bool) (shuffle : Nat → List (Int × Int) → List (Int × Int))
    (budget : Option Nat) : Except Failure Globals :=
  match greeduce_schedule gl hint max_candidates_for_reduction reduce_only_and_save
      shuffle budget with
  | .error e => .error e
  | .ok st =>
    if reduce_only_and_save then
      match prune_inactive_objects gl.graph st.active with
      | .error e => .error e
      | .ok g => .ok { gl with graph := g, always_in_solution := st.always_in_solution }
    else if st.num_active_hyperedges ≠ 0 then .error .assertion
    else
      match remove_unnecessary_nodes gl.graph st.solution with
      | .error e => .error e
      | .ok solution =>
        let sum := solution_cost solution
        if sum < gl.best_cost then .ok { gl with best := solution, best_cost := sum }
        else .ok gl

/-- The cap `-1` converted to `size_t`. -/
def unbounded_cap : Nat := 2 ^ 64 - 1

/-- Model of `fast_lazy_reductions`: `greeduce(dummy, -1, true)`. -/
def fast_lazy_reductions (gl : Globals) (budget : Option Nat) : Except Failure Globals :=
  greeduce gl [] unbounded_cap true (fun _ l => l) budget

/-- The globals when `main` has called `read_input`: nothing forced, `best` empty
and `best_cost` zero, as static initialisation leaves them. -/
def initial_globals (g : Graph) : Globals :=
  { graph := g, always_in_solution := [], best := [], best_cost := 0 }

/-- The initial best of `main`: `best.assign(num_vertices, true); best_cost = num_vertices;`. -/
def init_best (gl : Globals) : Globals :=
  { gl with
    best := List.replicate gl.graph.num_vertices true
    best_cost := gl.graph.num_vertices }

/-- The mutation of the hint in `main`: `hint[random_vertex(prg)] = false` for
each of the drawn positions. -/
def mutate (hint : Solution) (picks : List Nat) : Solution :=
  picks.foldl (fun h p => h.set p false) hint

/-- One iteration of the search loop of `main`; `picks` are the `mutation_size`
positions drawn when `iter > 0`. -/
def search_iteration (gl : Globals) (iter : Nat) (picks : List Nat)
    (shuffle : Nat → List (Int × Int) → List (Int × Int)) : Except Failure Globals :=
  let hint := if iter > 0 then mutate gl.best picks else gl.best
  greeduce gl hint (min iter 1000000) false shuffle none

/-- What `check_signal` prints before `exit(0)`: the first line and the ids. A
read of `best[i]` outside the vector has no defined value, which is `none`. -/
def emitted_ids (gl : Globals) : Option (List Nat) :=
  ((List.range gl.graph.num_vertices).foldl
    (fun (out : Option (List Nat)) i =>
      match out, gl.best.get? i with
      | some ids, some b => some (if b then ids ++ [gl.graph.vid i] else ids)
      | _, _ => none)
    (some [])).map (· ++ gl.always_in_solution)

/-- Model of `check_signal`: `none` when neither the signal nor the deadline is
there, otherwise the output of the process, the first line and the ids printed
(if all reads are defined). -/
def check_signal (fired : Bool) (gl : Globals) : Option (Int × Option (List Nat)) :=
  if fired then some (gl.best_cost + gl.always_in_solution.length, emitted_ids gl)
  else none

/-! ## Covers -/

/-- The vertex set `C` (internal indices) hits every hyperedge of `g`. -/
def Graph.Hits (g : Graph) (C : Nat → Prop) : Prop :=
  ∀ h < g.num_objects, g.num_vertices ≤ h → ∃ v ∈ g.inc h, C v

/-- The set `S` of original ids hits every hyperedge of `g`. -/
def Graph.HitsById (g : Graph) (S : Nat → Prop) : Prop :=
  ∀ h < g.num_objects, g.num_vertices ≤ h → ∃ v ∈ g.inc h, S (g.vid v)

/-- Vertices `i` and `j` (0-based) are joined by an edge of the `p ds` edge list. -/
def ds_adjacent (edges : List (Int × Int)) (i j : Nat) : Prop :=
  (((i : Int) + 1, (j : Int) + 1) ∈ edges) ∨ (((j : Int) + 1, (i : Int) + 1) ∈ edges)

/-- Glossary, *Dominating Set*: every vertex is in `S` or adjacent to a vertex of `S`. -/
def Dominating (V : Nat) (edges : List (Int × Int)) (S : Nat → Prop) : Prop :=
  ∀ i < V, S i ∨ ∃ j < V, ds_adjacent edges i j ∧ S j

/-- The four adjacency entries that the edge `e` of a `p ds` input contributes. -/
def ds_edge_entry (V : Nat) (e : Int × Int) (k y : Nat) : Prop :=
  (k = (e.1 - 1).toNat ∧ y = V + (e.2 - 1).toNat) ∨
  (k = (e.2 - 1).toNat ∧ y = V + (e.1 - 1).toNat) ∨
  (k = V + (e.1 - 1).toNat ∧ y = (e.2 - 1).toNat) ∨
  (k = V + (e.2 - 1).toNat ∧ y = (e.1 - 1).toNat)

/-! ## Well-formed instances -/

/-- The invariants of the incidence structure (§3): the index space is split in
vertices and hyperedges, adjacency lists stay inside it, join a vertex to
hyperedges only and a hyperedge to vertices only, are strictly increasing
(sorted and duplicate-free), and adjacency is symmetric. -/
structure WellFormed (g : Graph) : Prop where
  objects : g.num_objects = g.num_vertices + g.num_hyperedges
  incidence_length : g.incidence.length = g.num_objects
  ids_length : g.vertex_to_original_id.length = g.num_vertices
  bipartite : ∀ i < g.num_objects, ∀ j ∈ g.inc i,
    j < g.num_objects ∧ (i < g.num_vertices ↔ g.num_vertices ≤ j)
  sorted : ∀ i < g.num_objects, (g.inc i).Sorted (· < ·)
  symmetric : ∀ i < g.num_objects, ∀ j ∈ g.inc i, i ∈ g.inc j

/-- Every hyperedge has at least one vertex. -/
def NonemptyHyperedges (g : Graph) : Prop :=
  ∀ h < g.num_objects, g.num_vertices ≤ h → g.inc h ≠ []

/-- The vertex set of a `vector<bool>`. -/
def members (solution : Solution) (v : Nat) : Prop := solution.getD v false = true

/-- The number of vertices of `solution` on the adjacency list of `h`. -/
def hit_count (g : Graph) (solution : Solution) (h : Nat) : Nat :=
  (g.inc h).countP (fun v => solution.getD v false)

instance (g : Graph) : Decidable (WellFormed g) :=
  decidable_of_iff
    (g.num_objects = g.num_vertices + g.num_hyperedges ∧
      g.incidence.length = g.num_objects ∧
      g.vertex_to_original_id.length = g.num_vertices ∧
      (∀ i < g.num_objects, ∀ j ∈ g.inc i,
        j < g.num_objects ∧ (i < g.num_vertices ↔ g.num_vertices ≤ j)) ∧
      (∀ i < g.num_objects, (g.inc i).Sorted (· < ·)) ∧
      (∀ i < g.num_objects, ∀ j ∈ g.inc i, i ∈ g.inc j))
    ⟨fun h => ⟨h.1, h.2.1, h.2.2.1, h.2.2.2.1, h.2.2.2.2.1, h.2.2.2.2.2⟩,
      fun h => ⟨h.1, h.2, h.3, h.4, h.5, h.6⟩⟩

instance (g : Graph) : Decidable (NonemptyHyperedges g) := by
  unfold NonemptyHyperedges
  infer_instance

instance (g : Graph) (C : Nat → Prop) [DecidablePred C] : Decidable (g.Hits C) := by
  unfold Graph.Hits
  infer_instance

instance (g : Graph) (S : Nat → Prop) [DecidablePred S] : Decidable (g.HitsById S) := by
  unfold Graph.HitsById
  infer_instance

instance (solution : Solution) : DecidablePred (members solution) := by
  intro v
  unfold members
  infer_instance

/-! ## Instances used as examples -/

/-- The triangle `{1,2}, {2,3}, {1,3}` with a fourth vertex added to the first
hyperedge: `p hs 4 3`, lines `1 2 4`, `2 3`, `1 3`. -/
def pendant_triangle : Graph := read_input_hs 4 [[1, 2, 4], [2, 3], [1, 3]]

/-- The globals after `fast_lazy_reductions` on `pendant_triangle`: vertex 4 is
dominated and removed, the triangle is left, nothing is forced. -/
def pendant_triangle_kernel : Globals :=
  { graph :=
      { num_objects := 6
        num_vertices := 3
        num_hyperedges := 3
        incidence := [[3, 5], [3, 4], [4, 5], [0, 1], [1, 2], [0, 2]]
        vertex_to_original_id := [1, 2, 3] }
    always_in_solution := []
    best := []
    best_cost := 0 }

/-- Scenario S1: `p hs 3 2`, lines `1 2`, `2 3`. -/
def scenario_S1 : Graph := read_input_hs 3 [[1, 2], [2, 3]]

/-- Scenario S6: `p hs 5 5`, lines `1`, `2`, `3`, `4`, `5`. -/
def scenario_S6 : Graph := read_input_hs 5 [[1], [2], [3], [4], [5]]

/-- The equivalence of kernelization soundness (§8, property 4) for the set `S` of
original ids: `S` hits every hyperedge of the instance `g` iff it contains the
forced set of `gl'` and, without the forced ids and restricted to the vertices of
the kernel, hits every hyperedge of the kernel. -/
def KernelEquivalence (g : Graph) (gl' : Globals) (S : Nat → Prop) : Prop :=
  g.HitsById S ↔
    ((∀ id ∈ gl'.always_in_solution, S id) ∧
      gl'.graph.Hits (fun c => c < gl'.graph.num_vertices ∧ S (gl'.graph.vid c) ∧
        gl'.graph.vid c ∉ gl'.always_in_solution))

/-! ## Invariants used in the proofs -/

/-- Invariant of the sweep of `remove_unnecessary_nodes`. `todo` holds the
hyperedges of the vertex being removed whose hit count is still to be
decremented; between two vertices it is empty. -/
structure RepairInv (g : Graph) (todo : List Nat) (s : RepairState) : Prop where
  sol_len : s.solution.length = g.num_vertices
  hc_len : s.hitcount.length = g.num_hyperedges
  un_len : s.unnecessary.length = g.num_vertices
  count : ∀ k < g.num_hyperedges,
    s.hitcount.getD k 0 =
      (hit_count g s.solution (g.num_vertices + k) : Int) +
        if g.num_vertices + k ∈ todo then 1 else 0
  pos : ∀ k < g.num_hyperedges, 1 ≤ s.hitcount.getD k 0
  todo_two : ∀ h ∈ todo, 2 ≤ s.hitcount.getD (h - g.num_vertices) 0
  spare : ∀ w < g.num_vertices, s.unnecessary.getD w false = true →
    s.solution.getD w false = true →
    ∀ h ∈ g.inc w, 2 ≤ s.hitcount.getD (h - g.num_vertices) 0
  needed : ∀ w < g.num_vertices, s.solution.getD w false = true →
    s.unnecessary.getD w false = false →
    ∃ h ∈ g.inc w, s.hitcount.getD (h - g.num_vertices) 0 = 1

/-- The flag `active[i]` of an engine state. -/
def Engine.act (st : Engine) (i : Nat) : Bool := st.active.getD i false

/-- The counter `degree[i]` of an engine state. -/
def Engine.deg (st : Engine) (i : Nat) : Int := st.degree.getD i 0

/-- The flag `enqueued[i]` of an engine state. -/
def Engine.enq (st : Engine) (i : Nat) : Bool := st.enqueued.getD i false

/-- The number of active neighbours of `i`. -/
def active_count (g : Graph) (st : Engine) (i : Nat) : Nat :=
  (g.inc i).countP (fun j => st.act j)

/-- What the notification loop over the duplicate-free list `l` does to a state. -/
structure Notified (st : Engine) (l : List Nat) (st' : Engine) : Prop where
  active_eq : st'.active = st.active
  nah_eq : st'.num_active_hyperedges = st.num_active_hyperedges
  solution_eq : st'.solution = st.solution
  forced_eq : st'.always_in_solution = st.always_in_solution
  degree_len : st'.degree.length = st.degree.length
  enq_len : st'.enqueued.length = st.enqueued.length
  deg : ∀ i, st'.deg i = st.deg i - if i ∈ l then 1 else 0
  queue : ∀ x, x ∈ st'.Q ↔ x ∈ st.Q ∨ (x ∈ l ∧ st.act x = true)
  q_nodup : st'.Q.Nodup
  q_enq : ∀ x, x ∈ st'.Q ↔ st'.enq x = true

/-- The bookkeeping invariant of the engine: the vectors have their sizes, the
worklist holds exactly the enqueued objects, once each, `degree` counts the active
neighbours of every active object outside `ex`, and `num_active_hyperedges`
counts the active hyperedges. -/
structure EngineInv (g : Graph) (ex : Nat → Prop) (st : Engine) : Prop where
  active_len : st.active.length = g.num_objects
  degree_len : st.degree.length = g.num_objects
  enq_len : st.enqueued.length = g.num_objects
  sol_len : st.solution.length = g.num_vertices
  q_nodup : st.Q.Nodup
  q_enq : ∀ x, x ∈ st.Q ↔ st.enq x = true
  coherent : ∀ i < g.num_objects, st.act i = true → ¬ ex i →
    st.deg i = (active_count g st i : Int)
  nah : st.num_active_hyperedges = (((st.active.drop g.num_vertices).count true : Nat) : Int)

/-- Nothing is ever reactivated and no degree grows. -/
structure Progress (st st' : Engine) : Prop where
  act : ∀ i, st'.act i = true → st.act i = true
  deg : ∀ i, st'.deg i ≤ st.deg i
  count : st'.active.count true ≤ st.active.count true
  sol : ∀ v, st.solution.getD v false = true → st'.solution.getD v false = true

/-- Every active neighbour of `x` is a neighbour of `y`. -/
def Dominated (g : Graph) (st : Engine) (x y : Nat) : Prop :=
  ∀ z ∈ g.inc x, st.act z = true → z ∈ g.inc y

/-- The commitment of vertex `u` by the unit-edge rule: to the forced set in a
kernelizing call, to the solution otherwise. -/
def Commit (g : Graph) (reduce_only_and_save : Bool) (u : Nat) (st st' : Engine) : Prop :=
  if reduce_only_and_save then
    st'.always_in_solution = st.always_in_solution ++ [g.vid u] ∧ st'.solution = st.solution
  else st'.solution = st.solution.set u true ∧ st'.always_in_solution = st.always_in_solution

/-- The rule applications of the engine, as changes of `active`, `solution` and
`always_in_solution`. -/
inductive Move (g : Graph) (reduce_only_and_save : Bool) (st st' : Engine) : Prop
  /-- Nothing that the rules look at changes (a pop without a rule). -/
  | idle (hact : ∀ i, st'.act i = st.act i) (hsol : st'.solution = st.solution)
      (hforced : st'.always_in_solution = st.always_in_solution)
  /-- Unit-edge rule on hyperedge `x` with its only active vertex `u`. -/
  | unit (x u : Nat) (hx : g.num_vertices ≤ x) (hax : st.act x = true) (hu : u ∈ g.inc x)
      (hau : st.act u = true) (huniq : ∀ v ∈ g.inc x, st.act v = true → v = u)
      (hact : ∀ i, st'.act i = (st.act i && decide (i ≠ u) && decide (i ∉ g.inc u)))
      (hcommit : Commit g reduce_only_and_save u st st')
  /-- Greedy selection of the active vertex `v`. -/
  | greedy (v : Nat) (hv : v < g.num_vertices) (hav : st.act v = true)
      (hros : reduce_only_and_save = false)
      (hact : ∀ i, st'.act i = (st.act i && decide (i ≠ v) && decide (i ∉ g.inc v)))
      (hsol : st'.solution =
        if ∃ h ∈ g.inc v, st.act h = true then st.solution.set v true else st.solution)
      (hforced : st'.always_in_solution = st.always_in_solution)
  /-- Domination rule on vertices: the dominated `x` is removed. -/
  | dom_vertex (x y : Nat) (hx : x < g.num_vertices) (hy : y < g.num_vertices)
      (hax : st.act x = true) (hay : st.act y = true) (hne : x ≠ y) (hdom : Dominated g st x y)
      (hact : ∀ i, st'.act i = (st.act i && decide (i ≠ x)))
      (hsol : st'.solution = st.solution)
      (hforced : st'.always_in_solution = st.always_in_solution)
  /-- Domination rule on hyperedges: the dominating `y` is removed; `x` is not
  a unit hyperedge, which the unit-edge rule would have taken. -/
  | dom_hyperedge (x y : Nat) (hx : g.num_vertices ≤ x) (hy : g.num_vertices ≤ y)
      (hax : st.act x = true) (hay : st.act y = true) (hne : x ≠ y) (hdom : Dominated g st x y)
      (hnu : active_count g st x ≠ 1)
      (hact : ∀ i, st'.act i = (st.act i && decide (i ≠ y)))
      (hsol : st'.solution = st.solution)
      (hforced : st'.always_in_solution = st.always_in_solution)

/-- What the deactivation of the active object `r`, followed by the notification
of its neighbours, does to a state. -/
structure Deactivated (g : Graph) (st : Engine) (r : Nat) (st' : Engine) : Prop where
  act : ∀ i, st'.act i = (st.act i && decide (i ≠ r))
  count : st'.active.count true + 1 = st.active.count true
  solution_eq : st'.solution = st.solution
  forced_eq : st'.always_in_solution = st.always_in_solution
  deg : ∀ i, st'.deg i = st.deg i - if i ∈ g.inc r then 1 else 0
  queue : ∀ x, x ∈ st'.Q ↔ x ∈ st.Q ∨ (x ∈ g.inc r ∧ st.act x = true)

/-- What the loop over the hyperedges `l` of a committed vertex does to a state:
the hyperedges of `l` that were active are deactivated. -/
structure Covered (st : Engine) (l : List Nat) (st' : Engine) : Prop where
  act : ∀ i, st'.act i = (st.act i && decide (i ∉ l))
  count : st'.active.count true ≤ st.active.count true
  solution_eq : st'.solution = st.solution
  forced_eq : st'.always_in_solution = st.always_in_solution
  deg : ∀ i, st'.deg i ≤ st.deg i
  queue : ∀ x ∈ st.Q, x ∈ st'.Q

/-- A sequence of rule applications. -/
def Steps (g : Graph) (reduce_only_and_save : Bool) : Engine → Engine → Prop :=
  Relation.ReflTransGen (Move g reduce_only_and_save)

/-- The quantity that every pop of the worklist lowers. -/
def measure (g : Graph) (st : Engine) : Nat :=
  st.Q.length + g.num_objects * st.active.count true

/-- Every active hyperedge has an active vertex. -/
def Positive (g : Graph) (st : Engine) : Prop :=
  ∀ h, g.num_vertices ≤ h → st.act h = true → ∃ v ∈ g.inc h, st.act v = true

/-- The vertex `v` has been committed: forced, in a kernelizing call, or put in
the solution. -/
def Chosen (g : Graph) (reduce_only_and_save : Bool) (st : Engine) (v : Nat) : Prop :=
  if reduce_only_and_save then g.vid v ∈ st.always_in_solution
  else st.solution.getD v false = true

/-- Every inactive hyperedge holds a committed vertex, or holds all the active
vertices of some active hyperedge. -/
def Cov (g : Graph) (reduce_only_and_save : Bool) (st : Engine) : Prop :=
  ∀ h < g.num_objects, g.num_vertices ≤ h → st.act h = false →
    (∃ v ∈ g.inc h, Chosen g reduce_only_and_save st v) ∨
    (∃ h', g.num_vertices ≤ h' ∧ st.act h' = true ∧
      ∀ v ∈ g.inc h', st.act v = true → v ∈ g.inc h)

/-- The semantic invariant of the engine. -/
structure Sound (g : Graph) (reduce_only_and_save : Bool) (st : Engine) : Prop where
  sol_len : st.solution.length = g.num_vertices
  positive : Positive g st
  cov : Cov g reduce_only_and_save st

/-- Invariant of the loop that extends the schedule: `done` are the entries the
loop has passed (with the earlier levels), `todo` the entries still ahead.
Entries are in range, every passed entry below the degree of its vertex has its
successor, the entries of a vertex come with growing requirement, and the
entries ahead are the latest of their vertices, one per vertex. -/
structure SweepInv (degree : List Int) (nv : Nat) (done todo : List (Int × Int)) : Prop where
  valid : ∀ e ∈ done ++ todo,
    1 ≤ e.1 ∧ 0 ≤ e.2 ∧ e.2 < nv ∧ (e.1 ≤ 1 ∨ e.1 ≤ degree.getD e.2.toNat 0)
  closed : ∀ e ∈ done, e.1 < degree.getD e.2.toNat 0 → (e.1 + 1, e.2) ∈ done ++ todo
  ordered : (done ++ todo).Pairwise (fun a b => a.2 = b.2 → a.1 < b.1)
  maximal : ∀ e ∈ todo, ∀ e' ∈ done ++ todo, e'.2 = e.2 → e'.1 ≤ e.1
  distinct : (todo.map Prod.snd).Nodup

/-- Invariant of the loop over the schedule: every active vertex still has, among
the entries to come, one for each requirement up to its degree. -/
def SchedInv (g : Graph) (rest : List (Int × Int)) (st : Engine) : Prop :=
  ∀ v < g.num_vertices, st.act v = true →
    ∀ k : Int, 1 ≤ k → k ≤ st.deg v → (k, (v : Int)) ∈ rest

/-- The new index of object `i` after compaction: the number of active objects
below `i`. -/
def new_index (active : List Bool) (i : Nat) : Nat := (active.take i).count true

/-- The new adjacency list of an active object: the new indices of its active
neighbours, in the old order. -/
def new_incidence (g : Graph) (active : List Bool) (i : Nat) : List Nat :=
  ((g.inc i).filter (fun j => active.getD j false)).map (new_index active)

/-- Invariant of the second loop of `prune_inactive_objects` after the objects
below `m`: the lists of the active ones are in their new places, everything from
the next free place on is untouched. -/
structure PruneInv (g : Graph) (active : List Bool) (m : Nat) (s : PruneState) : Prop where
  inc_len : s.incidence.length = g.incidence.length
  vid_len : s.vertex_to_original_id.length = g.vertex_to_original_id.length
  inc_done : ∀ i < m, active.getD i false = true →
    s.incidence.getD (new_index active i) [] = new_incidence g active i
  inc_rest : ∀ j, new_index active m ≤ j → s.incidence.getD j [] = g.incidence.getD j []
  vid_done : ∀ i < m, i < g.num_vertices → active.getD i false = true →
    s.vertex_to_original_id.getD (new_index active i) 0 = g.vid i
  vid_rest : ∀ j, new_index active (min m g.num_vertices) ≤ j →
    s.vertex_to_original_id.getD j 0 = g.vertex_to_original_id.getD j 0
  last : s.last_new_vertex_id = (new_index active (min m g.num_vertices) : Int) - 1

/-- The graph `g'` is the compaction of `g` under the activity vector. -/
structure Pruned (g : Graph) (active : List Bool) (g' : Graph) : Prop where
  num_vertices : g'.num_vertices = new_index active g.num_vertices
  num_objects : g'.num_objects = new_index active g.num_objects
  num_hyperedges : g'.num_hyperedges = g'.num_objects - g'.num_vertices
  inc : ∀ i < g.num_objects, active.getD i false = true →
    g'.inc (new_index active i) = new_incidence g active i
  vid : ∀ v < g.num_vertices, active.getD v false = true →
    g'.vid (new_index active v) = g.vid v
  inc_len : g'.incidence.length = g'.num_objects
  vid_len : g'.vertex_to_original_id.length = g'.num_vertices

/-- The forced set of a kernelizing call that started with an empty one: the ids
of distinct vertices `U`, in commit order, all of them inactive. -/
def ForcedInv (g : Graph) (st : Engine) : Prop :=
  ∃ U : List Nat, st.always_in_solution = U.map g.vid ∧ U.Nodup ∧
    ∀ u ∈ U, u < g.num_vertices ∧ st.act u = false

/-- The vertex `v` of the unit hyperedge `h` is forced, or both are active. -/
def UnitCore (g : Graph) (h v : Nat) (st : Engine) : Prop :=
  g.vid v ∈ st.always_in_solution ∨ (st.act h = true ∧ st.act v = true)

/-- The vertex `v` of the unit hyperedge `h` is forced, or both are active and
`h` waits in the worklist. -/
def UnitPending (g : Graph) (h v : Nat) (st : Engine) : Prop :=
  g.vid v ∈ st.always_in_solution ∨ (st.act h = true ∧ st.act v = true ∧ h ∈ st.Q)

/-- The finite vertex set `C` is a hitting set of `g`. -/
def IsCover (g : Graph) (C : Finset Nat) : Prop :=
  (∀ v ∈ C, v < g.num_vertices) ∧ g.Hits (fun v => v ∈ C)

/-- The number `m` is the minimum size of a hitting set of `g`. -/
def MinCover (g : Graph) (m : Nat) : Prop :=
  (∃ C, IsCover g C ∧ C.card = m) ∧ ∀ C, IsCover g C → m ≤ C.card

/-- The set `R` of active vertices hits every active hyperedge. -/
def Residual (g : Graph) (st : Engine) (R : Finset Nat) : Prop :=
  (∀ v ∈ R, v < g.num_vertices ∧ st.act v = true) ∧
  ∀ h, g.num_vertices ≤ h → st.act h = true → ∃ v ∈ g.inc h, v ∈ R

/-- No optimality is lost: every hitting set of the instance is at least as large
as the forced set together with some set of active vertices that hits the active
hyperedges. -/
def Opt (g : Graph) (st : Engine) : Prop :=
  ∀ C : Finset Nat, IsCover g C →
    ∃ R, Residual g st R ∧ R.card + st.always_in_solution.length ≤ C.card

/-! ## The points of a run between rule applications -/

/-- A point of a call of `greeduce` at which no rule application is under way,
with the locals at that point. -/
inductive Event where
  /-- The locals have been initialised. -/
  | start (st : Engine)
  /-- The object `x` has been popped from the worklist and `enqueued[x]` cleared. -/
  | popped (x : Nat) (st : Engine)
  /-- The unit-edge rule has been applied to the popped hyperedge `x`. -/
  | unit_edge (x : Nat) (st : Engine)
  /-- The domination rule, run for the popped `x`, has made the removal that the
  candidate `y` gave rise to. -/
  | removal (x y : Nat) (st : Engine)
  /-- The loop `while (!Q.empty())` has ended. -/
  | drained (st : Engine)
  /-- The schedule entry `iter` has passed the test at `before`, and the greedy
  selection of its vertex has been completed. -/
  | selected (iter : Int × Int) (before st : Engine)
  deriving DecidableEq, Repr

/-- The locals at a point of the run. -/
def Event.state : Event → Engine
  | .start st => st
  | .popped _ st => st
  | .unit_edge _ st => st
  | .removal _ _ st => st
  | .drained st => st
  | .selected _ _ st => st

/-- The points that the loop of the domination rule passes: as `dominate`, noting
the state after every removal. -/
def dominate_events (g : Graph) (x : Nat) : List Nat → Engine → List Event
  | [], _ => []
  | y :: rest, st =>
    if decide (x < g.num_vertices) ≠ decide (y < g.num_vertices) then []
    else if x = y || !st.active.getD y false then dominate_events g x rest st
    else if st.degree.getD x 0 > st.degree.getD y 0 then dominate_events g x rest st
    else if x_is_subset_of_y g st x y then
      let r := if x < g.num_vertices then x else y
      let st := remove_dominated g st r
      if r = x then [.removal x y st] else .removal x y st :: dominate_events g x rest st
    else dominate_events g x rest st

/-- The point that the unit-edge rule for the popped hyperedge `x` ends in, if its
assertions hold. -/
def unit_edge_events (g : Graph) (reduce_only_and_save : Bool) (x : Nat) (st : Engine) :
    List Event :=
  match unit_edge_rule g reduce_only_and_save x st with
  | .error _ => []
  | .ok st => [.unit_edge x st]

/-- The points that one iteration of `while (!Q.empty())` passes: as `reduce_step`,
noting the state after the pop and after every rule application. -/
def reduce_events (g : Graph) (max_candidates_for_reduction : Nat) (reduce_only_and_save : Bool)
    (st : Engine) : List Event :=
  match st.Q with
  | [] => []
  | x :: rest =>
    if st.enqueued.getD x false then
      let st := { st with Q := rest, enqueued := st.enqueued.set x false }
      .popped x st ::
        (if max_candidates_for_reduction = 0 then []
         else if !st.active.getD x false then []
         else if g.num_vertices ≤ x ∧ st.degree.getD x 0 = 1 then
           unit_edge_events g reduce_only_and_save x st
         else dominate_events g x (collect_candidates g max_candidates_for_reduction x) st)
    else []

/-- The points that the loop `while (!Q.empty())` passes: as `drain`, with the
points of every iteration and the state in which the loop ends. -/
def drain_events (g : Graph) (max_candidates_for_reduction : Nat) (reduce_only_and_save : Bool) :
    Nat → Option Nat → Engine → List Event
  | 0, budget, st =>
    if st.Q.isEmpty then [.drained st]
    else if reduce_only_and_save && budget == some 0 then [.drained st]
    else []
  | fuel + 1, budget, st =>
    if st.Q.isEmpty then [.drained st]
    else if reduce_only_and_save && budget == some 0 then [.drained st]
    else
      reduce_events g max_candidates_for_reduction reduce_only_and_save st ++
        match reduce_step g max_candidates_for_reduction reduce_only_and_save st with
        | .error _ => []
        | .ok st => drain_events g max_candidates_for_reduction reduce_only_and_save fuel
            (budget.map (· - 1)) st

/-- The points that the loop `for (auto iter : PQ)` passes: as `schedule_loop`, with
the points of every drain and every greedy selection. -/
def schedule_events (g : Graph) (max_candidates_for_reduction : Nat) (reduce_only_and_save : Bool)
    (budget : Option Nat) : List (Int × Int) → Engine → List Event
  | [], _ => []
  | iter :: rest, st =>
    drain_events g max_candidates_for_reduction reduce_only_and_save (drain_fuel g) budget st ++
      match drain g max_candidates_for_reduction reduce_only_and_save (drain_fuel g) budget st with
      | .error _ => []
      | .ok st =>
        if reduce_only_and_save then []
        else
          let v := iter.2.toNat
          if !st.active.getD v false then
            schedule_events g max_candidates_for_reduction reduce_only_and_save budget rest st
          else if iter.1 ≠ st.degree.getD v 0 then
            schedule_events g max_candidates_for_reduction reduce_only_and_save budget rest st
          else
            let st' := greedy_choice g v st
            .selected iter st st' ::
              (if st'.num_active_hyperedges = 0 then []
               else
                schedule_events g max_candidates_for_reduction reduce_only_and_save budget rest
                  st')

/-- The points that a call of `greeduce` passes up to the end of the loop over
`PQ`, in order. -/
def greeduce_events (gl : Globals) (hint : Solution) (max_candidates_for_reduction : Nat)
    (reduce_only_and_save : Bool) (shuffle : Nat → List (Int × Int) → List (Int × Int))
    (budget : Option Nat) : List Event :=
  let st := init_engine gl.graph gl.always_in_solution
  let schedule :=
    if reduce_only_and_save then .ok [(-1, -1)]
    else build_schedule gl.graph hint st.degree shuffle
  .start st ::
    match schedule with
    | .error _ => []
    | .ok PQ =>
      schedule_events gl.graph max_candidates_for_reduction reduce_only_and_save budget PQ st

/-- What the proofs establish of a point of a run that started in `st0` with the
schedule `PQ`: the bookkeeping invariant holds, the state is reached from `st0` by
rule applications, and a selection was made for an entry of the schedule that
passed the test in a state of the same kind with an empty worklist. -/
def EventOK (g : Graph) (reduce_only_and_save : Bool) (st0 : Engine) (PQ : List (Int × Int))
    (e : Event) : Prop :=
  EngineInv g (fun _ => False) e.state ∧ Steps g reduce_only_and_save st0 e.state ∧
  ∀ iter before st, e = .selected iter before st →
    iter ∈ PQ ∧ EngineInv g (fun _ => False) before ∧
    Steps g reduce_only_and_save st0 before ∧
    before.act iter.2.toNat = true ∧ iter.1 = before.deg iter.2.toNat ∧
    st = greedy_choice g iter.2.toNat before

/-! ## The search loop of `main` -/

/-- What one iteration of the search loop draws from `prg`: the positions
`random_vertex(prg)` of the mutation and the outcomes of the two shuffles. -/
structure Draws where
  picks : List Nat
  shuffle : Nat → List (Int × Int) → List (Int × Int)

/-- The iterations `iter`, `iter + 1`, ... of the loop `for (int iter = 0;; ++iter)`
of `main`, one for every element of `draws`. -/
def search_loop : Nat → List Draws → Globals → Except Failure Globals
  | _, [], gl => .ok gl
  | iter, d :: rest, gl =>
    match search_iteration gl iter d.picks d.shuffle with
    | .error e => .error e
    | .ok gl => search_loop (iter + 1) rest gl

/-- The globals of `main` on the instance `g` that `read_input` has stored, after
`fast_lazy_reductions`, the initialisation of `best` and the iterations of the
search loop that `draws` lists. -/
def solver_run (g : Graph) (budget : Option Nat) (draws : List Draws) : Except Failure Globals :=
  match fast_lazy_reductions (initial_globals g) budget with
  | .error e => .error e
  | .ok gl => search_loop 0 draws (init_best gl)

/-! ## Further statements of the specification -/

/-- The hint of the vertex of a schedule entry. -/
def hinted (hint : Solution) (e : Int × Int) : Bool := hint.getD e.2.toNat false

/-- Schedule order in the words of §4.4: required degrees do not grow from front
to back, and among entries of the same required degree no vertex rated 1 by the
hint comes before a vertex rated 0. -/
def ScheduleOrder (hint : Solution) (PQ : List (Int × Int)) : Prop :=
  PQ.Pairwise (fun a b => b.1 ≤ a.1) ∧
  PQ.Pairwise (fun a b => a.1 = b.1 → ¬ (hinted hint a = true ∧ hinted hint b = false))

/-- The order that the schedule has: the entries of the vertices rated 1 come
before the entries of the vertices rated 0, and among the entries of either kind
required degrees do not grow from front to back. -/
def HintFirstOrder (hint : Solution) (PQ : List (Int × Int)) : Prop :=
  PQ.Pairwise (fun a b =>
    ¬ (hinted hint a = false ∧ hinted hint b = true) ∧
    (hinted hint a = hinted hint b → b.1 ≤ a.1))

instance (hint : Solution) (PQ : List (Int × Int)) : Decidable (ScheduleOrder hint PQ) := by
  unfold ScheduleOrder
  infer_instance

instance (hint : Solution) (PQ : List (Int × Int)) : Decidable (HintFirstOrder hint PQ) := by
  unfold HintFirstOrder
  infer_instance

/-- Degree coherence for every object, active or not: `degree[i]` is the number
of active neighbours of `i`. -/
def CoherentEverywhere (g : Graph) (st : Engine) : Prop :=
  ∀ i < g.num_objects, st.deg i = (active_count g st i : Int)

/-- Degree coherence as the engine keeps it for every object, active or not:
`degree[i]` is never below the number of active neighbours of `i`, and for a vertex
it is that number. -/
def DegreeBound (g : Graph) (st : Engine) : Prop :=
  ∀ i < g.num_objects, (active_count g st i : Int) ≤ st.deg i ∧
    (i < g.num_vertices → st.deg i = (active_count g st i : Int))

/-- Degree coherence for the active objects. -/
def CoherentActive (g : Graph) (st : Engine) : Prop :=
  ∀ i < g.num_objects, st.act i = true → st.deg i = (active_count g st i : Int)

instance (g : Graph) (st : Engine) : Decidable (CoherentEverywhere g st) := by
  unfold CoherentEverywhere
  infer_instance

/-- The objects `x` and `y` have a common neighbour. -/
def SharesNeighbour (g : Graph) (x y : Nat) : Prop := ∃ z ∈ g.inc x, z ∈ g.inc y

/-- No reduction is left: no active hyperedge has degree 1, and no active object is
dominated by another active object of its kind with which it shares a neighbour. -/
def NoReductionLeft (g : Graph) (st : Engine) : Prop :=
  (∀ h < g.num_objects, g.num_vertices ≤ h → st.act h = true → st.deg h ≠ 1) ∧
  ∀ x < g.num_objects, ∀ y < g.num_objects, x ≠ y → st.act x = true → st.act y = true →
    (x < g.num_vertices ↔ y < g.num_vertices) → SharesNeighbour g x y → ¬ Dominated g st x y

/-- The active object `x` offers no reduction: it is not a hyperedge of degree 1
and no other active object that shares a neighbour with it dominates it. -/
def Settled (g : Graph) (st : Engine) (x : Nat) : Prop :=
  (g.num_vertices ≤ x → st.deg x ≠ 1) ∧
  ∀ y, y ≠ x → st.act y = true → SharesNeighbour g x y → ¬ Dominated g st x y

/-- Invariant of the worklist: every active object outside the worklist is settled. -/
def WorklistInv (g : Graph) (st : Engine) : Prop :=
  ∀ x, st.act x = true → x ∉ st.Q → Settled g st x

/-- The triangle `{1,2}, {2,3}, {1,3}` and the unit hyperedge `{4}`: `p hs 4 4`,
lines `1 2`, `2 3`, `1 3`, `4`. -/
def triangle_and_unit : Graph := read_input_hs 4 [[1, 2], [2, 3], [1, 3], [4]]

/-- The locals of the kernelizing call (unbounded cap, no abort) on
`triangle_and_unit` when hyperedge 7, the unit hyperedge, has been popped. -/
def triangle_and_unit_popped : Engine :=
  { active := [true, true, true, true, true, true, true, true]
    degree := [2, 2, 2, 1, 2, 2, 2, 1]
    Q := []
    enqueued := [false, false, false, false, false, false, false, false]
    num_active_hyperedges := 4
    solution := [false, false, false, false]
    always_in_solution := [] }

/-- The locals of the same call when the loop `while (!Q.empty())` has ended:
vertex 3 is forced and inactive, hyperedge 7 is inactive and `degree[7]` is
still 1. -/
def triangle_and_unit_drained : Engine :=
  { active := [true, true, true, false, true, true, true, false]
    degree := [2, 2, 2, 0, 2, 2, 2, 1]
    Q := []
    enqueued := [false, false, false, false, false, false, false, false]
    num_active_hyperedges := 3
    solution := [false, false, false, false]
    always_in_solution := [4] }

/-- The locals of the call `greeduce(best, 0, false)` on the triangle with the
all-true hint when the first schedule entry, `(2, 2)`, passes the test. -/
def triangle_before_selection : Engine :=
  { active := [true, true, true, true, true, true]
    degree := [2, 2, 2, 2, 2, 2]
    Q := []
    enqueued := [false, false, false, false, false, false]
    num_active_hyperedges := 3
    solution := [false, false, false]
    always_in_solution := [] }

/-- The locals of that call after the selection of vertex 2. -/
def triangle_after_selection : Engine :=
  { active := [true, true, false, true, false, false]
    degree := [1, 1, 0, 2, 2, 2]
    Q := [1, 0]
    enqueued := [true, true, false, false, false, false]
    num_active_hyperedges := 1
    solution := [false, false, true]
    always_in_solution := [] }

/-! ## Vectors as lists: reads and writes -/

theorem getD_set_eq {α : Type} (l : List α) (i : Nat) (a d : α) (h : i < l.length) :
    (l.set i a).getD i d = a := by
  simp [List.getD_eq_getElem?_getD, List.getElem?_set, h]

theorem getD_set_ne {α : Type} (l : List α) {i j : Nat} (a d : α) (h : i ≠ j) :
    (l.set i a).getD j d = l.getD j d := by
  simp [List.getD_eq_getElem?_getD, List.getElem?_set, h]

theorem getD_set {α : Type} (l : List α) (i j : Nat) (a d : α) :
    (l.set i a).getD j d = if i = j ∧ i < l.length then a else l.getD j d := by
  by_cases hij : i = j
  · subst hij
    by_cases hi : i < l.length
    · simp [hi, getD_set_eq]
    · have h1 : l.length ≤ i := Nat.le_of_not_lt hi
      simp [hi, List.getD_eq_getElem?_getD, List.getElem?_set, List.getElem?_eq_none h1]
  · simp [hij, getD_set_ne]

theorem getD_replicate {α : Type} (n i : Nat) (a d : α) (h : i < n) :
    (List.replicate n a).getD i d = a := by
  simp [List.getD_eq_getElem?_getD, List.getElem?_replicate, h]

theorem getD_of_length_le {α : Type} (l : List α) (i : Nat) (d : α) (h : l.length ≤ i) :
    l.getD i d = d := by
  simp [List.getD_eq_getElem?_getD, List.getElem?_eq_none h]

theorem getD_mem {α : Type} (l : List α) (i : Nat) (d : α) (h : i < l.length) :
    l.getD i d ∈ l := by
  rw [List.getD_eq_getElem l d h]
  exact List.getElem_mem h

theorem getD_map_range {α : Type} (f : Nat → α) (n i : Nat) (d : α) (h : i < n) :
    ((List.range n).map f).getD i d = f i := by
  simp [List.getD_eq_getElem?_getD, List.getElem?_map, List.getElem?_range h]

/-! ## The dominating-set encoding of `read_input` -/

theorem length_push_at (inc : List (List Nat)) (i x : Nat) :
    (push_at inc i x).length = inc.length := by
  simp [push_at]

theorem mem_push_at (inc : List (List Nat)) (i x k y : Nat) :
    y ∈ (push_at inc i x).getD k [] ↔
      y ∈ inc.getD k [] ∨ (k = i ∧ i < inc.length ∧ y = x) := by
  unfold push_at
  rw [getD_set]
  by_cases h : i = k ∧ i < inc.length
  · obtain ⟨rfl, hi⟩ := h
    simp [hi]
  · simp only [h, if_false]
    constructor
    · intro hy
      exact Or.inl hy
    · rintro (hy | ⟨rfl, hi, _⟩)
      · exact hy
      · exact absurd ⟨rfl, hi⟩ h

theorem ds_self_loops_spec (V : Nat) :
    ∀ (l : List Nat) (inc : List (List Nat)), inc.length = 2 * V → (∀ a ∈ l, a < V) →
      (ds_self_loops V inc l).length = 2 * V ∧
      ∀ k y, y ∈ (ds_self_loops V inc l).getD k [] ↔
        y ∈ inc.getD k [] ∨ ∃ a ∈ l, (k = a ∧ y = V + a) ∨ (k = V + a ∧ y = a) := by
  intro l
  induction l with
  | nil => intro inc hlen _; simp [ds_self_loops, hlen]
  | cons a rest ih =>
    intro inc hlen hl
    have ha : a < V := hl a (List.mem_cons_self _ _)
    have hrest : ∀ b ∈ rest, b < V := fun b hb => hl b (List.mem_cons_of_mem _ hb)
    have hlen2 : (push_at (push_at inc a (V + a)) (V + a) a).length = 2 * V := by
      simp [length_push_at, hlen]
    obtain ⟨h1, h2⟩ := ih _ hlen2 hrest
    refine ⟨by simpa [ds_self_loops] using h1, ?_⟩
    intro k y
    simp only [ds_self_loops]
    rw [h2 k y, mem_push_at, mem_push_at, length_push_at, hlen]
    constructor
    · rintro ((((h | ⟨rfl, _, rfl⟩) | ⟨rfl, _, rfl⟩)) | ⟨b, hb, h⟩)
      · exact Or.inl h
      · exact Or.inr ⟨k, List.mem_cons_self _ _, Or.inl ⟨rfl, rfl⟩⟩
      · exact Or.inr ⟨y, List.mem_cons_self _ _, Or.inr ⟨rfl, rfl⟩⟩
      · exact Or.inr ⟨b, List.mem_cons_of_mem _ hb, h⟩
    · rintro (h | ⟨b, hb, h⟩)
      · exact Or.inl (Or.inl (Or.inl h))
      · rcases List.mem_cons.1 hb with rfl | hb
        · rcases h with ⟨rfl, rfl⟩ | ⟨rfl, rfl⟩
          · exact Or.inl (Or.inl (Or.inr ⟨rfl, by omega, rfl⟩))
          · exact Or.inl (Or.inr ⟨rfl, by omega, rfl⟩)
        · exact Or.inr ⟨b, hb, h⟩

theorem ds_edges_spec (V : Nat) :
    ∀ (edges : List (Int × Int)) (inc : List (List Nat)), inc.length = 2 * V →
      (∀ e ∈ edges, 1 ≤ e.1 ∧ e.1 ≤ V ∧ 1 ≤ e.2 ∧ e.2 ≤ V) →
      ∃ inc', ds_edges V inc edges = .ok inc' ∧ inc'.length = 2 * V ∧
        ∀ k y, y ∈ inc'.getD k [] ↔
          y ∈ inc.getD k [] ∨ ∃ e ∈ edges, ds_edge_entry V e k y := by
  intro edges
  induction edges with
  | nil => intro inc hlen _; exact ⟨inc, rfl, hlen, by simp⟩
  | cons e rest ih =>
    intro inc hlen hr
    obtain ⟨a, b⟩ := e
    have he := hr (a, b) (List.mem_cons_self _ _)
    simp only at he
    have hrest : ∀ e ∈ rest, 1 ≤ e.1 ∧ e.1 ≤ V ∧ 1 ≤ e.2 ∧ e.2 ≤ V :=
      fun e h => hr e (List.mem_cons_of_mem _ h)
    have ha : (a - 1).toNat < V := by omega
    have hb : (b - 1).toNat < V := by omega
    obtain ⟨inc', h1, h2, h3⟩ :=
      ih (push_at (push_at (push_at (push_at inc (a - 1).toNat (V + (b - 1).toNat))
        (b - 1).toNat (V + (a - 1).toNat)) (V + (a - 1).toNat) (b - 1).toNat)
        (V + (b - 1).toNat) (a - 1).toNat) (by simp [length_push_at, hlen]) hrest
    refine ⟨inc', ?_, h2, ?_⟩
    · simp only [ds_edges]
      rw [if_pos he]
      exact h1
    · intro k y
      rw [h3 k y]
      simp only [mem_push_at, length_push_at, hlen, List.mem_cons, exists_eq_or_imp,
        ds_edge_entry]
      constructor
      · rintro (((((h | ⟨h, _, h'⟩) | ⟨h, _, h'⟩) | ⟨h, _, h'⟩) | ⟨h, _, h'⟩) | h)
        · exact Or.inl h
        · exact Or.inr (Or.inl (Or.inl ⟨h, h'⟩))
        · exact Or.inr (Or.inl (Or.inr (Or.inl ⟨h, h'⟩)))
        · exact Or.inr (Or.inl (Or.inr (Or.inr (Or.inl ⟨h, h'⟩))))
        · exact Or.inr (Or.inl (Or.inr (Or.inr (Or.inr ⟨h, h'⟩))))
        · exact Or.inr (Or.inr h)
      · rintro (h | (⟨h, h'⟩ | ⟨h, h'⟩ | ⟨h, h'⟩ | ⟨h, h'⟩) | h)
        · exact Or.inl (Or.inl (Or.inl (Or.inl (Or.inl h))))
        · exact Or.inl (Or.inl (Or.inl (Or.inl (Or.inr ⟨h, by omega, h'⟩))))
        · exact Or.inl (Or.inl (Or.inl (Or.inr ⟨h, by omega, h'⟩)))
        · exact Or.inl (Or.inl (Or.inr ⟨h, by omega, h'⟩))
        · exact Or.inl (Or.inr ⟨h, by omega, h'⟩)
        · exact Or.inr h

theorem length_sort_all (inc : List (List Nat)) : (sort_all inc).length = inc.length := by
  simp [sort_all]

theorem getD_sort_all (inc : List (List Nat)) (k : Nat) :
    (sort_all inc).getD k [] = List.insertionSort (· ≤ ·) (inc.getD k []) := by
  unfold sort_all
  simp only [List.getD_eq_getElem?_getD, List.getElem?_map]
  cases inc[k]? <;> simp

theorem mem_sort_all (inc : List (List Nat)) (k y : Nat) :
    y ∈ (sort_all inc).getD k [] ↔ y ∈ inc.getD k [] := by
  rw [getD_sort_all]
  exact (List.perm_insertionSort _ _).mem_iff

theorem sorted_sort_all (inc : List (List Nat)) (k : Nat) :
    ((sort_all inc).getD k []).Sorted (· ≤ ·) := by
  rw [getD_sort_all]
  exact List.sorted_insertionSort _ _

/-- The incidence lists built by the `ds` branch, as sets: the self loops and
the entries of the edges. -/
theorem read_input_ds_incidence (V : Nat) (edges : List (Int × Int))
    (hr : ∀ e ∈ edges, 1 ≤ e.1 ∧ e.1 ≤ V ∧ 1 ≤ e.2 ∧ e.2 ≤ V) :
    ∃ g, read_input_ds V edges = .ok g ∧ g.num_vertices = V ∧ g.num_objects = 2 * V ∧
      g.num_hyperedges = V ∧ g.incidence.length = 2 * V ∧
      (∀ k, (g.inc k).Sorted (· ≤ ·)) ∧
      ∀ k y, y ∈ g.inc k ↔
        (∃ a < V, (k = a ∧ y = V + a) ∨ (k = V + a ∧ y = a)) ∨
          ∃ e ∈ edges, ds_edge_entry V e k y := by
  obtain ⟨h1, h2⟩ := ds_self_loops_spec V (List.range V) (List.replicate (2 * V) [])
    (by simp) (fun a ha => List.mem_range.1 ha)
  obtain ⟨inc', h3, h4, h5⟩ := ds_edges_spec V edges _ h1 hr
  refine ⟨{ num_objects := 2 * V, num_vertices := V, num_hyperedges := V,
            incidence := sort_all inc',
            vertex_to_original_id := (List.range V).map (· + 1) },
    by simp only [read_input_ds, h3], rfl, rfl, rfl, ?_, ?_, ?_⟩
  · simp [length_sort_all, h4]
  · intro k
    exact sorted_sort_all _ _
  · intro k y
    show y ∈ (sort_all inc').getD k [] ↔ _
    rw [mem_sort_all, h5, h2]
    have hnil : ∀ y, y ∉ (List.replicate (2 * V) ([] : List Nat)).getD k [] := by
      intro y
      by_cases hk : k < 2 * V
      · simp [getD_replicate _ _ _ _ hk]
      · simp [getD_of_length_le _ _ _ (show (List.replicate (2 * V) ([] : List Nat)).length ≤ k by
          simp; omega)]
    simp only [hnil, false_or, List.mem_range]

theorem ds_hyperedge_mem (V : Nat) (edges : List (Int × Int))
    (hr : ∀ e ∈ edges, 1 ≤ e.1 ∧ e.1 ≤ V ∧ 1 ≤ e.2 ∧ e.2 ≤ V) (i j : Nat) (hi : i < V) :
    ((∃ a < V, (V + i = a ∧ j = V + a) ∨ (V + i = V + a ∧ j = a)) ∨
        ∃ e ∈ edges, ds_edge_entry V e (V + i) j) ↔
      (j = i ∨ ds_adjacent edges i j) := by
  constructor
  · rintro (⟨a, ha, h | h⟩ | ⟨e, he, h⟩)
    · omega
    · left; omega
    · right
      obtain ⟨h1, h2, h3, h4⟩ := hr e he
      rcases h with h | h | h | h
      · omega
      · omega
      · left
        have : e = ((i : Int) + 1, (j : Int) + 1) := by
          apply Prod.ext <;> simp only <;> omega
        rw [← this]
        exact he
      · right
        have : e = ((j : Int) + 1, (i : Int) + 1) := by
          apply Prod.ext <;> simp only <;> omega
        rw [← this]
        exact he
  · rintro (h | h | h)
    · exact Or.inl ⟨i, hi, Or.inr ⟨rfl, h⟩⟩
    · refine Or.inr ⟨_, h, Or.inr (Or.inr (Or.inl ⟨?_, ?_⟩))⟩ <;> simp
    · refine Or.inr ⟨_, h, Or.inr (Or.inr (Or.inr ⟨?_, ?_⟩))⟩ <;> simp

theorem ds_adjacent_lt (V : Nat) (edges : List (Int × Int))
    (hr : ∀ e ∈ edges, 1 ≤ e.1 ∧ e.1 ≤ V ∧ 1 ≤ e.2 ∧ e.2 ≤ V) (i j : Nat)
    (h : ds_adjacent edges i j) : j < V := by
  rcases h with h | h
  · have := hr _ h
    simp only at this
    omega
  · have := hr _ h
    simp only at this
    omega

/-- C10. Dominating-set encoding: on every `p ds` edge list with endpoints in
`[1, V]`, `read_input` succeeds, hyperedge `V + i` is incident to exactly the
closed neighbourhood of vertex `i`, and a vertex set hits every hyperedge of the
built instance iff it is a dominating set of the graph. -/
theorem read_input_ds_encodes_domination (V : Nat) (edges : List (Int × Int))
    (hr : ∀ e ∈ edges, 1 ≤ e.1 ∧ e.1 ≤ V ∧ 1 ≤ e.2 ∧ e.2 ≤ V) :
    ∃ g, read_input_ds V edges = .ok g ∧ g.num_vertices = V ∧ g.num_objects = 2 * V ∧
      (∀ i < V, ∀ j, j ∈ g.inc (V + i) ↔ (j = i ∨ ds_adjacent edges i j)) ∧
      ∀ S : Nat → Prop, g.Hits S ↔ Dominating V edges S := by
  obtain ⟨g, hg, hv, ho, _, _, _, hmem⟩ := read_input_ds_incidence V edges hr
  have hclosed : ∀ i < V, ∀ j, j ∈ g.inc (V + i) ↔ (j = i ∨ ds_adjacent edges i j) := by
    intro i hi j
    rw [hmem (V + i) j]
    exact ds_hyperedge_mem V edges hr i j hi
  refine ⟨g, hg, hv, ho, hclosed, ?_⟩
  intro S
  unfold Graph.Hits Dominating
  rw [hv, ho]
  constructor
  · intro h i hi
    obtain ⟨v, hvm, hS⟩ := h (V + i) (by omega) (by omega)
    rcases (hclosed i hi v).1 hvm with rfl | hadj
    · exact Or.inl hS
    · exact Or.inr ⟨v, ds_adjacent_lt V edges hr i v hadj, hadj, hS⟩
  · intro h k hk hVk
    obtain ⟨i, rfl⟩ : ∃ i, k = V + i := ⟨k - V, by omega⟩
    have hi : i < V := by omega
    rcases h i hi with hS | ⟨j, _, hadj, hS⟩
    · exact ⟨i, (hclosed i hi i).2 (Or.inl rfl), hS⟩
    · exact ⟨j, (hclosed i hi j).2 (Or.inr hadj), hS⟩

/-- C10 at the path `1 - 2 - 3` (scenario S4). -/
theorem read_input_ds_encodes_domination_witness :
    (∀ e ∈ [((1 : Int), (2 : Int)), (2, 3)], 1 ≤ e.1 ∧ e.1 ≤ (3 : Nat) ∧ 1 ≤ e.2 ∧ e.2 ≤ (3 : Nat)) ∧
    ∃ g, read_input_ds 3 [(1, 2), (2, 3)] = .ok g ∧ g.num_vertices = 3 ∧ g.num_objects = 2 * 3 ∧
      (∀ i < 3, ∀ j, j ∈ g.inc (3 + i) ↔ (j = i ∨ ds_adjacent [(1, 2), (2, 3)] i j)) ∧
      ∀ S : Nat → Prop, g.Hits S ↔ Dominating 3 [(1, 2), (2, 3)] S :=
  ⟨by decide, read_input_ds_encodes_domination 3 [(1, 2), (2, 3)] (by decide)⟩

/-! ## Consequences of well-formedness -/

theorem inc_of_le {g : Graph} (hw : WellFormed g) {i : Nat} (h : g.num_objects ≤ i) :
    g.inc i = [] := by
  unfold Graph.inc
  exact getD_of_length_le _ _ _ (by rw [hw.incidence_length]; exact h)

theorem inc_nodup {g : Graph} (hw : WellFormed g) (i : Nat) : (g.inc i).Nodup := by
  by_cases h : i < g.num_objects
  · exact (hw.sorted i h).nodup
  · rw [inc_of_le hw (Nat.le_of_not_lt h)]
    exact List.nodup_nil

theorem mem_inc_lt {g : Graph} (hw : WellFormed g) {i j : Nat} (h : j ∈ g.inc i) :
    i < g.num_objects ∧ j < g.num_objects := by
  have hi : i < g.num_objects := by
    by_contra hc
    rw [inc_of_le hw (Nat.le_of_not_lt hc)] at h
    exact absurd h (List.not_mem_nil _)
  exact ⟨hi, (hw.bipartite i hi j h).1⟩

theorem mem_inc_symm {g : Graph} (hw : WellFormed g) {i j : Nat} (h : j ∈ g.inc i) :
    i ∈ g.inc j :=
  hw.symmetric i (mem_inc_lt hw h).1 j h

theorem mem_inc_comm {g : Graph} (hw : WellFormed g) (i j : Nat) :
    j ∈ g.inc i ↔ i ∈ g.inc j :=
  ⟨mem_inc_symm hw, mem_inc_symm hw⟩

theorem mem_inc_of_vertex {g : Graph} (hw : WellFormed g) {i j : Nat} (h : j ∈ g.inc i)
    (hi : i < g.num_vertices) : g.num_vertices ≤ j ∧ j < g.num_objects :=
  ⟨(hw.bipartite i (mem_inc_lt hw h).1 j h).2.1 hi, (mem_inc_lt hw h).2⟩

theorem mem_inc_of_hyperedge {g : Graph} (hw : WellFormed g) {i j : Nat} (h : j ∈ g.inc i)
    (hi : g.num_vertices ≤ i) : j < g.num_vertices := by
  have := (hw.bipartite i (mem_inc_lt hw h).1 j h).2
  by_contra hc
  have h2 := this.2 (Nat.le_of_not_lt hc)
  omega

/-! ## Counting -/

theorem countP_unique {α : Type} (p : α → Bool) (l : List α) (h : l.countP p = 1) {a b : α}
    (ha : a ∈ l) (hpa : p a = true) (hb : b ∈ l) (hpb : p b = true) : a = b := by
  rw [List.countP_eq_length_filter, List.length_eq_one] at h
  obtain ⟨c, hc⟩ := h
  have h1 : a ∈ l.filter p := List.mem_filter.2 ⟨ha, hpa⟩
  have h2 : b ∈ l.filter p := List.mem_filter.2 ⟨hb, hpb⟩
  rw [hc] at h1 h2
  rw [List.mem_singleton.1 h1, List.mem_singleton.1 h2]

theorem countP_eq_one {α : Type} (p : α → Bool) (a : α) :
    ∀ l : List α, l.Nodup → a ∈ l → p a = true → (∀ b ∈ l, p b = true → b = a) →
      l.countP p = 1 := by
  intro l
  induction l with
  | nil => intro _ ha; exact absurd ha (List.not_mem_nil _)
  | cons b rest ih =>
    intro hn ha hpa hall
    have hn' := List.nodup_cons.1 hn
    by_cases hb : p b = true
    · have hba : b = a := hall b (List.mem_cons_self _ _) hb
      rw [List.countP_cons_of_pos _ _ hb]
      have : rest.countP p = 0 := by
        rw [List.countP_eq_zero]
        intro c hc hpc
        have := hall c (List.mem_cons_of_mem _ hc) hpc
        rw [this, ← hba] at hc
        exact hn'.1 hc
      omega
    · rw [List.countP_cons_of_neg _ _ hb]
      have har : a ∈ rest := by
        rcases List.mem_cons.1 ha with h | h
        · rw [h] at hpa
          exact absurd hpa hb
        · exact h
      exact ih hn'.2 har hpa (fun c hc => hall c (List.mem_cons_of_mem _ hc))

theorem countP_range_mem (p : Nat → Bool) (n : Nat) (L : List Nat) (hn : L.Nodup)
    (hL : ∀ x ∈ L, x < n) :
    (List.range n).countP (fun i => p i && decide (i ∈ L)) = L.countP p := by
  rw [← List.countP_filter]
  apply List.Perm.countP_eq
  rw [List.perm_ext_iff_of_nodup ((List.nodup_range n).filter _) hn]
  intro a
  simp only [List.mem_filter, List.mem_range, decide_eq_true_eq]
  constructor
  · exact fun h => h.2
  · exact fun h => ⟨hL a h, h⟩

/-- Clearing the flag of `v` lowers the count on a duplicate-free list by one
exactly when `v` is on the list and was set. -/
theorem countP_set_false (sol : List Bool) (v : Nat) (l : List Nat) (hn : l.Nodup) :
    (l.countP (fun u => sol.getD u false) : Int) =
      l.countP (fun u => (sol.set v false).getD u false) +
        if v ∈ l ∧ sol.getD v false = true then 1 else 0 := by
  induction l with
  | nil => simp
  | cons a rest ih =>
    have hn' := List.nodup_cons.1 hn
    have ih' := ih hn'.2
    rw [List.countP_cons, List.countP_cons]
    by_cases hav : a = v
    · subst hav
      have hnot : ¬ (a ∈ rest ∧ sol.getD a false = true) := fun h => hn'.1 h.1
      rw [if_neg hnot] at ih'
      have hset : (sol.set a false).getD a false = false := by
        by_cases hlt : a < sol.length
        · exact getD_set_eq _ _ _ _ hlt
        · rw [getD_set, if_neg (fun h => hlt h.2)]
          exact getD_of_length_le _ _ _ (Nat.le_of_not_lt hlt)
      rw [hset]
      by_cases hs : sol.getD a false = true
      · rw [hs]
        simp only [List.mem_cons, true_or, and_self, if_true, hs]
        push_cast
        omega
      · rw [Bool.not_eq_true] at hs
        rw [hs]
        have hnot2 : ¬ (a ∈ a :: rest ∧ false = true) := fun h => Bool.noConfusion h.2
        rw [if_neg hnot2]
        simp only [Bool.false_eq_true, if_false]
        omega
    · have hne : (sol.set v false).getD a false = sol.getD a false :=
        getD_set_ne _ _ _ (Ne.symm hav)
      rw [hne]
      have hiff : (v ∈ a :: rest ∧ sol.getD v false = true) ↔
          (v ∈ rest ∧ sol.getD v false = true) := by
        simp [List.mem_cons, Ne.symm hav]
      simp only [hiff]
      push_cast
      omega

/-! ## Minimality repair: the hit counts -/

theorem count_hits_spec (nv : Nat) :
    ∀ (l : List Nat) (hc : List Int), l.Nodup → (∀ h ∈ l, nv ≤ h ∧ h - nv < hc.length) →
      (count_hits nv hc l).length = hc.length ∧
      ∀ k < hc.length,
        (count_hits nv hc l).getD k 0 = hc.getD k 0 + if nv + k ∈ l then 1 else 0 := by
  intro l
  induction l with
  | nil => intro hc _ _; simp [count_hits]
  | cons h rest ih =>
    intro hc hn hl
    have hn' := List.nodup_cons.1 hn
    have hh := hl h (List.mem_cons_self _ _)
    have hrest : ∀ h' ∈ rest, nv ≤ h' ∧
        h' - nv < (hc.set (h - nv) (hc.getD (h - nv) 0 + 1)).length := by
      intro h' hm
      rw [List.length_set]
      exact hl h' (List.mem_cons_of_mem _ hm)
    obtain ⟨h1, h2⟩ := ih (hc.set (h - nv) (hc.getD (h - nv) 0 + 1)) hn'.2 hrest
    rw [List.length_set] at h1 h2
    refine ⟨by simpa [count_hits] using h1, ?_⟩
    intro k hk
    have := h2 k hk
    simp only [count_hits, List.foldl_cons] at this ⊢
    rw [this, getD_set]
    by_cases hkh : h - nv = k
    · have hnk : nv + k = h := by omega
      have hnot : nv + k ∉ rest := by rw [hnk]; exact hn'.1
      rw [if_pos ⟨hkh, hh.2⟩, if_neg hnot, hkh, hnk]
      simp
    · have hne : nv + k ≠ h := by omega
      rw [if_neg (fun hc' => hkh hc'.1)]
      simp [List.mem_cons, hne]

theorem initial_hitcount_fold {g : Graph} (hw : WellFormed g) (sol : Solution) :
    ∀ (vs : List Nat) (hc : List Int), hc.length = g.num_hyperedges →
      (∀ i ∈ vs, i < g.num_vertices) →
      (vs.foldl (fun hc i =>
          if sol.getD i false then count_hits g.num_vertices hc (g.inc i) else hc) hc).length =
        g.num_hyperedges ∧
      ∀ k < g.num_hyperedges,
        (vs.foldl (fun hc i =>
          if sol.getD i false then count_hits g.num_vertices hc (g.inc i) else hc) hc).getD k 0 =
        hc.getD k 0 +
          (vs.countP (fun i => sol.getD i false && decide (g.num_vertices + k ∈ g.inc i)) : Nat) := by
  intro vs
  induction vs with
  | nil => intro hc hlen _; simp [hlen]
  | cons i rest ih =>
    intro hc hlen hvs
    have hi := hvs i (List.mem_cons_self _ _)
    have hrest : ∀ j ∈ rest, j < g.num_vertices := fun j hj => hvs j (List.mem_cons_of_mem _ hj)
    rw [List.foldl_cons]
    by_cases hs : sol.getD i false = true
    · have hcs := count_hits_spec g.num_vertices (g.inc i) hc (inc_nodup hw i) (by
        intro h hm
        have := mem_inc_of_vertex hw hm hi
        have ho := hw.objects
        omega)
      rw [if_pos hs]
      obtain ⟨h1, h2⟩ := ih _ (hcs.1.trans hlen) hrest
      refine ⟨h1, ?_⟩
      intro k hk
      rw [h2 k hk, hcs.2 k (by omega), List.countP_cons]
      by_cases hm : g.num_vertices + k ∈ g.inc i
      · simp only [hs, hm, if_true, decide_True, Bool.and_self]
        push_cast
        omega
      · simp only [hs, hm, if_false, decide_False, Bool.and_false]
        push_cast
        simp
    · rw [if_neg hs]
      obtain ⟨h1, h2⟩ := ih hc hlen hrest
      refine ⟨h1, ?_⟩
      intro k hk
      rw [h2 k hk, List.countP_cons]
      rw [Bool.not_eq_true] at hs
      rw [hs]
      simp

theorem initial_hitcount_spec {g : Graph} (hw : WellFormed g) (sol : Solution) :
    (initial_hitcount g sol).length = g.num_hyperedges ∧
    ∀ k < g.num_hyperedges,
      (initial_hitcount g sol).getD k 0 = (hit_count g sol (g.num_vertices + k) : Int) := by
  obtain ⟨h1, h2⟩ := initial_hitcount_fold hw sol (List.range g.num_vertices)
    (List.replicate g.num_hyperedges 0) (by simp) (fun i hi => List.mem_range.1 hi)
  refine ⟨h1, ?_⟩
  intro k hk
  unfold initial_hitcount
  rw [h2 k hk, getD_replicate _ _ _ _ hk, zero_add]
  congr 1
  have hL : ∀ x ∈ g.inc (g.num_vertices + k), x < g.num_vertices :=
    fun x hx => mem_inc_of_hyperedge hw hx (by omega)
  unfold hit_count
  rw [← countP_range_mem (fun v => sol.getD v false) g.num_vertices _
    (inc_nodup hw (g.num_vertices + k)) hL]
  apply List.countP_congr
  intro x _
  simp only [Bool.and_eq_true, decide_eq_true_eq]
  rw [mem_inc_comm hw]

/-! ## Minimality repair: disqualification -/

theorem clear_all_length (l : List Nat) : ∀ un : List Bool, (clear_all un l).length = un.length := by
  induction l with
  | nil => intro un; rfl
  | cons a rest ih =>
    intro un
    simp only [clear_all, List.foldl_cons] at ih ⊢
    rw [ih, List.length_set]

theorem clear_all_getD (l : List Nat) (v : Nat) :
    ∀ un : List Bool, (clear_all un l).getD v false = (un.getD v false && !decide (v ∈ l)) := by
  induction l with
  | nil => intro un; simp [clear_all]
  | cons a rest ih =>
    intro un
    simp only [clear_all, List.foldl_cons] at ih ⊢
    rw [ih, getD_set]
    by_cases hav : a = v
    · subst hav
      by_cases hlt : a < un.length
      · simp [hlt]
      · rw [if_neg (fun h => hlt h.2), getD_of_length_le _ _ _ (Nat.le_of_not_lt hlt)]
        simp
    · rw [if_neg (fun h => hav h.1)]
      have : (v ∈ a :: rest) ↔ v ∈ rest := by simp [List.mem_cons, Ne.symm hav]
      simp only [this]

theorem mark_necessary_spec (g : Graph) (hc : List Int)
    (hpos : ∀ k < g.num_hyperedges, 1 ≤ hc.getD k 0) :
    ∀ (hs : List Nat) (un : List Bool), (∀ k ∈ hs, k < g.num_hyperedges) →
      ∃ un', mark_necessary g hc hs un = .ok un' ∧ un'.length = un.length ∧
        ∀ v, un'.getD v false = true ↔
          (un.getD v false = true ∧
            ∀ k ∈ hs, hc.getD k 0 = 1 → v ∉ g.inc (k + g.num_vertices)) := by
  intro hs
  induction hs with
  | nil => intro un _; exact ⟨un, rfl, rfl, by simp⟩
  | cons k rest ih =>
    intro un hks
    have hk := hks k (List.mem_cons_self _ _)
    have hrest : ∀ k' ∈ rest, k' < g.num_hyperedges :=
      fun k' h => hks k' (List.mem_cons_of_mem _ h)
    have hp : hc.getD k 0 > 0 := by have := hpos k hk; omega
    simp only [mark_necessary, if_pos hp]
    by_cases h1 : hc.getD k 0 = 1
    · rw [if_pos h1]
      obtain ⟨un', e1, e2, e3⟩ := ih (clear_all un (g.inc (k + g.num_vertices))) hrest
      refine ⟨un', e1, by rw [e2, clear_all_length], ?_⟩
      intro v
      rw [e3 v, clear_all_getD]
      simp only [Bool.and_eq_true, Bool.not_eq_true', decide_eq_false_iff_not, List.mem_cons,
        forall_eq_or_imp]
      constructor
      · rintro ⟨⟨a, b⟩, c⟩
        exact ⟨a, fun _ => b, c⟩
      · rintro ⟨a, b, c⟩
        exact ⟨⟨a, b h1⟩, c⟩
    · rw [if_neg h1]
      obtain ⟨un', e1, e2, e3⟩ := ih un hrest
      refine ⟨un', e1, e2, ?_⟩
      intro v
      rw [e3 v]
      simp only [List.mem_cons, forall_eq_or_imp]
      constructor
      · rintro ⟨a, c⟩
        exact ⟨a, fun h => absurd h h1, c⟩
      · rintro ⟨a, _, c⟩
        exact ⟨a, c⟩

/-! ## Minimality repair: the sweep -/

theorem drop_hits_spec {g : Graph} (hw : WellFormed g) :
    ∀ (todo : List Nat) (s : RepairState), RepairInv g todo s → todo.Nodup →
      (∀ h ∈ todo, g.num_vertices ≤ h ∧ h < g.num_objects) →
      ∃ s', drop_hits g todo s = .ok s' ∧ RepairInv g [] s' ∧ s'.solution = s.solution ∧
        ∀ w, s'.unnecessary.getD w false = true → s.unnecessary.getD w false = true := by
  intro todo
  induction todo with
  | nil => intro s hs _ _; exact ⟨s, rfl, hs, rfl, fun _ h => h⟩
  | cons h rest ih =>
    intro s hs hn hr
    have hn' := List.nodup_cons.1 hn
    have hh := hr h (List.mem_cons_self _ _)
    have ho := hw.objects
    have hk : h - g.num_vertices < g.num_hyperedges := by omega
    have h2 := hs.todo_two h (List.mem_cons_self _ _)
    have hrest : ∀ h' ∈ rest, g.num_vertices ≤ h' ∧ h' < g.num_objects :=
      fun h' hm => hr h' (List.mem_cons_of_mem _ hm)
    -- the state after the decrement, with the flags `un` that the step leaves
    have key : ∀ un : List Bool, un.length = g.num_vertices →
        (∀ w, un.getD w false = true → s.unnecessary.getD w false = true) →
        (∀ w, s.unnecessary.getD w false = true → un.getD w false = false →
          s.hitcount.getD (h - g.num_vertices) 0 - 1 = 1 ∧ w ∈ g.inc h) →
        (s.hitcount.getD (h - g.num_vertices) 0 - 1 = 1 →
          ∀ w ∈ g.inc h, un.getD w false = false) →
        RepairInv g rest
          { solution := s.solution
            hitcount := s.hitcount.set (h - g.num_vertices)
              (s.hitcount.getD (h - g.num_vertices) 0 - 1)
            unnecessary := un } := by
      intro un hlen hmono hnew hclr
      have hget : ∀ k, k ≠ h - g.num_vertices →
          (s.hitcount.set (h - g.num_vertices)
            (s.hitcount.getD (h - g.num_vertices) 0 - 1)).getD k 0 = s.hitcount.getD k 0 :=
        fun k hk' => getD_set_ne _ _ _ (Ne.symm hk')
      have hgeth : (s.hitcount.set (h - g.num_vertices)
            (s.hitcount.getD (h - g.num_vertices) 0 - 1)).getD (h - g.num_vertices) 0 =
            s.hitcount.getD (h - g.num_vertices) 0 - 1 :=
        getD_set_eq _ _ _ _ (by rw [hs.hc_len]; exact hk)
      refine ⟨hs.sol_len, by simp [hs.hc_len], hlen, ?_, ?_, ?_, ?_, ?_⟩
      · intro k hk'
        by_cases hkh : k = h - g.num_vertices
        · have hnk : g.num_vertices + k = h := by omega
          have hc := hs.count k hk'
          rw [hnk] at hc ⊢
          rw [if_pos (List.mem_cons_self _ _)] at hc
          rw [if_neg hn'.1, hkh, hgeth, ← hkh, hc]
          simp
        · have hne : g.num_vertices + k ≠ h := by omega
          have hc := hs.count k hk'
          simp only [List.mem_cons, hne, false_or] at hc
          simp only
          rw [hget k hkh, hc]
      · intro k hk'
        by_cases hkh : k = h - g.num_vertices
        · simp only
          rw [hkh, hgeth]
          omega
        · simp only
          rw [hget k hkh]
          exact hs.pos k hk'
      · intro h' hm
        have hne : h' ≠ h := fun e => hn'.1 (e ▸ hm)
        have hh' := hrest h' hm
        simp only
        rw [hget _ (by omega)]
        exact hs.todo_two h' (List.mem_cons_of_mem _ hm)
      · intro w hwlt hun hsol h' hm
        have hb := mem_inc_of_vertex hw hm hwlt
        simp only at hun hsol ⊢
        by_cases hhh : h' = h
        · subst hhh
          rw [hgeth]
          by_contra hc
          have h1 : s.hitcount.getD (h' - g.num_vertices) 0 - 1 = 1 := by omega
          have := hclr h1 w (mem_inc_symm hw hm)
          rw [this] at hun
          exact Bool.noConfusion hun
        · rw [hget _ (by omega)]
          exact hs.spare w hwlt (hmono w hun) hsol h' hm
      · intro w hwlt hsol hun
        simp only at hun hsol ⊢
        by_cases hold : s.unnecessary.getD w false = true
        · obtain ⟨h1, hm⟩ := hnew w hold hun
          exact ⟨h, mem_inc_symm hw hm, by rw [hgeth]; exact h1⟩
        · rw [Bool.not_eq_true] at hold
          obtain ⟨h', hm, hc⟩ := hs.needed w hwlt hsol hold
          have hb := mem_inc_of_vertex hw hm hwlt
          have hne : h' ≠ h := by
            intro e
            rw [e] at hc
            omega
          exact ⟨h', hm, by rw [hget _ (by omega)]; exact hc⟩
    simp only [drop_hits]
    have hpos : s.hitcount.getD (h - g.num_vertices) 0 - 1 > 0 := by omega
    rw [if_pos hpos]
    by_cases h1 : s.hitcount.getD (h - g.num_vertices) 0 - 1 = 1
    · rw [if_pos h1]
      have hinv := key (clear_all s.unnecessary (g.inc h))
        (by rw [clear_all_length]; exact hs.un_len)
        (by
          intro w hw'
          rw [clear_all_getD, Bool.and_eq_true] at hw'
          exact hw'.1)
        (by
          intro w hold hnew
          rw [clear_all_getD, hold] at hnew
          simp only [Bool.true_and, Bool.not_eq_false', decide_eq_true_eq] at hnew
          exact ⟨h1, hnew⟩)
        (by
          intro _ w hm
          rw [clear_all_getD]
          simp [hm])
      obtain ⟨s', e1, e2, e3, e4⟩ := ih _ hinv hn'.2 hrest
      refine ⟨s', e1, e2, e3, ?_⟩
      intro w hw'
      have := e4 w hw'
      simp only at this
      rw [clear_all_getD, Bool.and_eq_true] at this
      exact this.1
    · rw [if_neg h1]
      have hinv := key s.unnecessary hs.un_len (fun _ h => h)
        (by
          intro w hold hnew
          rw [hold] at hnew
          exact Bool.noConfusion hnew)
        (fun h' => absurd h' h1)
      obtain ⟨s', e1, e2, e3, e4⟩ := ih _ hinv hn'.2 hrest
      exact ⟨s', e1, e2, e3, e4⟩

/-- Clearing `solution[v]` of a spare vertex opens the inner loop of the sweep. -/
theorem repair_inv_clear {g : Graph} (hw : WellFormed g) (s : RepairState) (v : Nat)
    (hs : RepairInv g [] s) (hv : v < g.num_vertices)
    (hun : s.unnecessary.getD v false = true) (hsol : s.solution.getD v false = true) :
    RepairInv g (g.inc v) { s with solution := s.solution.set v false } := by
  have ho := hw.objects
  refine ⟨by simp [hs.sol_len], hs.hc_len, hs.un_len, ?_, hs.pos, ?_, ?_, ?_⟩
  · intro k hk
    have hc := hs.count k hk
    simp only [List.not_mem_nil, if_false, add_zero] at hc
    have := countP_set_false s.solution v (g.inc (g.num_vertices + k))
      (inc_nodup hw _)
    unfold hit_count at hc ⊢
    simp only
    rw [hc, this]
    congr 1
    by_cases hm : g.num_vertices + k ∈ g.inc v
    · rw [if_pos hm, if_pos ⟨mem_inc_symm hw hm, hsol⟩]
    · rw [if_neg hm, if_neg (fun h => hm (mem_inc_symm hw h.1))]
  · intro h hm
    exact hs.spare v hv hun hsol h hm
  · intro w hwlt hun' hsol' h hm
    simp only at hun' hsol'
    have hne : v ≠ w := by
      intro e
      subst e
      rw [getD_set_eq _ _ _ _ (by rw [hs.sol_len]; exact hv)] at hsol'
      exact Bool.noConfusion hsol'
    rw [getD_set_ne _ _ _ hne] at hsol'
    exact hs.spare w hwlt hun' hsol' h hm
  · intro w hwlt hsol' hun'
    simp only at hun' hsol'
    have hne : v ≠ w := by
      intro e
      subst e
      rw [getD_set_eq _ _ _ _ (by rw [hs.sol_len]; exact hv)] at hsol'
      exact Bool.noConfusion hsol'
    rw [getD_set_ne _ _ _ hne] at hsol'
    exact hs.needed w hwlt hsol' hun'

theorem sweep_vertices_spec {g : Graph} (hw : WellFormed g) :
    ∀ (vs : List Nat) (s : RepairState), RepairInv g [] s → vs.Nodup →
      (∀ w ∈ vs, w < g.num_vertices) →
      (∀ w ∈ vs, s.unnecessary.getD w false = true → s.solution.getD w false = true) →
      ∃ s', sweep_vertices g vs s = .ok s' ∧ RepairInv g [] s' ∧
        (∀ w, s'.solution.getD w false = true → s.solution.getD w false = true) ∧
        (∀ w, s'.unnecessary.getD w false = true → s.unnecessary.getD w false = true) ∧
        (∀ w ∈ vs, s'.solution.getD w false = true → s'.unnecessary.getD w false = false) ∧
        (∀ w, w ∉ vs → s'.solution.getD w false = s.solution.getD w false) := by
  intro vs
  induction vs with
  | nil =>
    intro s hs _ _ _
    exact ⟨s, rfl, hs, fun _ h => h, fun _ h => h, fun _ h => absurd h (List.not_mem_nil _),
      fun _ _ => rfl⟩
  | cons v rest ih =>
    intro s hs hn hlt hg
    have hn' := List.nodup_cons.1 hn
    have hv := hlt v (List.mem_cons_self _ _)
    have hrest : ∀ w ∈ rest, w < g.num_vertices := fun w h => hlt w (List.mem_cons_of_mem _ h)
    simp only [sweep_vertices]
    by_cases hun : s.unnecessary.getD v false = true
    · have hsol := hg v (List.mem_cons_self _ _) hun
      rw [if_pos hun]
      have hinv := repair_inv_clear hw s v hs hv hun hsol
      obtain ⟨s2, d1, d2, d3, d4⟩ := drop_hits_spec hw (g.inc v) _ hinv (inc_nodup hw v)
        (fun h hm => mem_inc_of_vertex hw hm hv)
      rw [d1]
      simp only at d3
      have hsol2 : ∀ w, w ≠ v → s2.solution.getD w false = s.solution.getD w false := by
        intro w hne
        rw [d3, getD_set_ne _ _ _ (Ne.symm hne)]
      have hsolv : s2.solution.getD v false = false := by
        rw [d3, getD_set_eq _ _ _ _ (by rw [hs.sol_len]; exact hv)]
      obtain ⟨s', e1, e2, e3, e4, e5, e6⟩ := ih s2 d2 hn'.2 hrest (by
        intro w hm hu
        have hne : w ≠ v := fun e => hn'.1 (e ▸ hm)
        rw [hsol2 w hne]
        exact hg w (List.mem_cons_of_mem _ hm) (d4 w hu))
      refine ⟨s', e1, e2, ?_, fun w h => d4 w (e4 w h), ?_, ?_⟩
      · intro w h
        have h2 := e3 w h
        by_cases hne : w = v
        · rw [hne, hsolv] at h2
          exact Bool.noConfusion h2
        · rw [hsol2 w hne] at h2
          exact h2
      · intro w hm hsw
        rcases List.mem_cons.1 hm with rfl | hm
        · rw [e6 w hn'.1, hsolv] at hsw
          exact Bool.noConfusion hsw
        · exact e5 w hm hsw
      · intro w hm
        have hne : w ≠ v := fun e => hm (e ▸ List.mem_cons_self _ _)
        have hnr : w ∉ rest := fun e => hm (List.mem_cons_of_mem _ e)
        rw [e6 w hnr, hsol2 w hne]
    · rw [if_neg hun]
      obtain ⟨s', e1, e2, e3, e4, e5, e6⟩ := ih s hs hn'.2 hrest
        (fun w hm => hg w (List.mem_cons_of_mem _ hm))
      refine ⟨s', e1, e2, e3, e4, ?_, fun w hm => e6 w (fun e => hm (List.mem_cons_of_mem _ e))⟩
      intro w hm hsw
      rcases List.mem_cons.1 hm with rfl | hm
      · by_contra hc
        rw [Bool.not_eq_false] at hc
        exact hun (e4 w hc)
      · exact e5 w hm hsw

/-- What `remove_unnecessary_nodes` does on a cover of a well-formed graph: no
assertion fails, entries are only cleared, every hyperedge is still hit, and every
vertex left has a hyperedge that it alone hits. -/
theorem remove_unnecessary_nodes_spec {g : Graph} (hw : WellFormed g) (solution : Solution)
    (hlen : solution.length = g.num_vertices) (hcov : g.Hits (members solution)) :
    ∃ r, remove_unnecessary_nodes g solution = .ok r ∧ r.length = g.num_vertices ∧
      (∀ v, r.getD v false = true → solution.getD v false = true) ∧
      (∀ h < g.num_objects, g.num_vertices ≤ h → 1 ≤ hit_count g r h) ∧
      (∀ v < g.num_vertices, r.getD v false = true →
        ∃ h ∈ g.inc v, hit_count g r h = 1) := by
  have ho := hw.objects
  obtain ⟨c1, c2⟩ := initial_hitcount_spec hw solution
  have hpos : ∀ k < g.num_hyperedges, 1 ≤ (initial_hitcount g solution).getD k 0 := by
    intro k hk
    rw [c2 k hk]
    obtain ⟨v, hv, hs⟩ := hcov (g.num_vertices + k) (by omega) (by omega)
    have : 0 < hit_count g solution (g.num_vertices + k) :=
      List.countP_pos_iff.2 ⟨v, hv, hs⟩
    omega
  obtain ⟨un, m1, m2, m3⟩ := mark_necessary_spec g _ hpos (List.range g.num_hyperedges)
    solution (fun k hk => List.mem_range.1 hk)
  have hinv : RepairInv g []
      { solution := solution, hitcount := initial_hitcount g solution, unnecessary := un } := by
    refine ⟨hlen, c1, by rw [m2, hlen], ?_, hpos, ?_, ?_, ?_⟩
    · intro k hk
      simp only [List.not_mem_nil, if_false, add_zero]
      exact c2 k hk
    · intro h hm
      exact absurd hm (List.not_mem_nil _)
    · intro w hwlt hun _ h hm
      have hb := mem_inc_of_vertex hw hm hwlt
      have hk : h - g.num_vertices < g.num_hyperedges := by omega
      have h1 := hpos _ hk
      have h2 := ((m3 w).1 hun).2 (h - g.num_vertices) (List.mem_range.2 hk)
      have he : h - g.num_vertices + g.num_vertices = h := by omega
      rw [he] at h2
      by_contra hc
      exact h2 (by simp only at hc ⊢; omega) (mem_inc_symm hw hm)
    · intro w hwlt hsol hun
      simp only at hsol hun
      have hnot : ¬ (solution.getD w false = true ∧
          ∀ k ∈ List.range g.num_hyperedges, (initial_hitcount g solution).getD k 0 = 1 →
            w ∉ g.inc (k + g.num_vertices)) := by
        intro hc
        rw [(m3 w).2 hc] at hun
        exact Bool.noConfusion hun
      rw [not_and] at hnot
      have := hnot hsol
      push_neg at this
      obtain ⟨k, hk, h1, hm⟩ := this
      refine ⟨k + g.num_vertices, mem_inc_symm hw hm, ?_⟩
      simp only [Nat.add_sub_cancel]
      exact h1
  obtain ⟨s', e1, e2, e3, e4, e5, e6⟩ := sweep_vertices_spec hw (List.range g.num_vertices) _ hinv
    (List.nodup_range _) (fun w h => List.mem_range.1 h) (by
      intro w _ hu
      exact ((m3 w).1 hu).1)
  refine ⟨s'.solution, ?_, e2.sol_len, e3, ?_, ?_⟩
  · simp only [remove_unnecessary_nodes, m1, e1]
  · intro h hlt hge
    have hk : h - g.num_vertices < g.num_hyperedges := by omega
    have hc := e2.count _ hk
    have hp := e2.pos _ hk
    have he : g.num_vertices + (h - g.num_vertices) = h := by omega
    rw [he] at hc
    simp only [List.not_mem_nil, if_false, add_zero] at hc
    omega
  · intro v hv hsol
    have hun := e5 v (List.mem_range.2 hv) hsol
    obtain ⟨h, hm, h1⟩ := e2.needed v hv hsol hun
    have hb := mem_inc_of_vertex hw hm hv
    have hk : h - g.num_vertices < g.num_hyperedges := by omega
    have hc := e2.count _ hk
    have he : g.num_vertices + (h - g.num_vertices) = h := by omega
    rw [he] at hc
    simp only [List.not_mem_nil, if_false, add_zero] at hc
    exact ⟨h, hm, by omega⟩

/-- C4. Minimality repair is 1-minimal: on a well-formed graph and a solution
that hits every hyperedge, `remove_unnecessary_nodes` returns a solution in which
every vertex has an incident hyperedge whose only solution vertex it is, so that
clearing any single true entry leaves a hyperedge unhit. -/
theorem remove_unnecessary_nodes_one_minimal {g : Graph} (hw : WellFormed g)
    (solution : Solution) (hlen : solution.length = g.num_vertices)
    (hcov : g.Hits (members solution)) :
    ∃ r, remove_unnecessary_nodes g solution = .ok r ∧
      (∀ v, r.getD v false = true →
        ∃ h ∈ g.inc v, ∀ u ∈ g.inc h, r.getD u false = true → u = v) ∧
      (∀ v, r.getD v false = true → ¬ g.Hits (members (r.set v false))) := by
  obtain ⟨r, h1, h2, _, _, h5⟩ := remove_unnecessary_nodes_spec hw solution hlen hcov
  have hlt : ∀ v, r.getD v false = true → v < g.num_vertices := by
    intro v hv
    by_contra hc
    rw [getD_of_length_le _ _ _ (by rw [h2]; exact Nat.le_of_not_lt hc)] at hv
    exact Bool.noConfusion hv
  have huniq : ∀ v, r.getD v false = true →
      ∃ h ∈ g.inc v, ∀ u ∈ g.inc h, r.getD u false = true → u = v := by
    intro v hv
    obtain ⟨h, hm, hc⟩ := h5 v (hlt v hv) hv
    exact ⟨h, hm, fun u hu hru => countP_unique _ _ hc hu hru (mem_inc_symm hw hm) hv⟩
  refine ⟨r, h1, huniq, ?_⟩
  intro v hv hhits
  obtain ⟨h, hm, hu⟩ := huniq v hv
  have hb := mem_inc_of_vertex hw hm (hlt v hv)
  obtain ⟨u, hum, hus⟩ := hhits h hb.2 hb.1
  unfold members at hus
  by_cases hne : v = u
  · subst hne
    rw [getD_set_eq _ _ _ _ (by rw [h2]; exact hlt v hv)] at hus
    exact Bool.noConfusion hus
  · rw [getD_set_ne _ _ _ hne] at hus
    exact hne (hu u hum hus).symm

/-- C4 at the instance of scenario S1 with the cover of all three vertices. -/
theorem remove_unnecessary_nodes_one_minimal_witness :
    (WellFormed (read_input_hs 3 [[1, 2], [2, 3]]) ∧
      [true, true, true].length = (read_input_hs 3 [[1, 2], [2, 3]]).num_vertices ∧
      (read_input_hs 3 [[1, 2], [2, 3]]).Hits (members [true, true, true])) ∧
    ∃ r, remove_unnecessary_nodes (read_input_hs 3 [[1, 2], [2, 3]]) [true, true, true] = .ok r ∧
      (∀ v, r.getD v false = true →
        ∃ h ∈ (read_input_hs 3 [[1, 2], [2, 3]]).inc v,
          ∀ u ∈ (read_input_hs 3 [[1, 2], [2, 3]]).inc h, r.getD u false = true → u = v) ∧
      (∀ v, r.getD v false = true →
        ¬ (read_input_hs 3 [[1, 2], [2, 3]]).Hits (members (r.set v false))) :=
  ⟨by decide, remove_unnecessary_nodes_one_minimal (by decide) [true, true, true]
    (by decide) (by decide)⟩

/-- C5. Minimality repair keeps feasibility: on a well-formed graph and a solution
that hits every hyperedge, `remove_unnecessary_nodes` fails no assertion, only
clears entries, and its result still hits every hyperedge. -/
theorem remove_unnecessary_nodes_keeps_cover {g : Graph} (hw : WellFormed g)
    (solution : Solution) (hlen : solution.length = g.num_vertices)
    (hcov : g.Hits (members solution)) :
    ∃ r, remove_unnecessary_nodes g solution = .ok r ∧ r.length = solution.length ∧
      (∀ v, r.getD v false = true → solution.getD v false = true) ∧
      g.Hits (members r) := by
  obtain ⟨r, h1, h2, h3, h4, _⟩ := remove_unnecessary_nodes_spec hw solution hlen hcov
  refine ⟨r, h1, by rw [h2, hlen], h3, ?_⟩
  intro h hlt hge
  have := h4 h hlt hge
  obtain ⟨v, hv, hs⟩ := List.countP_pos_iff.1 (show 0 < hit_count g r h by omega)
  exact ⟨v, hv, hs⟩

/-- C5 at the instance of scenario S2 with the cover of all four vertices. -/
theorem remove_unnecessary_nodes_keeps_cover_witness :
    (WellFormed (read_input_hs 4 [[1, 2], [3, 4], [1, 3]]) ∧
      [true, true, true, true].length = (read_input_hs 4 [[1, 2], [3, 4], [1, 3]]).num_vertices ∧
      (read_input_hs 4 [[1, 2], [3, 4], [1, 3]]).Hits (members [true, true, true, true])) ∧
    ∃ r, remove_unnecessary_nodes (read_input_hs 4 [[1, 2], [3, 4], [1, 3]])
        [true, true, true, true] = .ok r ∧
      r.length = [true, true, true, true].length ∧
      (∀ v, r.getD v false = true → [true, true, true, true].getD v false = true) ∧
      (read_input_hs 4 [[1, 2], [3, 4], [1, 3]]).Hits (members r) :=
  ⟨by decide, remove_unnecessary_nodes_keeps_cover (by decide) [true, true, true, true]
    (by decide) (by decide)⟩

/-! ## The notification loop -/

theorem notify_one_spec (st : Engine) (v : Nat) (hd : v < st.degree.length)
    (he : v < st.enqueued.length) (hq : st.Q.Nodup) (hqe : ∀ x, x ∈ st.Q ↔ st.enq x = true) :
    Notified st [v] (notify_one st v) := by
  have hdeg : ∀ i, (st.degree.set v (st.degree.getD v 0 - 1)).getD i 0 =
      st.deg i - if i ∈ [v] then 1 else 0 := by
    intro i
    unfold Engine.deg
    by_cases hi : v = i
    · subst hi
      rw [getD_set_eq _ _ _ _ hd]
      simp
    · rw [getD_set_ne _ _ _ hi]
      have : i ∉ [v] := by simp [Ne.symm hi]
      rw [if_neg this]
      simp
  unfold notify_one
  by_cases hc : (st.active.getD v false && !st.enqueued.getD v false) = true
  · simp only [hc, if_true]
    rw [Bool.and_eq_true, Bool.not_eq_true'] at hc
    have hvq : v ∉ st.Q := by
      intro h
      have := (hqe v).1 h
      unfold Engine.enq at this
      rw [hc.2] at this
      exact Bool.noConfusion this
    refine ⟨rfl, rfl, rfl, rfl, by simp, by simp, hdeg, ?_, ?_, ?_⟩
    · intro x
      simp only [List.mem_append, List.mem_singleton]
      constructor
      · rintro (h | rfl)
        · exact Or.inl h
        · exact Or.inr ⟨rfl, hc.1⟩
      · rintro (h | ⟨rfl, _⟩)
        · exact Or.inl h
        · exact Or.inr rfl
    · exact List.Nodup.append hq (List.nodup_singleton v) (by
        intro a ha hav
        rw [List.mem_singleton.1 hav] at ha
        exact hvq ha)
    · intro x
      simp only [List.mem_append, List.mem_singleton, Engine.enq]
      by_cases hxv : v = x
      · subst hxv
        rw [getD_set_eq _ _ _ _ he]
        simp
      · rw [getD_set_ne _ _ _ hxv]
        have := hqe x
        unfold Engine.enq at this
        rw [← this]
        constructor
        · rintro (h | h)
          · exact h
          · exact absurd h.symm hxv
        · exact fun h => Or.inl h
  · rw [Bool.not_eq_true] at hc
    simp only [hc, Bool.false_eq_true, if_false]
    refine ⟨rfl, rfl, rfl, rfl, by simp, rfl, hdeg, ?_, hq, hqe⟩
    intro x
    simp only [List.mem_singleton]
    constructor
    · exact fun h => Or.inl h
    · rintro (h | ⟨rfl, ha⟩)
      · exact h
      · rw [hqe]
        unfold Engine.act at ha
        unfold Engine.enq
        rw [ha, Bool.true_and, Bool.not_eq_false'] at hc
        exact hc

theorem notify_spec :
    ∀ (l : List Nat) (st : Engine), l.Nodup →
      (∀ v ∈ l, v < st.degree.length ∧ v < st.enqueued.length) → st.Q.Nodup →
      (∀ x, x ∈ st.Q ↔ st.enq x = true) → Notified st l (notify st l) := by
  intro l
  induction l with
  | nil =>
    intro st _ _ hq hqe
    exact ⟨rfl, rfl, rfl, rfl, rfl, rfl, by intro i; simp [notify], by simp [notify], hq, hqe⟩
  | cons v rest ih =>
    intro st hn hl hq hqe
    have hn' := List.nodup_cons.1 hn
    have hv := hl v (List.mem_cons_self _ _)
    have h1 := notify_one_spec st v hv.1 hv.2 hq hqe
    have h2 := ih (notify_one st v) hn'.2 (by
      intro w hw
      rw [h1.degree_len, h1.enq_len]
      exact hl w (List.mem_cons_of_mem _ hw)) h1.q_nodup h1.q_enq
    have hact : ∀ x, (notify_one st v).act x = st.act x := by
      intro x
      unfold Engine.act
      rw [h1.active_eq]
    show Notified st (v :: rest) (notify (notify_one st v) rest)
    refine ⟨h2.active_eq.trans h1.active_eq, h2.nah_eq.trans h1.nah_eq,
      h2.solution_eq.trans h1.solution_eq, h2.forced_eq.trans h1.forced_eq,
      h2.degree_len.trans h1.degree_len, h2.enq_len.trans h1.enq_len, ?_, ?_, h2.q_nodup,
      h2.q_enq⟩
    · intro i
      rw [h2.deg i, h1.deg i]
      by_cases hiv : i = v
      · subst hiv
        simp [hn'.1]
      · simp [hiv]
    · intro x
      rw [h2.queue x, h1.queue x, hact x]
      simp only [List.mem_cons, List.not_mem_nil, or_false]
      constructor
      · rintro ((h | ⟨h, h'⟩) | ⟨h, h'⟩)
        · exact Or.inl h
        · exact Or.inr ⟨Or.inl h, h'⟩
        · exact Or.inr ⟨Or.inr h, h'⟩
      · rintro (h | ⟨h | h, h'⟩)
        · exact Or.inl (Or.inl h)
        · exact Or.inl (Or.inr ⟨h, h'⟩)
        · exact Or.inr ⟨h, h'⟩

/-! ## Deactivation of one object -/

theorem lt_length_of_getD_true (l : List Bool) (r : Nat) (h : l.getD r false = true) :
    r < l.length := by
  by_contra hc
  rw [getD_of_length_le _ _ _ (Nat.le_of_not_lt hc)] at h
  exact Bool.noConfusion h

theorem count_true_set_false (l : List Bool) (r : Nat) (h : l.getD r false = true) :
    (l.set r false).count true + 1 = l.count true := by
  have hlt := lt_length_of_getD_true l r h
  rw [List.count_set _ _ _ _ hlt]
  rw [List.getD_eq_getElem l false hlt] at h
  have hpos : 0 < l.count true := List.count_pos_iff.2 (h ▸ List.getElem_mem hlt)
  simp only [h, beq_self_eq_true, if_true, Bool.false_eq_true, if_false,
    show (false == true) = false from rfl]
  omega

theorem getD_drop {α : Type} (l : List α) (n i : Nat) (d : α) :
    (l.drop n).getD i d = l.getD (n + i) d := by
  simp only [List.getD_eq_getElem?_getD, List.getElem?_drop]

theorem count_drop_set_false (l : List Bool) (r n : Nat) (h : l.getD r false = true) :
    ((l.set r false).drop n).count true + (if n ≤ r then 1 else 0) = (l.drop n).count true := by
  rw [List.drop_set]
  by_cases hrn : r < n
  · rw [if_pos hrn, if_neg (by omega)]
    rfl
  · rw [if_neg hrn, if_pos (by omega)]
    apply count_true_set_false
    rw [getD_drop]
    have : n + (r - n) = r := by omega
    rw [this]
    exact h

theorem act_set_false (st : Engine) (r i : Nat) (nah : Int) :
    ({ st with active := st.active.set r false, num_active_hyperedges := nah } : Engine).act i =
      (st.act i && decide (i ≠ r)) := by
  unfold Engine.act
  simp only
  rw [getD_set]
  by_cases hri : r = i
  · subst hri
    by_cases hlt : r < st.active.length
    · simp [hlt]
    · rw [if_neg (fun h => hlt h.2), getD_of_length_le _ _ _ (Nat.le_of_not_lt hlt)]
      simp
  · rw [if_neg (fun h => hri h.1)]
    simp [Ne.symm hri]

theorem act_lt {g : Graph} {ex : Nat → Prop} {st : Engine} (hinv : EngineInv g ex st) {i : Nat}
    (h : st.act i = true) : i < g.num_objects := by
  rw [← hinv.active_len]
  exact lt_length_of_getD_true _ _ h

theorem not_mem_inc_self {g : Graph} (hw : WellFormed g) (r : Nat) : r ∉ g.inc r := by
  intro h
  have h1 := mem_inc_lt hw h
  have := (hw.bipartite r h1.1 r h).2
  omega

/-- The count of active neighbours before and after the deactivation of `r`. -/
theorem active_count_deactivate {g : Graph} (hw : WellFormed g) (st st' : Engine) (r i : Nat)
    (hr : st.act r = true) (hact : ∀ j, st'.act j = (st.act j && decide (j ≠ r))) :
    (active_count g st i : Int) = active_count g st' i + if i ∈ g.inc r then 1 else 0 := by
  have h := countP_set_false st.active r (g.inc i) (inc_nodup hw i)
  have hcongr : (g.inc i).countP (fun u => (st.active.set r false).getD u false) =
      active_count g st' i := by
    unfold active_count
    apply List.countP_congr
    intro x _
    have := act_set_false st r x 0
    rw [hact x]
    unfold Engine.act at this ⊢
    simp only at this
    rw [this]
  rw [hcongr] at h
  unfold active_count Engine.act at h ⊢
  rw [h]
  congr 1
  unfold Engine.act at hr
  by_cases hm : i ∈ g.inc r
  · rw [if_pos hm, if_pos ⟨mem_inc_symm hw hm, hr⟩]
  · rw [if_neg hm, if_neg (fun h' => hm (mem_inc_symm hw h'.1))]

theorem deactivate_spec {g : Graph} (hw : WellFormed g) {ex : Nat → Prop} {st : Engine}
    (hinv : EngineInv g ex st) (r : Nat) (hr : st.act r = true) (nah : Int)
    (hnah : nah = st.num_active_hyperedges - if g.num_vertices ≤ r then 1 else 0) :
    EngineInv g ex
        (notify { st with active := st.active.set r false, num_active_hyperedges := nah }
          (g.inc r)) ∧
      Deactivated g st r
        (notify { st with active := st.active.set r false, num_active_hyperedges := nah }
          (g.inc r)) := by
  have hrlt := act_lt hinv hr
  have hn := notify_spec (g.inc r)
    { st with active := st.active.set r false, num_active_hyperedges := nah }
    (inc_nodup hw r)
    (by
      intro v hv
      simp only
      rw [hinv.degree_len, hinv.enq_len]
      exact ⟨(mem_inc_lt hw hv).2, (mem_inc_lt hw hv).2⟩)
    hinv.q_nodup hinv.q_enq
  generalize notify { st with active := st.active.set r false, num_active_hyperedges := nah }
    (g.inc r) = st' at hn
  have hact : ∀ i, st'.act i = (st.act i && decide (i ≠ r)) := by
    intro i
    rw [← act_set_false st r i nah]
    unfold Engine.act
    rw [hn.active_eq]
  have hdeg : ∀ i, st'.deg i = st.deg i - if i ∈ g.inc r then 1 else 0 := hn.deg
  have hd : Deactivated g st r st' := by
    refine ⟨hact, ?_, hn.solution_eq, hn.forced_eq, hdeg, ?_⟩
    · rw [hn.active_eq]
      exact count_true_set_false _ _ hr
    · intro x
      rw [hn.queue x, act_set_false]
      simp only [Bool.and_eq_true, decide_eq_true_eq]
      constructor
      · rintro (h | ⟨h, h', _⟩)
        · exact Or.inl h
        · exact Or.inr ⟨h, h'⟩
      · rintro (h | ⟨h, h'⟩)
        · exact Or.inl h
        · exact Or.inr ⟨h, h', fun e => not_mem_inc_self hw r (e ▸ h)⟩
  refine ⟨⟨?_, ?_, ?_, ?_, hn.q_nodup, hn.q_enq, ?_, ?_⟩, hd⟩
  · rw [hn.active_eq]
    simp [hinv.active_len]
  · rw [hn.degree_len]
    exact hinv.degree_len
  · rw [hn.enq_len]
    exact hinv.enq_len
  · rw [hn.solution_eq]
    exact hinv.sol_len
  · intro i hi hai hex
    rw [hact i, Bool.and_eq_true] at hai
    have hc := hinv.coherent i hi hai.1 hex
    rw [hdeg i, hc, active_count_deactivate hw st st' r i hr hact]
    omega
  · rw [hn.nah_eq, hn.active_eq]
    simp only
    rw [hnah, hinv.nah]
    have := count_drop_set_false st.active r g.num_vertices hr
    split_ifs at this ⊢ <;> omega

/-! ## Binary search -/

theorem sorted_getD_mono (v : List Nat) (hs : v.Sorted (· < ·)) {i j : Nat} (hij : i ≤ j)
    (hj : j < v.length) : v.getD i 0 ≤ v.getD j 0 := by
  rw [List.getD_eq_getElem v 0 hj, List.getD_eq_getElem v 0 (lt_of_le_of_lt hij hj)]
  rcases Nat.lt_or_eq_of_le hij with h | h
  · exact Nat.le_of_lt (List.pairwise_iff_getElem.1 hs i j (lt_of_le_of_lt hij hj) hj h)
  · subst h
    exact Nat.le_refl _

theorem lower_bound_spec (v : List Nat) (x : Nat) (hs : v.Sorted (· < ·)) :
    ∀ (fuel first count : Nat), count ≤ fuel → first + count ≤ v.length →
      (∀ i < first, v.getD i 0 < x) →
      (∀ i, first + count ≤ i → i < v.length → x ≤ v.getD i 0) →
      lower_bound v x fuel first count ≤ v.length ∧
      (∀ i < lower_bound v x fuel first count, v.getD i 0 < x) ∧
      (∀ i, lower_bound v x fuel first count ≤ i → i < v.length → x ≤ v.getD i 0) := by
  intro fuel
  induction fuel with
  | zero =>
    intro first count hc hlen hlo hhi
    have : count = 0 := by omega
    subst this
    exact ⟨by simpa [lower_bound] using hlen, by simpa [lower_bound] using hlo,
      by simpa [lower_bound] using hhi⟩
  | succ fuel ih =>
    intro first count hc hlen hlo hhi
    unfold lower_bound
    by_cases h0 : count = 0
    · subst h0
      rw [if_pos rfl]
      exact ⟨hlen, hlo, by simpa using hhi⟩
    · rw [if_neg h0]
      have hstep : count / 2 < count := Nat.div_lt_self (Nat.pos_of_ne_zero h0) (by omega)
      simp only
      by_cases hlt : v.getD (first + count / 2) 0 < x
      · rw [if_pos hlt]
        apply ih
        · omega
        · omega
        · intro i hi
          have := sorted_getD_mono v hs (show i ≤ first + count / 2 by omega) (by omega)
          omega
        · intro i hi hil
          exact hhi i (by omega) hil
      · rw [if_neg hlt]
        apply ih
        · omega
        · omega
        · exact hlo
        · intro i hi hil
          have := sorted_getD_mono v hs hi hil
          omega

/-- On a sorted vector `sorted_vector_contains` decides membership. -/
theorem sorted_vector_contains_iff (v : List Nat) (x : Nat) (hs : v.Sorted (· < ·)) :
    sorted_vector_contains v x = true ↔ x ∈ v := by
  obtain ⟨h1, h2, h3⟩ := lower_bound_spec v x hs v.length 0 v.length (Nat.le_refl _)
    (by omega) (fun i hi => absurd hi (Nat.not_lt_zero i)) (fun i hi hil => by omega)
  unfold sorted_vector_contains
  simp only [Bool.and_eq_true, decide_eq_true_eq, Bool.not_eq_true', decide_eq_false_iff_not]
  constructor
  · rintro ⟨hne, hnlt⟩
    have hp : lower_bound v x v.length 0 v.length < v.length := lt_of_le_of_ne h1 hne
    have := h3 _ (Nat.le_refl _) hp
    have heq : v.getD (lower_bound v x v.length 0 v.length) 0 = x := by omega
    rw [← heq]
    exact getD_mem v _ 0 hp
  · intro hm
    obtain ⟨j, hj, hjx⟩ := List.mem_iff_getElem.1 hm
    have hjx' : v.getD j 0 = x := by rw [List.getD_eq_getElem v 0 hj]; exact hjx
    have hpj : lower_bound v x v.length 0 v.length ≤ j := by
      by_contra hc
      have := h2 j (by omega)
      omega
    refine ⟨by omega, ?_⟩
    have := sorted_getD_mono v hs hpj hj
    omega

/-! ## The loop over the hyperedges of a committed vertex -/

theorem engine_inv_weaken {g : Graph} {ex ex' : Nat → Prop} {st : Engine}
    (hinv : EngineInv g ex st) (h : ∀ i, st.act i = true → ¬ ex' i → ¬ ex i) :
    EngineInv g ex' st :=
  ⟨hinv.active_len, hinv.degree_len, hinv.enq_len, hinv.sol_len, hinv.q_nodup, hinv.q_enq,
    fun i hi ha he => hinv.coherent i hi ha (h i ha he), hinv.nah⟩

theorem progress_refl (st : Engine) : Progress st st :=
  ⟨fun _ h => h, fun _ => le_refl _, le_refl _, fun _ h => h⟩

theorem progress_trans {a b c : Engine} (h1 : Progress a b) (h2 : Progress b c) :
    Progress a c :=
  ⟨fun i h => h1.act i (h2.act i h), fun i => le_trans (h2.deg i) (h1.deg i),
    le_trans h2.count h1.count, fun v h => h2.sol v (h1.sol v h)⟩

theorem cover_loop_spec {g : Graph} (hw : WellFormed g) {ex : Nat → Prop} :
    ∀ (l : List Nat) (st : Engine), EngineInv g ex st → (∀ h ∈ l, g.num_vertices ≤ h) →
      EngineInv g ex (cover_loop g st l) ∧ Covered st l (cover_loop g st l) := by
  intro l
  induction l with
  | nil =>
    intro st hinv _
    exact ⟨hinv, ⟨by intro i; simp [cover_loop], le_refl _, rfl, rfl, fun _ => le_refl _,
      fun _ h => h⟩⟩
  | cons h rest ih =>
    intro st hinv hl
    have hh := hl h (List.mem_cons_self _ _)
    have hrest : ∀ h' ∈ rest, g.num_vertices ≤ h' := fun h' hm => hl h' (List.mem_cons_of_mem _ hm)
    by_cases ha : st.act h = true
    · have hstep : cover_loop g st (h :: rest) = cover_loop g (deactivate_hyperedge g st h) rest := by
        unfold Engine.act at ha
        simp only [cover_loop, List.foldl_cons, ha, if_true]
      rw [hstep]
      obtain ⟨d1, d2⟩ : EngineInv g ex (deactivate_hyperedge g st h) ∧
          Deactivated g st h (deactivate_hyperedge g st h) :=
        deactivate_spec hw hinv h ha (st.num_active_hyperedges - 1) (by rw [if_pos hh])
      obtain ⟨e1, e2⟩ := ih (deactivate_hyperedge g st h) d1 hrest
      refine ⟨e1, ⟨?_, ?_, e2.solution_eq.trans d2.solution_eq,
        e2.forced_eq.trans d2.forced_eq, ?_, ?_⟩⟩
      · intro i
        rw [e2.act i, d2.act i]
        by_cases hi : i = h
        · subst hi
          simp
        · simp [hi]
      · have := d2.count
        have := e2.count
        omega
      · intro i
        have h1 := e2.deg i
        have h2 := d2.deg i
        rw [h2] at h1
        split_ifs at h1 <;> omega
      · intro x hx
        apply e2.queue
        rw [d2.queue]
        exact Or.inl hx
    · have hstep : cover_loop g st (h :: rest) = cover_loop g st rest := by
        unfold Engine.act at ha
        simp only [cover_loop, List.foldl_cons, ha]
        rfl
      rw [hstep]
      obtain ⟨e1, e2⟩ := ih st hinv hrest
      refine ⟨e1, ⟨?_, e2.count, e2.solution_eq, e2.forced_eq, e2.deg, e2.queue⟩⟩
      intro i
      rw [e2.act i]
      by_cases hi : i = h
      · subst hi
        rw [Bool.not_eq_true] at ha
        simp [ha]
      · simp [hi]

/-! ## Taking a vertex: the unit-edge rule and the greedy choice -/

/-- The vertex `u` is deactivated, `solution` and `always_in_solution` are set,
and the loop over the hyperedges of `u` is run. -/
theorem take_vertex_spec {g : Graph} (hw : WellFormed g) {st : Engine}
    (hinv : EngineInv g (fun _ => False) st) (u : Nat) (hu : u < g.num_vertices)
    (hau : st.act u = true) (S : Solution) (hS : S.length = g.num_vertices) (F : List Nat)
    (st0 : Engine)
    (h0 : st0 = { st with active := st.active.set u false, solution := S,
                          always_in_solution := F }) :
    EngineInv g (fun _ => False) (cover_loop g st0 (g.inc u)) ∧
      (∀ i, (cover_loop g st0 (g.inc u)).act i =
        (st.act i && decide (i ≠ u) && decide (i ∉ g.inc u))) ∧
      (cover_loop g st0 (g.inc u)).active.count true < st.active.count true ∧
      (∀ i, (cover_loop g st0 (g.inc u)).deg i ≤ st.deg i) ∧
      (∀ x ∈ st.Q, x ∈ (cover_loop g st0 (g.inc u)).Q) ∧
      (cover_loop g st0 (g.inc u)).solution = S ∧
      (cover_loop g st0 (g.inc u)).always_in_solution = F := by
  have hact0 : ∀ i, st0.act i = (st.act i && decide (i ≠ u)) := by
    intro i
    rw [h0]
    exact act_set_false st u i st.num_active_hyperedges
  have hdeg0 : ∀ i, st0.deg i = st.deg i := by intro i; rw [h0]; rfl
  have hinv0 : EngineInv g (fun i => i ∈ g.inc u) st0 := by
    refine ⟨by rw [h0]; simp [hinv.active_len], by rw [h0]; exact hinv.degree_len,
      by rw [h0]; exact hinv.enq_len, by rw [h0]; exact hS, by rw [h0]; exact hinv.q_nodup,
      by rw [h0]; exact hinv.q_enq, ?_, ?_⟩
    · intro i hi hai hex
      rw [hact0 i, Bool.and_eq_true] at hai
      have hc := hinv.coherent i hi hai.1 (fun h => h)
      have := active_count_deactivate hw st st0 u i hau hact0
      rw [if_neg hex] at this
      rw [hdeg0 i, hc, this]
      simp
    · rw [h0]
      show st.num_active_hyperedges = _
      rw [hinv.nah]
      simp only
      rw [List.drop_set_of_lt _ _ hu]
  obtain ⟨c1, c2⟩ := cover_loop_spec hw (g.inc u) st0 hinv0
    (fun h hm => (mem_inc_of_vertex hw hm hu).1)
  have hact : ∀ i, (cover_loop g st0 (g.inc u)).act i =
      (st.act i && decide (i ≠ u) && decide (i ∉ g.inc u)) := by
    intro i
    rw [c2.act i, hact0 i]
  refine ⟨engine_inv_weaken c1 ?_, hact, ?_, ?_, ?_, ?_, ?_⟩
  · intro i hai _ hm
    rw [hact i] at hai
    simp only [Bool.and_eq_true, decide_eq_true_eq] at hai
    exact hai.2 hm
  · have h1 := c2.count
    have h2 := count_true_set_false st.active u hau
    have h3 : st0.active = st.active.set u false := by rw [h0]
    rw [h3] at h1
    omega
  · intro i
    have := c2.deg i
    rw [hdeg0 i] at this
    exact this
  · intro x hx
    exact c2.queue x (by rw [h0]; exact hx)
  · rw [c2.solution_eq, h0]
  · rw [c2.forced_eq, h0]

theorem find_unit_none (active : List Bool) :
    ∀ (l : List Nat) (acc : Option Nat), l.countP (fun v => active.getD v false) = 0 →
      find_unit active l acc = .ok acc := by
  intro l
  induction l with
  | nil => intro acc _; rfl
  | cons v rest ih =>
    intro acc h
    rw [List.countP_cons] at h
    have hv : active.getD v false = false := by
      by_contra hc
      rw [Bool.not_eq_false] at hc
      rw [if_pos hc] at h
      omega
    simp only [find_unit, hv]
    exact ih acc (by omega)

theorem find_unit_one (active : List Bool) :
    ∀ (l : List Nat), l.countP (fun v => active.getD v false) = 1 →
      ∃ u ∈ l, active.getD u false = true ∧ find_unit active l none = .ok (some u) := by
  intro l
  induction l with
  | nil => intro h; simp at h
  | cons v rest ih =>
    intro h
    rw [List.countP_cons] at h
    by_cases hv : active.getD v false = true
    · rw [if_pos hv] at h
      refine ⟨v, List.mem_cons_self _ _, hv, ?_⟩
      simp only [find_unit, hv, if_true]
      exact find_unit_none active rest (some v) (by omega)
    · rw [if_neg hv] at h
      obtain ⟨u, hu, hau, hf⟩ := ih (by omega)
      refine ⟨u, List.mem_cons_of_mem _ hu, hau, ?_⟩
      rw [Bool.not_eq_true] at hv
      simp only [find_unit, hv]
      exact hf

theorem unit_edge_rule_spec {g : Graph} (hw : WellFormed g) (ros : Bool) {st : Engine}
    (hinv : EngineInv g (fun _ => False) st) (x : Nat) (hx : g.num_vertices ≤ x)
    (hax : st.act x = true) (hdeg : st.deg x = 1) :
    ∃ st' u, unit_edge_rule g ros x st = .ok st' ∧ EngineInv g (fun _ => False) st' ∧
      u ∈ g.inc x ∧ st.act u = true ∧ (∀ v ∈ g.inc x, st.act v = true → v = u) ∧
      (∀ i, st'.act i = (st.act i && decide (i ≠ u) && decide (i ∉ g.inc u))) ∧
      Commit g ros u st st' ∧
      st'.active.count true < st.active.count true ∧
      (∀ i, st'.deg i ≤ st.deg i) ∧ (∀ q ∈ st.Q, q ∈ st'.Q) := by
  have hxlt := act_lt hinv hax
  have hc := hinv.coherent x hxlt hax (fun h => h)
  have hcount : (g.inc x).countP (fun v => st.active.getD v false) = 1 := by
    rw [hdeg] at hc
    unfold active_count Engine.act at hc
    omega
  obtain ⟨u, hu, hau, hf⟩ := find_unit_one st.active (g.inc x) hcount
  have hult := mem_inc_of_hyperedge hw hu hx
  have huniq : ∀ v ∈ g.inc x, st.act v = true → v = u :=
    fun v hv hav => countP_unique _ _ hcount hv hav hu hau
  unfold unit_edge_rule
  rw [hf]
  simp only
  cases ros with
  | true =>
    obtain ⟨t1, t2, t3, t4, t5, t6, t7⟩ := take_vertex_spec hw hinv u hult hau st.solution
      hinv.sol_len (st.always_in_solution ++ [g.vid u]) _ rfl
    refine ⟨_, u, rfl, t1, hu, hau, huniq, t2, ?_, t3, t4, t5⟩
    unfold Commit
    simp only [if_true]
    exact ⟨t7, t6⟩
  | false =>
    obtain ⟨t1, t2, t3, t4, t5, t6, t7⟩ := take_vertex_spec hw hinv u hult hau
      (st.solution.set u true) (by simp [hinv.sol_len]) st.always_in_solution _ rfl
    refine ⟨_, u, rfl, t1, hu, hau, huniq, t2, ?_, t3, t4, t5⟩
    unfold Commit
    simp only [Bool.false_eq_true, if_false]
    exact ⟨t6, t7⟩

/-! ## The greedy choice -/

theorem notify_one_with_solution (st : Engine) (S : Solution) (v : Nat) :
    notify_one { st with solution := S } v = { notify_one st v with solution := S } := by
  unfold notify_one
  simp only
  split <;> rfl

theorem notify_with_solution (S : Solution) :
    ∀ (l : List Nat) (st : Engine),
      notify { st with solution := S } l = { notify st l with solution := S } := by
  intro l
  induction l with
  | nil => intro st; rfl
  | cons v rest ih =>
    intro st
    simp only [notify, List.foldl_cons] at ih ⊢
    rw [notify_one_with_solution, ih]

theorem deactivate_hyperedge_with_solution (g : Graph) (st : Engine) (S : Solution) (h : Nat) :
    deactivate_hyperedge g { st with solution := S } h =
      { deactivate_hyperedge g st h with solution := S } := by
  unfold deactivate_hyperedge
  exact notify_with_solution S (g.inc h)
    { st with active := st.active.set h false
              num_active_hyperedges := st.num_active_hyperedges - 1 }

theorem cover_loop_with_solution (g : Graph) (S : Solution) :
    ∀ (l : List Nat) (st : Engine),
      cover_loop g { st with solution := S } l = { cover_loop g st l with solution := S } := by
  intro l
  induction l with
  | nil => intro st; rfl
  | cons h rest ih =>
    intro st
    simp only [cover_loop, List.foldl_cons] at ih ⊢
    by_cases ha : st.active.getD h false = true
    · simp only [ha, if_true]
      rw [deactivate_hyperedge_with_solution, ih]
    · simp only [ha]
      exact ih st

theorem notify_solution (l : List Nat) (st : Engine) : (notify st l).solution = st.solution := by
  have := notify_with_solution st.solution l st
  have h2 : ({ st with solution := st.solution } : Engine) = st := rfl
  rw [h2] at this
  rw [this]

theorem cover_loop_solution (g : Graph) (l : List Nat) (st : Engine) :
    (cover_loop g st l).solution = st.solution := by
  have := cover_loop_with_solution g st.solution l st
  have h2 : ({ st with solution := st.solution } : Engine) = st := rfl
  rw [h2] at this
  rw [this]

theorem with_solution_self (st : Engine) (S : Solution) (h : st.solution = S) :
    ({ st with solution := S } : Engine) = st := by
  subst h
  rfl

/-- The loop of the greedy choice is the loop of the unit-edge rule, with
`solution[v]` set when one of the hyperedges is active. -/
theorem select_loop_eq (g : Graph) (v : Nat) :
    ∀ (l : List Nat) (st : Engine),
      select_loop g v st l =
        { cover_loop g st l with
          solution := if l.any (fun h => st.act h) then st.solution.set v true else st.solution } := by
  intro l
  induction l with
  | nil => intro st; rfl
  | cons h rest ih =>
    intro st
    by_cases ha : st.active.getD h false = true
    · have e1 : select_loop g v st (h :: rest) =
          select_loop g v (deactivate_hyperedge g { st with solution := st.solution.set v true } h)
            rest := by
        simp only [select_loop, List.foldl_cons, ha, if_true]
      have e2 : cover_loop g st (h :: rest) = cover_loop g (deactivate_hyperedge g st h) rest := by
        simp only [cover_loop, List.foldl_cons, ha, if_true]
      have hany : (h :: rest).any (fun h => st.act h) = true := by
        rw [List.any_cons]
        simp only [Engine.act]
        rw [ha]
        rfl
      rw [e1, e2, ih, hany, deactivate_hyperedge_with_solution, cover_loop_with_solution]
      simp only [if_true]
      split <;> simp
    · have e1 : select_loop g v st (h :: rest) = select_loop g v st rest := by
        simp only [select_loop, List.foldl_cons, ha]
        rfl
      have e2 : cover_loop g st (h :: rest) = cover_loop g st rest := by
        simp only [cover_loop, List.foldl_cons, ha]
        rfl
      have hany : (h :: rest).any (fun h => st.act h) = rest.any (fun h => st.act h) := by
        rw [Bool.not_eq_true] at ha
        rw [List.any_cons]
        simp only [Engine.act]
        rw [ha]
        rfl
      rw [e1, e2, ih, hany]

theorem greedy_choice_spec {g : Graph} (hw : WellFormed g) {st : Engine}
    (hinv : EngineInv g (fun _ => False) st) (v : Nat) (hv : v < g.num_vertices)
    (hav : st.act v = true) :
    EngineInv g (fun _ => False) (greedy_choice g v st) ∧
      (∀ i, (greedy_choice g v st).act i =
        (st.act i && decide (i ≠ v) && decide (i ∉ g.inc v))) ∧
      (greedy_choice g v st).solution =
        (if ∃ h ∈ g.inc v, st.act h = true then st.solution.set v true else st.solution) ∧
      (greedy_choice g v st).always_in_solution = st.always_in_solution ∧
      (greedy_choice g v st).active.count true < st.active.count true ∧
      (∀ i, (greedy_choice g v st).deg i ≤ st.deg i) ∧
      (∀ q ∈ st.Q, q ∈ (greedy_choice g v st).Q) := by
  have hany : (g.inc v).any
      (fun h => ({ st with active := st.active.set v false } : Engine).act h) = true ↔
      ∃ h ∈ g.inc v, st.act h = true := by
    rw [List.any_eq_true]
    constructor
    · rintro ⟨h, hm, ha⟩
      rw [act_set_false st v h st.num_active_hyperedges, Bool.and_eq_true] at ha
      exact ⟨h, hm, ha.1⟩
    · rintro ⟨h, hm, ha⟩
      refine ⟨h, hm, ?_⟩
      rw [act_set_false st v h st.num_active_hyperedges, ha]
      have : h ≠ v := fun e => not_mem_inc_self hw v (e ▸ hm)
      simp [this]
  have hsol : ((if (g.inc v).any
      (fun h => ({ st with active := st.active.set v false } : Engine).act h) then
        st.solution.set v true else st.solution) : Solution) =
      if ∃ h ∈ g.inc v, st.act h = true then st.solution.set v true else st.solution := by
    by_cases he : ∃ h ∈ g.inc v, st.act h = true
    · rw [if_pos he, if_pos (hany.2 he)]
    · rw [if_neg he, if_neg (fun h => he (hany.1 h))]
  have heq : greedy_choice g v st =
      cover_loop g { st with active := st.active.set v false,
                             solution := (if ∃ h ∈ g.inc v, st.act h = true then
                               st.solution.set v true else st.solution),
                             always_in_solution := st.always_in_solution } (g.inc v) := by
    unfold greedy_choice
    rw [select_loop_eq, ← cover_loop_with_solution]
    simp only
    rw [hsol]
  obtain ⟨t1, t2, t3, t4, t5, t6, t7⟩ := take_vertex_spec hw hinv v hv hav
    (if ∃ h ∈ g.inc v, st.act h = true then st.solution.set v true else st.solution)
    (by split <;> simp [hinv.sol_len]) st.always_in_solution _ rfl
  rw [heq]
  exact ⟨t1, t2, t6, t7, t3, t4, t5⟩

/-! ## The domination rule -/

theorem mem_set_insert (y a : Nat) : ∀ s : List Nat, y ∈ set_insert s a ↔ y = a ∨ y ∈ s := by
  intro s
  induction s with
  | nil => simp [set_insert]
  | cons b s ih =>
    unfold set_insert
    by_cases h1 : a < b
    · rw [if_pos h1]
      simp
    · rw [if_neg h1]
      by_cases h2 : a = b
      · rw [if_pos h2]
        subst h2
        simp
      · rw [if_neg h2, List.mem_cons, ih, List.mem_cons]
        tauto

theorem mem_foldl_set_insert (y : Nat) :
    ∀ (l s : List Nat), y ∈ l.foldl set_insert s ↔ y ∈ s ∨ y ∈ l := by
  intro l
  induction l with
  | nil => intro s; simp
  | cons a rest ih =>
    intro s
    rw [List.foldl_cons, ih, mem_set_insert, List.mem_cons]
    tauto

theorem mem_collect_candidates (g : Graph) (cap x y : Nat)
    (h : y ∈ collect_candidates g cap x) : ∃ z ∈ g.inc x, y ∈ g.inc z := by
  unfold collect_candidates at h
  have key : ∀ (l c : List Nat),
      y ∈ l.foldl (fun candidates z =>
        if candidates.length + (g.inc z).length > cap then candidates
        else (g.inc z).foldl set_insert candidates) c →
      y ∈ c ∨ ∃ z ∈ l, y ∈ g.inc z := by
    intro l
    induction l with
    | nil => intro c hc; exact Or.inl hc
    | cons z rest ih =>
      intro c hc
      rw [List.foldl_cons] at hc
      rcases ih _ hc with h1 | ⟨z', hz', hy⟩
      · split at h1
        · exact Or.inl h1
        · rcases (mem_foldl_set_insert y _ _).1 h1 with h2 | h2
          · exact Or.inl h2
          · exact Or.inr ⟨z, List.mem_cons_self _ _, h2⟩
      · exact Or.inr ⟨z', List.mem_cons_of_mem _ hz', hy⟩
  rcases key _ _ h with h1 | h1
  · exact absurd h1 (List.not_mem_nil _)
  · exact h1

theorem same_kind_of_two_steps {g : Graph} (hw : WellFormed g) {x z y : Nat}
    (hz : z ∈ g.inc x) (hy : y ∈ g.inc z) : x < g.num_vertices ↔ y < g.num_vertices := by
  have h1 := (hw.bipartite x (mem_inc_lt hw hz).1 z hz).2
  have h2 := (hw.bipartite z (mem_inc_lt hw hy).1 y hy).2
  omega

theorem inc_sorted {g : Graph} (hw : WellFormed g) (i : Nat) : (g.inc i).Sorted (· < ·) := by
  by_cases h : i < g.num_objects
  · exact hw.sorted i h
  · rw [inc_of_le hw (Nat.le_of_not_lt h)]
    exact List.sorted_nil

theorem dominated_of_test {g : Graph} (hw : WellFormed g) (st : Engine) (x y : Nat)
    (h : x_is_subset_of_y g st x y = true) : Dominated g st x y := by
  intro z hz haz
  unfold x_is_subset_of_y at h
  rw [List.all_eq_true] at h
  have := h z hz
  unfold Engine.act at haz
  rw [haz] at this
  simp only [Bool.true_and, Bool.not_not] at this
  exact (sorted_vector_contains_iff _ _ (inc_sorted hw y)).1 this

theorem progress_of_deactivated {g : Graph} {st st' : Engine} {r : Nat}
    (h : Deactivated g st r st') : Progress st st' := by
  refine ⟨?_, ?_, ?_, ?_⟩
  · intro i hi
    rw [h.act i, Bool.and_eq_true] at hi
    exact hi.1
  · intro i
    rw [h.deg i]
    split_ifs <;> omega
  · have := h.count
    omega
  · intro v hv
    rw [h.solution_eq]
    exact hv

theorem remove_dominated_spec {g : Graph} (hw : WellFormed g) {st : Engine}
    (hinv : EngineInv g (fun _ => False) st) (r : Nat) (hr : st.act r = true) :
    EngineInv g (fun _ => False) (remove_dominated g st r) ∧
      Deactivated g st r (remove_dominated g st r) := by
  unfold remove_dominated
  by_cases hk : g.num_vertices ≤ r
  · simp only [hk, if_true]
    exact deactivate_spec hw hinv r hr (st.num_active_hyperedges - 1) (by rw [if_pos hk])
  · simp only [hk, if_false]
    exact deactivate_spec hw hinv r hr st.num_active_hyperedges (by rw [if_neg hk]; simp)

theorem dominate_spec {g : Graph} (hw : WellFormed g) (ros : Bool) (x : Nat) :
    ∀ (cands : List Nat) (st : Engine), EngineInv g (fun _ => False) st → st.act x = true →
      (g.num_vertices ≤ x → st.deg x ≠ 1) →
      (∀ y ∈ cands, (x < g.num_vertices ↔ y < g.num_vertices)) →
      ∃ st', dominate g x cands st = .ok st' ∧ EngineInv g (fun _ => False) st' ∧
        Steps g ros st st' ∧ Progress st st' ∧ (∀ q ∈ st.Q, q ∈ st'.Q) ∧
        ((st'.active = st.active ∧ st'.Q = st.Q) ∨
          st'.active.count true < st.active.count true) := by
  intro cands
  induction cands with
  | nil =>
    intro st hinv _ _ _
    exact ⟨st, rfl, hinv, Relation.ReflTransGen.refl, progress_refl st, fun _ h => h,
      Or.inl ⟨rfl, rfl⟩⟩
  | cons y rest ih =>
    intro st hinv hax hnu hk
    have hky := hk y (List.mem_cons_self _ _)
    have hrest : ∀ y' ∈ rest, (x < g.num_vertices ↔ y' < g.num_vertices) :=
      fun y' h => hk y' (List.mem_cons_of_mem _ h)
    have hassert : ¬ (decide (x < g.num_vertices) ≠ decide (y < g.num_vertices)) := by
      simp only [ne_eq, decide_eq_decide, not_not]
      exact hky
    unfold dominate
    rw [if_neg hassert]
    by_cases h1 : (x = y || !st.active.getD y false) = true
    · rw [if_pos h1]
      exact ih st hinv hax hnu hrest
    · rw [if_neg h1]
      by_cases h2 : st.degree.getD x 0 > st.degree.getD y 0
      · rw [if_pos h2]
        exact ih st hinv hax hnu hrest
      · rw [if_neg h2]
        by_cases h3 : x_is_subset_of_y g st x y = true
        · rw [if_pos h3]
          simp only [Bool.or_eq_true, decide_eq_true_eq, Bool.not_eq_true', not_or,
            Bool.not_eq_false] at h1
          obtain ⟨hne, hay⟩ := h1
          have hay' : st.act y = true := hay
          have hdom := dominated_of_test hw st x y h3
          by_cases hxv : x < g.num_vertices
          · -- a dominated vertex: `x` goes and the loop ends
            simp only [hxv, if_true]
            obtain ⟨d1, d2⟩ := remove_dominated_spec hw hinv x hax
            refine ⟨_, rfl, d1, ?_, progress_of_deactivated d2, ?_, Or.inr ?_⟩
            · exact Relation.ReflTransGen.single
                (Move.dom_vertex x y hxv (hky.1 hxv) hax hay' hne hdom d2.act d2.solution_eq
                  d2.forced_eq)
            · intro q hq
              rw [d2.queue]
              exact Or.inl hq
            · have := d2.count
              omega
          · -- a dominating hyperedge: `y` goes and the loop goes on
            simp only [hxv, if_false]
            rw [if_neg (Ne.symm hne)]
            obtain ⟨d1, d2⟩ := remove_dominated_spec hw hinv y hay'
            have hax1 : (remove_dominated g st y).act x = true := by
              rw [d2.act x, hax]
              simp [hne]
            have hxk : g.num_vertices ≤ x := Nat.le_of_not_lt hxv
            have hyk : g.num_vertices ≤ y := Nat.le_of_not_lt (fun h => hxv (hky.2 h))
            have hnu1 : g.num_vertices ≤ x → (remove_dominated g st y).deg x ≠ 1 := by
              intro _
              rw [d2.deg x, if_neg (fun hm => by
                have := mem_inc_of_hyperedge hw hm hyk
                omega)]
              simpa using hnu hxk
            have hcount : active_count g st x ≠ 1 := by
              have hc := hinv.coherent x (act_lt hinv hax) hax (fun h => h)
              have := hnu hxk
              intro h1
              rw [hc, h1] at this
              exact this rfl
            obtain ⟨st', e1, e2, e3, e4, e5, e6⟩ := ih _ d1 hax1 hnu1 hrest
            refine ⟨st', e1, e2, ?_, progress_trans (progress_of_deactivated d2) e4, ?_,
              Or.inr ?_⟩
            · exact Relation.ReflTransGen.head
                (Move.dom_hyperedge x y hxk hyk hax hay' hne hdom hcount d2.act
                  d2.solution_eq d2.forced_eq) e3
            · intro q hq
              apply e5
              rw [d2.queue]
              exact Or.inl hq
            · have := d2.count
              have := e4.count
              omega
        · rw [if_neg h3]
          exact ih st hinv hax hnu hrest

/-! ## One pop of the worklist -/

theorem queue_lt {g : Graph} {ex : Nat → Prop} {st : Engine} (hinv : EngineInv g ex st) {x : Nat}
    (h : x ∈ st.Q) : x < g.num_objects := by
  have := (hinv.q_enq x).1 h
  rw [← hinv.enq_len]
  exact lt_length_of_getD_true _ _ this

theorem queue_length_le {g : Graph} {ex : Nat → Prop} {st : Engine} (hinv : EngineInv g ex st) :
    st.Q.length ≤ g.num_objects := by
  have := List.subperm_of_subset hinv.q_nodup
    (fun x hx => List.mem_range.2 (queue_lt hinv hx))
  simpa using this.length_le

theorem measure_le_fuel {g : Graph} {ex : Nat → Prop} {st : Engine} (hinv : EngineInv g ex st) :
    measure g st ≤ drain_fuel g := by
  unfold measure drain_fuel
  have h1 := queue_length_le hinv
  have h2 : st.active.count true ≤ g.num_objects := by
    rw [← hinv.active_len]
    exact List.count_le_length _ _
  have h3 : g.num_objects * st.active.count true ≤ g.num_objects * g.num_objects :=
    Nat.mul_le_mul_left _ h2
  nlinarith

theorem pop_inv {g : Graph} {st : Engine} (hinv : EngineInv g (fun _ => False) st)
    (x : Nat) (rest : List Nat) (hQ : st.Q = x :: rest) (stp : Engine)
    (hp : stp = { st with Q := rest, enqueued := st.enqueued.set x false }) :
    EngineInv g (fun _ => False) stp := by
  have hn : (x :: rest).Nodup := hQ ▸ hinv.q_nodup
  have hn' := List.nodup_cons.1 hn
  have hxlt : x < st.enqueued.length := by
    rw [hinv.enq_len]
    exact queue_lt hinv (by rw [hQ]; exact List.mem_cons_self _ _)
  subst hp
  refine ⟨hinv.active_len, hinv.degree_len, by simp [hinv.enq_len], hinv.sol_len, hn'.2, ?_,
    hinv.coherent, hinv.nah⟩
  intro y
  show y ∈ rest ↔ (st.enqueued.set x false).getD y false = true
  by_cases hxy : x = y
  · subst hxy
    rw [getD_set_eq _ _ _ _ hxlt]
    constructor
    · exact fun h => absurd h hn'.1
    · exact fun h => Bool.noConfusion h
  · rw [getD_set_ne _ _ _ hxy]
    have := hinv.q_enq y
    rw [hQ, List.mem_cons] at this
    unfold Engine.enq at this
    rw [← this]
    constructor
    · exact fun h => Or.inr h
    · rintro (h | h)
      · exact absurd h.symm hxy
      · exact h

theorem reduce_step_spec {g : Graph} (hw : WellFormed g) (cap : Nat) (ros : Bool) {st : Engine}
    (hinv : EngineInv g (fun _ => False) st) (x : Nat) (rest : List Nat)
    (hQ : st.Q = x :: rest) :
    ∃ st', reduce_step g cap ros st = .ok st' ∧ EngineInv g (fun _ => False) st' ∧
      Steps g ros st st' ∧ Progress st st' ∧ (∀ q ∈ rest, q ∈ st'.Q) ∧
      ((st'.active = st.active ∧ st'.Q = rest) ∨
        st'.active.count true < st.active.count true) := by
  have henq : st.enqueued.getD x false = true :=
    (hinv.q_enq x).1 (by rw [hQ]; exact List.mem_cons_self _ _)
  obtain ⟨stp, hp⟩ : ∃ stp : Engine,
      stp = { st with Q := rest, enqueued := st.enqueued.set x false } := ⟨_, rfl⟩
  have hinvp := pop_inv hinv x rest hQ stp hp
  have hidle : Move g ros st stp := by
    subst hp
    exact Move.idle (fun _ => rfl) rfl rfl
  have hprog : Progress st stp := by
    subst hp
    exact ⟨fun _ h => h, fun _ => le_refl _, le_refl _, fun _ h => h⟩
  have hpa : stp.active = st.active := by subst hp; rfl
  have hpq : stp.Q = rest := by subst hp; rfl
  have hstep : reduce_step g cap ros st =
      if cap = 0 then .ok stp
      else if !stp.active.getD x false then .ok stp
      else if g.num_vertices ≤ x ∧ stp.degree.getD x 0 = 1 then unit_edge_rule g ros x stp
      else dominate g x (collect_candidates g cap x) stp := by
    subst hp
    unfold reduce_step
    rw [hQ]
    simp only [henq, if_true]
  rw [hstep]
  by_cases h0 : cap = 0
  · rw [if_pos h0]
    exact ⟨stp, rfl, hinvp, Relation.ReflTransGen.single hidle, hprog,
      fun q hq => hpq ▸ hq, Or.inl ⟨hpa, hpq⟩⟩
  · rw [if_neg h0]
    by_cases h1 : (!stp.active.getD x false) = true
    · rw [if_pos h1]
      exact ⟨stp, rfl, hinvp, Relation.ReflTransGen.single hidle, hprog,
        fun q hq => hpq ▸ hq, Or.inl ⟨hpa, hpq⟩⟩
    · rw [if_neg h1]
      rw [Bool.not_eq_true', Bool.not_eq_false] at h1
      have hax : stp.act x = true := h1
      by_cases h2 : g.num_vertices ≤ x ∧ stp.degree.getD x 0 = 1
      · rw [if_pos h2]
        obtain ⟨st', u, e1, e2, e3, e4, e5, e6, e7, e8, e9, e10⟩ :=
          unit_edge_rule_spec hw ros hinvp x h2.1 hax h2.2
        refine ⟨st', e1, e2, ?_, progress_trans hprog ?_, ?_, Or.inr ?_⟩
        · exact Relation.ReflTransGen.head hidle
            (Relation.ReflTransGen.single (Move.unit x u h2.1 hax e3 e4 e5 e6 e7))
        · refine ⟨?_, e9, Nat.le_of_lt e8, ?_⟩
          · intro i hi
            rw [e6 i] at hi
            simp only [Bool.and_eq_true] at hi
            exact hi.1.1
          · intro v hv
            unfold Commit at e7
            cases ros with
            | true =>
              simp only [if_true] at e7
              rw [e7.2]
              exact hv
            | false =>
              simp only [Bool.false_eq_true, if_false] at e7
              rw [e7.1, getD_set]
              split
              · rfl
              · exact hv
        · intro q hq
          exact e10 q (hpq ▸ hq)
        · rw [← hpa]
          exact e8
      · rw [if_neg h2]
        obtain ⟨st', e1, e2, e3, e4, e5, e6⟩ := dominate_spec hw ros x
          (collect_candidates g cap x) stp hinvp hax (fun hk hd => h2 ⟨hk, hd⟩) (by
            intro y hy
            obtain ⟨z, hz, hyz⟩ := mem_collect_candidates g cap x y hy
            exact same_kind_of_two_steps hw hz hyz)
        refine ⟨st', e1, e2, Relation.ReflTransGen.head hidle e3, progress_trans hprog e4, ?_, ?_⟩
        · intro q hq
          exact e5 q (hpq ▸ hq)
        · rcases e6 with ⟨a, b⟩ | c
          · exact Or.inl ⟨a.trans hpa, b.trans hpq⟩
          · exact Or.inr (hpa ▸ c)

theorem measure_decreases {g : Graph} {st st' : Engine} (x : Nat) (rest : List Nat)
    (hQ : st.Q = x :: rest) (hinv' : EngineInv g (fun _ => False) st')
    (h : (st'.active = st.active ∧ st'.Q = rest) ∨
      st'.active.count true < st.active.count true) :
    measure g st' < measure g st := by
  unfold measure
  rcases h with ⟨a, b⟩ | c
  · rw [a, b, hQ]
    simp
  · have h1 := queue_length_le hinv'
    have h2 : g.num_objects * (st'.active.count true + 1) ≤
        g.num_objects * st.active.count true := Nat.mul_le_mul_left _ c
    rw [Nat.mul_succ] at h2
    rw [hQ]
    simp only [List.length_cons]
    omega

/-! ## The loop `while (!Q.empty())` -/

/-- With enough fuel the loop returns; every property of states that a pop
preserves holds of the state it returns, which has an empty worklist unless the
time budget of a kernelizing call ran out. -/
theorem drain_spec {g : Graph} (hw : WellFormed g) (cap : Nat) (ros : Bool)
    (P : Engine → Prop)
    (hP : ∀ st st', EngineInv g (fun _ => False) st → P st → st.Q ≠ [] →
      reduce_step g cap ros st = .ok st' → P st') :
    ∀ (fuel : Nat) (budget : Option Nat) (st : Engine), EngineInv g (fun _ => False) st →
      measure g st ≤ fuel → P st →
      ∃ st', drain g cap ros fuel budget st = .ok st' ∧ EngineInv g (fun _ => False) st' ∧
        P st' ∧ Steps g ros st st' ∧ Progress st st' ∧
        (st'.Q = [] ∨ (ros = true ∧ budget ≠ none)) := by
  intro fuel
  induction fuel with
  | zero =>
    intro budget st hinv hm hp
    have hq : st.Q = [] := by
      unfold measure at hm
      have : st.Q.length = 0 := by omega
      exact List.length_eq_zero.1 this
    refine ⟨st, ?_, hinv, hp, Relation.ReflTransGen.refl, progress_refl st, Or.inl hq⟩
    simp [drain, hq]
  | succ fuel ih =>
    intro budget st hinv hm hp
    cases hQ : st.Q with
    | nil =>
      refine ⟨st, ?_, hinv, hp, Relation.ReflTransGen.refl, progress_refl st, Or.inl hQ⟩
      simp [drain, hQ]
    | cons x rest =>
      by_cases hb : (ros && budget == some 0) = true
      · refine ⟨st, ?_, hinv, hp, Relation.ReflTransGen.refl, progress_refl st, Or.inr ?_⟩
        · simp only [drain, hQ, List.isEmpty_cons, Bool.false_eq_true, if_false, hb, if_true]
        · rw [Bool.and_eq_true] at hb
          refine ⟨hb.1, ?_⟩
          intro hn
          rw [hn] at hb
          exact Bool.noConfusion hb.2
      · obtain ⟨st1, e1, e2, e3, e4, e5, e6⟩ := reduce_step_spec hw cap ros hinv x rest hQ
        have hp1 := hP st st1 hinv hp (by rw [hQ]; exact List.cons_ne_nil _ _) e1
        have hm1 := measure_decreases x rest hQ e2 e6
        obtain ⟨st', f1, f2, f3, f4, f5, f6⟩ := ih (budget.map (· - 1)) st1 e2 (by omega) hp1
        refine ⟨st', ?_, f2, f3, Relation.ReflTransGen.trans e3 f4, progress_trans e4 f5, ?_⟩
        · simp only [drain, hQ, List.isEmpty_cons, Bool.false_eq_true, if_false, hb, e1]
          exact f1
        · rcases f6 with h | ⟨h1, h2⟩
          · exact Or.inl h
          · refine Or.inr ⟨h1, ?_⟩
            intro hn
            rw [hn] at h2
            exact h2 rfl

/-! ## What the rules preserve -/

theorem chosen_mono {g : Graph} {ros : Bool} {st st' : Engine} (hm : Move g ros st st')
    (v : Nat) (h : Chosen g ros st v) : Chosen g ros st' v := by
  unfold Chosen at h ⊢
  cases hm with
  | idle hact hsol hforced => rw [hsol, hforced]; exact h
  | unit x u hx hax hu hau huniq hact hcommit =>
    unfold Commit at hcommit
    cases ros with
    | true =>
      simp only [if_true] at hcommit h ⊢
      rw [hcommit.1]
      exact List.mem_append_left _ h
    | false =>
      simp only [Bool.false_eq_true, if_false] at hcommit h ⊢
      rw [hcommit.1, getD_set]
      split
      · rfl
      · exact h
  | greedy w hw' haw hros hact hsol hforced =>
    subst hros
    simp only [Bool.false_eq_true, if_false] at h ⊢
    rw [hsol]
    split
    · rw [getD_set]
      split
      · rfl
      · exact h
    · exact h
  | dom_vertex x y hx hy hax hay hne hdom hact hsol hforced => rw [hsol, hforced]; exact h
  | dom_hyperedge x y hx hy hax hay hne hdom hnu hact hsol hforced => rw [hsol, hforced]; exact h

theorem act_false_of_not_true {b : Bool} (h : ¬ b = true) : b = false := by
  cases b
  · rfl
  · exact absurd rfl h

/-- Taking the vertex `u` keeps `Cov`, provided `u` is committed as soon as one
of its hyperedges was active. -/
theorem cov_take {g : Graph} (hw : WellFormed g) {ros : Bool} {st st' : Engine} (u : Nat)
    (hu : u < g.num_vertices) (hau : st.act u = true)
    (hact : ∀ i, st'.act i = (st.act i && decide (i ≠ u) && decide (i ∉ g.inc u)))
    (hmono : ∀ v, Chosen g ros st v → Chosen g ros st' v)
    (hch : (∃ h ∈ g.inc u, st.act h = true) → Chosen g ros st' u)
    (hc : Cov g ros st) : Cov g ros st' := by
  intro h hlt hge hah
  by_cases hold : st.act h = true
  · -- `h` has just been deactivated, so it is a hyperedge of `u`
    have hm : h ∈ g.inc u := by
      by_contra hn
      rw [hact h, hold] at hah
      have : h ≠ u := by omega
      simp [this, hn] at hah
    exact Or.inl ⟨u, mem_inc_symm hw hm, hch ⟨h, hm, hold⟩⟩
  · rcases hc h hlt hge (act_false_of_not_true hold) with ⟨v, hv, hcv⟩ | ⟨h', hge', ha', hsub⟩
    · exact Or.inl ⟨v, hv, hmono v hcv⟩
    · by_cases hm : h' ∈ g.inc u
      · exact Or.inl ⟨u, hsub u (mem_inc_symm hw hm) hau, hch ⟨h', hm, ha'⟩⟩
      · refine Or.inr ⟨h', hge', ?_, ?_⟩
        · rw [hact h', ha']
          have : h' ≠ u := by omega
          simp [this, hm]
        · intro v hv hav
          rw [hact v] at hav
          simp only [Bool.and_eq_true] at hav
          exact hsub v hv hav.1.1

theorem cov_move {g : Graph} (hw : WellFormed g) {ros : Bool} {st st' : Engine}
    (hm : Move g ros st st') (hlen : st.solution.length = g.num_vertices)
    (hc : Cov g ros st) : Cov g ros st' := by
  have hmono := chosen_mono hm
  cases hm with
  | idle hact hsol hforced =>
    intro h hlt hge hah
    rw [hact h] at hah
    rcases hc h hlt hge hah with ⟨v, hv, hcv⟩ | ⟨h', hge', ha', hsub⟩
    · exact Or.inl ⟨v, hv, hmono v hcv⟩
    · exact Or.inr ⟨h', hge', by rw [hact h']; exact ha',
        fun v hv hav => hsub v hv (by rw [← hact v]; exact hav)⟩
  | unit x u hx hax hu hau huniq hact hcommit =>
    have hult := mem_inc_of_hyperedge hw hu hx
    refine cov_take hw u hult hau hact hmono ?_ hc
    intro _
    unfold Chosen
    unfold Commit at hcommit
    cases ros with
    | true =>
      simp only [if_true] at hcommit ⊢
      rw [hcommit.1]
      exact List.mem_append_right _ (List.mem_singleton_self _)
    | false =>
      simp only [Bool.false_eq_true, if_false] at hcommit ⊢
      rw [hcommit.1]
      exact getD_set_eq _ _ _ _ (by rw [hlen]; exact hult)
  | greedy w hw' haw hros hact hsol hforced =>
    subst hros
    refine cov_take hw w hw' haw hact hmono ?_ hc
    intro hex
    unfold Chosen
    simp only [Bool.false_eq_true, if_false]
    rw [hsol, if_pos hex]
    exact getD_set_eq _ _ _ _ (by rw [hlen]; exact hw')
  | dom_vertex x y hx hy hax hay hne hdom hact hsol hforced =>
    intro h hlt hge hah
    have hhx : h ≠ x := by omega
    rw [hact h] at hah
    have hah' : st.act h = false := by
      simpa [hhx] using hah
    rcases hc h hlt hge hah' with ⟨v, hv, hcv⟩ | ⟨h', hge', ha', hsub⟩
    · exact Or.inl ⟨v, hv, hmono v hcv⟩
    · refine Or.inr ⟨h', hge', ?_, ?_⟩
      · rw [hact h', ha']
        have : h' ≠ x := by omega
        simp [this]
      · intro v hv hav
        rw [hact v, Bool.and_eq_true] at hav
        exact hsub v hv hav.1
  | dom_hyperedge x y hx hy hax hay hne hdom hnu hact hsol hforced =>
    have hax' : st'.act x = true := by
      rw [hact x, hax]
      simp [hne]
    have hsub' : ∀ v ∈ g.inc x, st'.act v = true → v ∈ g.inc y := by
      intro v hv hav
      rw [hact v, Bool.and_eq_true] at hav
      exact hdom v hv hav.1
    intro h hlt hge hah
    by_cases hhy : h = y
    · subst hhy
      exact Or.inr ⟨x, hx, hax', hsub'⟩
    · rw [hact h] at hah
      have hah' : st.act h = false := by
        simpa [hhy] using hah
      rcases hc h hlt hge hah' with ⟨v, hv, hcv⟩ | ⟨h', hge', ha', hsub⟩
      · exact Or.inl ⟨v, hv, hmono v hcv⟩
      · by_cases hy' : h' = y
        · subst hy'
          refine Or.inr ⟨x, hx, hax', ?_⟩
          intro v hv hav
          have hav' : st.act v = true := by
            rw [hact v, Bool.and_eq_true] at hav
            exact hav.1
          exact hsub v (hdom v hv hav') hav'
        · refine Or.inr ⟨h', hge', ?_, ?_⟩
          · rw [hact h', ha']
            simp [hy']
          · intro v hv hav
            rw [hact v, Bool.and_eq_true] at hav
            exact hsub v hv hav.1

theorem positive_take {g : Graph} (hw : WellFormed g) {st st' : Engine} (u : Nat)
    (hu : u < g.num_vertices)
    (hact : ∀ i, st'.act i = (st.act i && decide (i ≠ u) && decide (i ∉ g.inc u)))
    (hp : Positive g st) : Positive g st' := by
  intro h hge hah
  rw [hact h] at hah
  simp only [Bool.and_eq_true, decide_eq_true_eq] at hah
  obtain ⟨v, hv, hav⟩ := hp h hge hah.1.1
  refine ⟨v, hv, ?_⟩
  have hvlt := mem_inc_of_hyperedge hw hv hge
  have h1 : v ≠ u := fun e => hah.2 (e ▸ mem_inc_symm hw hv)
  have h2 : v ∉ g.inc u := fun hm => by
    have := (mem_inc_of_vertex hw hm hu).1
    omega
  rw [hact v, hav]
  simp [h1, h2]

theorem positive_move {g : Graph} (hw : WellFormed g) {ros : Bool} {st st' : Engine}
    (hm : Move g ros st st') (hp : Positive g st) : Positive g st' := by
  cases hm with
  | idle hact hsol hforced =>
    intro h hge hah
    rw [hact h] at hah
    obtain ⟨v, hv, hav⟩ := hp h hge hah
    exact ⟨v, hv, by rw [hact v]; exact hav⟩
  | unit x u hx hax hu hau huniq hact hcommit =>
    exact positive_take hw u (mem_inc_of_hyperedge hw hu hx) hact hp
  | greedy w hw' haw hros hact hsol hforced =>
    exact positive_take hw w hw' hact hp
  | dom_vertex x y hx hy hax hay hne hdom hact hsol hforced =>
    intro h hge hah
    rw [hact h, Bool.and_eq_true] at hah
    obtain ⟨v, hv, hav⟩ := hp h hge hah.1
    by_cases hvx : v = x
    · subst hvx
      have hy' := hdom h (mem_inc_symm hw hv) hah.1
      refine ⟨y, mem_inc_symm hw hy', ?_⟩
      rw [hact y, hay]
      simp [Ne.symm hne]
    · refine ⟨v, hv, ?_⟩
      rw [hact v, hav]
      simp [hvx]
  | dom_hyperedge x y hx hy hax hay hne hdom hnu hact hsol hforced =>
    intro h hge hah
    rw [hact h, Bool.and_eq_true] at hah
    obtain ⟨v, hv, hav⟩ := hp h hge hah.1
    refine ⟨v, hv, ?_⟩
    have := mem_inc_of_hyperedge hw hv hge
    have hvy : v ≠ y := by omega
    rw [hact v, hav]
    simp [hvy]

theorem solution_length_move {g : Graph} {ros : Bool} {st st' : Engine}
    (hm : Move g ros st st') : st'.solution.length = st.solution.length := by
  cases hm with
  | idle hact hsol hforced => rw [hsol]
  | unit x u hx hax hu hau huniq hact hcommit =>
    unfold Commit at hcommit
    cases ros with
    | true =>
      simp only [if_true] at hcommit
      rw [hcommit.2]
    | false =>
      simp only [Bool.false_eq_true, if_false] at hcommit
      rw [hcommit.1, List.length_set]
  | greedy w hw' haw hros hact hsol hforced =>
    rw [hsol]
    split
    · rw [List.length_set]
    · rfl
  | dom_vertex x y hx hy hax hay hne hdom hact hsol hforced => rw [hsol]
  | dom_hyperedge x y hx hy hax hay hne hdom hnu hact hsol hforced => rw [hsol]

theorem sound_move {g : Graph} (hw : WellFormed g) {ros : Bool} {st st' : Engine}
    (hm : Move g ros st st') (hs : Sound g ros st) : Sound g ros st' :=
  ⟨(solution_length_move hm).trans hs.sol_len, positive_move hw hm hs.positive,
    cov_move hw hm hs.sol_len hs.cov⟩

theorem sound_steps {g : Graph} (hw : WellFormed g) {ros : Bool} {st st' : Engine}
    (hm : Steps g ros st st') (hs : Sound g ros st) : Sound g ros st' := by
  induction hm with
  | refl => exact hs
  | tail _ hstep ih => exact sound_move hw hstep ih

/-! ## The initial state of a call -/

theorem init_act (g : Graph) (F : List Nat) (i : Nat) (hi : i < g.num_objects) :
    (init_engine g F).act i = true :=
  getD_replicate _ _ _ _ hi

theorem init_deg (g : Graph) (F : List Nat) (i : Nat) (hi : i < g.num_objects) :
    (init_engine g F).deg i = ((g.inc i).length : Int) :=
  getD_map_range _ _ _ _ hi

theorem init_engine_inv {g : Graph} (hw : WellFormed g) (F : List Nat) :
    EngineInv g (fun _ => False) (init_engine g F) := by
  refine ⟨by simp [init_engine], by simp [init_engine], by simp [init_engine],
    by simp [init_engine], List.nodup_range _, ?_, ?_, ?_⟩
  · intro x
    show x ∈ List.range g.num_objects ↔ (List.replicate g.num_objects true).getD x false = true
    rw [List.mem_range]
    constructor
    · exact fun h => getD_replicate _ _ _ _ h
    · intro h
      have := lt_length_of_getD_true _ _ h
      simpa using this
  · intro i hi _ _
    rw [init_deg g F i hi]
    congr 1
    unfold active_count
    symm
    rw [List.countP_eq_length]
    intro j hj
    exact init_act g F j (mem_inc_lt hw hj).2
  · show (g.num_hyperedges : Int) = _
    simp only [init_engine, List.drop_replicate, List.count_replicate_self]
    have := hw.objects
    congr 1
    omega

theorem init_sound {g : Graph} (hw : WellFormed g) (hne : NonemptyHyperedges g) (ros : Bool)
    (F : List Nat) : Sound g ros (init_engine g F) := by
  refine ⟨by simp [init_engine], ?_, ?_⟩
  · intro h hge hah
    have hlt : h < g.num_objects := by
      have := lt_length_of_getD_true _ _ hah
      simpa [init_engine] using this
    obtain ⟨v, hv⟩ := List.exists_mem_of_ne_nil _ (hne h hlt hge)
    exact ⟨v, hv, init_act g F v (mem_inc_lt hw hv).2⟩
  · intro h hlt _ hah
    rw [init_act g F h hlt] at hah
    exact Bool.noConfusion hah

/-! ## The priority schedule -/

theorem sweep_succ (degree : List Int) (fuel i : Nat) (PQ : List (Int × Int)) :
    sweep degree (fuel + 1) i PQ =
      if i < PQ.length then
        if (PQ.getD i (0, 0)).1 ≥ degree.getD (PQ.getD i (0, 0)).2.toNat 0 then
          sweep degree fuel (i + 1) PQ
        else sweep degree fuel (i + 1) (PQ ++ [((PQ.getD i (0, 0)).1 + 1, (PQ.getD i (0, 0)).2)])
      else .ok PQ := rfl

theorem getD_append_cons {α : Type} (l : List α) (a : α) (r : List α) (d : α) :
    (l ++ a :: r).getD l.length d = a := by
  rw [List.getD_eq_getElem?_getD, List.getElem?_append_right (Nat.le_refl _)]
  simp

theorem sweep_spec (degree : List Int) (nv : Nat) :
    ∀ (fuel : Nat) (done todo : List (Int × Int)), SweepInv degree nv done todo →
      (todo.map (fun e => (degree.getD e.2.toNat 0 - e.1).toNat + 1)).sum ≤ fuel →
      ∃ L, sweep degree fuel done.length (done ++ todo) = .ok L ∧ SweepInv degree nv L [] ∧
        (∀ e ∈ done ++ todo, e ∈ L) ∧ (∀ e ∈ L, ∃ e0 ∈ done ++ todo, e0.2 = e.2) := by
  intro fuel
  induction fuel with
  | zero =>
    intro done todo hinv hf
    cases todo with
    | nil =>
      refine ⟨done ++ [], ?_, ?_, fun e h => h, fun e h => ⟨e, h, rfl⟩⟩
      · simp [sweep]
      · simpa using hinv
    | cons e tail =>
      simp only [List.map_cons, List.sum_cons] at hf
      omega
  | succ fuel ih =>
    intro done todo hinv hf
    cases todo with
    | nil =>
      refine ⟨done ++ [], ?_, ?_, fun e h => h, fun e h => ⟨e, h, rfl⟩⟩
      · simp [sweep]
      · simpa using hinv
    | cons e tail =>
      have hn : e.2 ∉ tail.map Prod.snd ∧ (tail.map Prod.snd).Nodup :=
        List.nodup_cons.1 hinv.distinct
      simp only [List.map_cons, List.sum_cons] at hf
      rw [sweep_succ, if_pos (by simp), getD_append_cons]
      have hsplit : done ++ e :: tail = (done ++ [e]) ++ tail := by simp
      have hlen : done.length + 1 = (done ++ [e]).length := by simp
      by_cases hge : e.1 ≥ degree.getD e.2.toNat 0
      · rw [if_pos hge, hsplit, hlen]
        have hinv' : SweepInv degree nv (done ++ [e]) tail := by
          refine ⟨?_, ?_, ?_, ?_, hn.2⟩
          · rw [← hsplit]; exact hinv.valid
          · intro e' he' hlt
            rw [← hsplit]
            rcases List.mem_append.1 he' with h | h
            · exact hinv.closed e' h hlt
            · rw [List.mem_singleton.1 h] at hlt
              omega
          · rw [← hsplit]; exact hinv.ordered
          · intro e' he' e'' he''
            rw [← hsplit] at he''
            exact hinv.maximal e' (List.mem_cons_of_mem _ he') e'' he''
        obtain ⟨L, h1, h2, h3, h4⟩ := ih (done ++ [e]) tail hinv' (by omega)
        exact ⟨L, h1, h2, h3, h4⟩
      · rw [if_neg hge]
        have hlt : e.1 < degree.getD e.2.toNat 0 := by omega
        have hsplit2 : done ++ e :: tail ++ [(e.1 + 1, e.2)] =
            (done ++ [e]) ++ (tail ++ [(e.1 + 1, e.2)]) := by simp
        rw [hsplit2, hlen]
        have hev := hinv.valid e (by simp)
        have hinv' : SweepInv degree nv (done ++ [e]) (tail ++ [(e.1 + 1, e.2)]) := by
          refine ⟨?_, ?_, ?_, ?_, ?_⟩
          · intro a ha
            rw [← hsplit2] at ha
            rcases List.mem_append.1 ha with h | h
            · exact hinv.valid a h
            · rw [List.mem_singleton.1 h]
              exact ⟨by simp only; omega, hev.2.1, hev.2.2.1, Or.inr (by simp only; omega)⟩
          · intro a ha halt
            rw [← hsplit2]
            rcases List.mem_append.1 ha with h | h
            · exact List.mem_append_left _ (hinv.closed a h halt)
            · rw [List.mem_singleton.1 h]
              exact List.mem_append_right _ (List.mem_singleton_self _)
          · rw [← hsplit2, List.pairwise_append]
            refine ⟨hinv.ordered, List.pairwise_singleton _ _, ?_⟩
            intro a ha b hb hab
            rw [List.mem_singleton.1 hb] at hab ⊢
            have := hinv.maximal e (List.mem_cons_self _ _) a ha hab
            simp only
            omega
          · intro a ha b hb hba
            rw [← hsplit2] at hb
            rcases List.mem_append.1 ha with h | h
            · rcases List.mem_append.1 hb with h' | h'
              · exact hinv.maximal a (List.mem_cons_of_mem _ h) b h' hba
              · rw [List.mem_singleton.1 h'] at hba
                exact absurd (List.mem_map.2 ⟨a, h, hba.symm⟩) hn.1
            · rw [List.mem_singleton.1 h] at hba ⊢
              rcases List.mem_append.1 hb with h' | h'
              · have := hinv.maximal e (List.mem_cons_self _ _) b h' hba
                simp only
                omega
              · rw [List.mem_singleton.1 h']
          · rw [List.map_append, List.map_singleton]
            exact List.Nodup.append hn.2 (List.nodup_singleton _) (by
              intro a ha hb
              rw [List.mem_singleton.1 hb] at ha
              exact hn.1 ha)
        obtain ⟨L, h1, h2, h3, h4⟩ := ih (done ++ [e]) (tail ++ [(e.1 + 1, e.2)]) hinv' (by
          simp only [List.map_append, List.sum_append, List.map_cons, List.map_nil,
            List.sum_cons, List.sum_nil]
          omega)
        refine ⟨L, h1, h2, ?_, ?_⟩
        · intro a ha
          apply h3
          rw [← hsplit2]
          exact List.mem_append_left _ ha
        · intro a ha
          obtain ⟨e0, he0, h0⟩ := h4 a ha
          rw [← hsplit2] at he0
          rcases List.mem_append.1 he0 with h | h
          · exact ⟨e0, h, h0⟩
          · rw [List.mem_singleton.1 h] at h0
            exact ⟨e, by simp, h0⟩

theorem mem_level_block (g : Graph) (hint : Solution) (level : Nat) (e : Int × Int) :
    e ∈ level_block g hint level ↔
      ∃ v < g.num_vertices, (if hint.getD v false then 1 else 0) = level ∧ e = (1, (v : Int)) := by
  unfold level_block
  simp only [List.mem_map, List.mem_filter, List.mem_range, decide_eq_true_eq]
  constructor
  · rintro ⟨v, ⟨h1, h2⟩, rfl⟩
    exact ⟨v, h1, h2, rfl⟩
  · rintro ⟨v, h1, h2, rfl⟩
    exact ⟨v, ⟨h1, h2⟩, rfl⟩

theorem level_block_distinct (g : Graph) (hint : Solution) (level : Nat) :
    ((level_block g hint level).map Prod.snd).Nodup := by
  unfold level_block
  rw [List.map_map]
  refine List.Nodup.map ?_ ((List.nodup_range _).filter _)
  intro a b h
  simpa using h

theorem add_level_spec (g : Graph) (hint : Solution) (degree : List Int)
    (shuf : List (Int × Int) → List (Int × Int)) (level : Nat) (PQ : List (Int × Int))
    (hPQ : SweepInv degree g.num_vertices PQ [])
    (hperm : (shuf (level_block g hint level)).Perm (level_block g hint level))
    (hdisj : ∀ e ∈ PQ, ∀ v : Nat, e.2 = (v : Int) →
      (if hint.getD v false then 1 else 0) ≠ level) :
    ∃ L, add_level g hint degree shuf level PQ = .ok L ∧
      SweepInv degree g.num_vertices L [] ∧ (∀ e ∈ PQ, e ∈ L) ∧
      (∀ v < g.num_vertices, (if hint.getD v false then 1 else 0) = level →
        (1, (v : Int)) ∈ L) ∧
      (∀ e ∈ L, (∃ e0 ∈ PQ, e0.2 = e.2) ∨
        ∃ v : Nat, e.2 = (v : Int) ∧ (if hint.getD v false then 1 else 0) = level) := by
  have hmem : ∀ e, e ∈ shuf (level_block g hint level) ↔
      ∃ v < g.num_vertices, (if hint.getD v false then 1 else 0) = level ∧ e = (1, (v : Int)) :=
    fun e => (hperm.mem_iff).trans (mem_level_block g hint level e)
  have hdist : ((shuf (level_block g hint level)).map Prod.snd).Nodup :=
    (hperm.map Prod.snd).nodup_iff.2 (level_block_distinct g hint level)
  have hvalid : ∀ e ∈ PQ, 1 ≤ e.1 ∧ 0 ≤ e.2 ∧ e.2 < g.num_vertices ∧
      (e.1 ≤ 1 ∨ e.1 ≤ degree.getD e.2.toNat 0) :=
    fun e he => hPQ.valid e (by simpa using he)
  have hord : PQ.Pairwise (fun a b => a.2 = b.2 → a.1 < b.1) := by
    simpa using hPQ.ordered
  have hcross : ∀ a ∈ PQ, ∀ b ∈ shuf (level_block g hint level), a.2 ≠ b.2 := by
    intro a ha b hb hab
    obtain ⟨v, _, hc, rfl⟩ := (hmem b).1 hb
    exact hdisj a ha v hab hc
  have hinv : SweepInv degree g.num_vertices PQ (shuf (level_block g hint level)) := by
    refine ⟨?_, ?_, ?_, ?_, hdist⟩
    · intro e he
      rcases List.mem_append.1 he with h | h
      · exact hvalid e h
      · obtain ⟨v, hv, _, rfl⟩ := (hmem e).1 h
        exact ⟨le_refl _, by simp, by simpa using hv, Or.inl (le_refl _)⟩
    · intro e he hlt
      exact List.mem_append_left _ (by simpa using hPQ.closed e he hlt)
    · rw [List.pairwise_append]
      refine ⟨hord, ?_, fun a ha b hb hab => absurd hab (hcross a ha b hb)⟩
      have := List.pairwise_map.1 hdist
      exact this.imp (fun hne hab => absurd hab hne)
    · intro e he e' he' hee
      rcases List.mem_append.1 he' with h | h
      · exact absurd hee (hcross e' h e he)
      · obtain ⟨v, _, _, rfl⟩ := (hmem e).1 he
        obtain ⟨v', _, _, rfl⟩ := (hmem e').1 h
        exact le_refl _
  obtain ⟨L, h1, h2, h3, h4⟩ := sweep_spec degree g.num_vertices _ PQ _ hinv (le_refl _)
  refine ⟨L, h1, h2, fun e he => h3 e (List.mem_append_left _ he), ?_, ?_⟩
  · intro v hv hc
    exact h3 _ (List.mem_append_right _ ((hmem _).2 ⟨v, hv, hc, rfl⟩))
  · intro e he
    obtain ⟨e0, he0, h0⟩ := h4 e he
    rcases List.mem_append.1 he0 with h | h
    · exact Or.inl ⟨e0, h, h0⟩
    · obtain ⟨v, _, hc, rfl⟩ := (hmem e0).1 h
      exact Or.inr ⟨v, h0.symm, hc⟩

/-- The schedule of a call with `reduce_only_and_save = false`, whatever the
shuffles do: it is built without running out of fuel, its entries are in range,
the entries of a vertex come with falling requirement, and it holds every
`(k, v)` with `1 ≤ k ≤ degree[v]` and every `(1, v)`. -/
theorem build_schedule_spec (g : Graph) (hint : Solution) (degree : List Int)
    (shuffle : Nat → List (Int × Int) → List (Int × Int))
    (hshuf : ∀ level l, (shuffle level l).Perm l) :
    ∃ PQ, build_schedule g hint degree shuffle = .ok PQ ∧
      (∀ e ∈ PQ, 1 ≤ e.1 ∧ 0 ≤ e.2 ∧ e.2 < g.num_vertices ∧
        (e.1 ≤ 1 ∨ e.1 ≤ degree.getD e.2.toNat 0)) ∧
      PQ.Pairwise (fun a b => a.2 = b.2 → b.1 < a.1) ∧
      (∀ v < g.num_vertices, (1, (v : Int)) ∈ PQ) ∧
      (∀ v < g.num_vertices, ∀ k : Int, 1 ≤ k → k ≤ degree.getD v 0 → (k, (v : Int)) ∈ PQ) := by
  have hnil : SweepInv degree g.num_vertices [] [] :=
    ⟨by simp, by simp, by simp, by simp, by simp⟩
  obtain ⟨L0, a1, a2, _, a4, a5⟩ := add_level_spec g hint degree (shuffle 0) 0 [] hnil
    (hshuf 0 _) (by simp)
  obtain ⟨L1, b1, b2, b3, b4, _⟩ := add_level_spec g hint degree (shuffle 1) 1 L0 a2
    (hshuf 1 _) (by
      intro e he v hev hc
      rcases a5 e he with ⟨e0, h0, _⟩ | ⟨v', hv', hc'⟩
      · exact absurd h0 (List.not_mem_nil _)
      · have : v' = v := by
          rw [hev] at hv'
          exact (Int.ofNat_inj.1 hv').symm
        subst this
        omega)
  have hone : ∀ v < g.num_vertices, (1, (v : Int)) ∈ L1 := by
    intro v hv
    by_cases hh : hint.getD v false = true
    · exact b4 v hv (by rw [if_pos hh])
    · exact b3 _ (a4 v hv (by rw [if_neg hh]))
  have hclosed : ∀ e ∈ L1, e.1 < degree.getD e.2.toNat 0 → (e.1 + 1, e.2) ∈ L1 := by
    intro e he hlt
    simpa using b2.closed e he hlt
  refine ⟨L1.reverse, ?_, ?_, ?_, ?_, ?_⟩
  · simp only [build_schedule, a1, b1]
  · intro e he
    exact b2.valid e (by simpa using he)
  · rw [List.pairwise_reverse]
    have : L1.Pairwise (fun a b => a.2 = b.2 → a.1 < b.1) := by simpa using b2.ordered
    exact this.imp (fun h e => h e.symm)
  · intro v hv
    exact List.mem_reverse.2 (hone v hv)
  · intro v hv k hk1 hkd
    rw [List.mem_reverse]
    obtain ⟨n, rfl⟩ : ∃ n : Nat, k = (n : Int) + 1 := ⟨(k - 1).toNat, by omega⟩
    clear hk1
    induction n with
    | zero => simpa using hone v hv
    | succ n ih =>
      have := hclosed _ (ih (by push_cast at hkd ⊢; omega)) (by
        simp only [Int.toNat_ofNat]
        push_cast at hkd ⊢
        omega)
      simpa using this

/-! ## The loop over the schedule -/

theorem mem_true_iff (l : List Bool) : true ∈ l ↔ ∃ j, l.getD j false = true := by
  constructor
  · intro h
    obtain ⟨j, hj, hjt⟩ := List.mem_iff_getElem.1 h
    exact ⟨j, by rw [List.getD_eq_getElem l false hj]; exact hjt⟩
  · rintro ⟨j, hj⟩
    have := getD_mem l j false (lt_length_of_getD_true l j hj)
    rw [hj] at this
    exact this

theorem nah_zero_iff {g : Graph} {ex : Nat → Prop} {st : Engine} (hinv : EngineInv g ex st) :
    st.num_active_hyperedges = 0 ↔ ∀ h, g.num_vertices ≤ h → st.act h = false := by
  rw [hinv.nah]
  simp only [Nat.cast_eq_zero, List.count_eq_zero, mem_true_iff, not_exists]
  constructor
  · intro h k hk
    have := h (k - g.num_vertices)
    rw [getD_drop, show g.num_vertices + (k - g.num_vertices) = k by omega] at this
    exact act_false_of_not_true this
  · intro h j
    rw [getD_drop]
    have := h (g.num_vertices + j) (by omega)
    unfold Engine.act at this
    rw [this]
    exact Bool.false_ne_true

theorem sched_inv_progress {g : Graph} {rest : List (Int × Int)} {st st' : Engine}
    (hp : Progress st st') (hs : SchedInv g rest st) : SchedInv g rest st' := by
  intro v hv hav k hk1 hkd
  exact hs v hv (hp.act v hav) k hk1 (le_trans hkd (hp.deg v))

theorem nah_zero_of_sched_nil {g : Graph} (hw : WellFormed g) {st : Engine}
    (hinv : EngineInv g (fun _ => False) st) (hpos : Positive g st) (hs : SchedInv g [] st) :
    st.num_active_hyperedges = 0 := by
  rw [nah_zero_iff hinv]
  intro h hge
  by_contra hc
  rw [Bool.not_eq_false] at hc
  have hlt := act_lt hinv hc
  obtain ⟨v, hv, hav⟩ := hpos h hge hc
  have hvlt := mem_inc_of_hyperedge hw hv hge
  have hcoh := hinv.coherent v (by have := hw.objects; omega) hav (fun h => h)
  have hcnt : 0 < active_count g st v :=
    List.countP_pos_iff.2 ⟨h, mem_inc_symm hw hv, hc⟩
  exact absurd (hs v hvlt hav 1 (le_refl _) (by omega)) (List.not_mem_nil _)

theorem schedule_loop_spec {g : Graph} (hw : WellFormed g) (cap : Nat) (budget : Option Nat) :
    ∀ (rest : List (Int × Int)) (st : Engine), EngineInv g (fun _ => False) st →
      Sound g false st → SchedInv g rest st →
      rest.Pairwise (fun a b => a.2 = b.2 → b.1 < a.1) →
      (∀ e ∈ rest, 1 ≤ e.1 ∧ 0 ≤ e.2 ∧ e.2 < g.num_vertices) →
      ∃ st', schedule_loop g cap false budget rest st = .ok st' ∧
        EngineInv g (fun _ => False) st' ∧ Sound g false st' ∧
        st'.num_active_hyperedges = 0 := by
  intro rest
  induction rest with
  | nil =>
    intro st hinv hsound hs _ _
    exact ⟨st, rfl, hinv, hsound, nah_zero_of_sched_nil hw hinv hsound.positive hs⟩
  | cons iter rest ih =>
    intro st hinv hsound hs hord hval
    obtain ⟨hord1, hord2⟩ := List.pairwise_cons.1 hord
    have hval' : ∀ e ∈ rest, 1 ≤ e.1 ∧ 0 ≤ e.2 ∧ e.2 < g.num_vertices :=
      fun e he => hval e (List.mem_cons_of_mem _ he)
    have hiv := hval iter (List.mem_cons_self _ _)
    obtain ⟨st1, d1, d2, _, d4, d5, _⟩ := drain_spec hw cap false (fun _ => True)
      (fun _ _ _ _ _ _ => trivial) (drain_fuel g) budget st hinv (measure_le_fuel hinv) trivial
    have hsound1 := sound_steps hw d4 hsound
    have hs1 := sched_inv_progress d5 hs
    have hvnat : ((iter.2.toNat : Nat) : Int) = iter.2 := Int.toNat_of_nonneg hiv.2.1
    have hvlt : iter.2.toNat < g.num_vertices := by omega
    have hiter : iter = (iter.1, ((iter.2.toNat : Nat) : Int)) := by
      rw [hvnat]
    -- entries of other vertices, and of smaller requirement, are not the head
    have hskip : ∀ st2 : Engine, Progress st1 st2 →
        (st2.act iter.2.toNat = true → st2.deg iter.2.toNat < iter.1) →
        SchedInv g rest st2 := by
      intro st2 hp hlow v hv hav k hk1 hkd
      have hm := sched_inv_progress hp hs1 v hv hav k hk1 hkd
      rcases List.mem_cons.1 hm with h | h
      · exfalso
        have h1 : k = iter.1 := congrArg Prod.fst h
        have h2 : (v : Int) = iter.2 := congrArg Prod.snd h
        have h3 : v = iter.2.toNat := by omega
        subst h3
        have := hlow hav
        omega
      · exact h
    unfold schedule_loop
    rw [d1]
    simp only [Bool.false_eq_true, if_false]
    by_cases ha : (!st1.active.getD iter.2.toNat false) = true
    · rw [if_pos ha]
      refine ih st1 d2 hsound1 (hskip st1 (progress_refl st1) ?_) hord2 hval'
      intro hav
      rw [Bool.not_eq_true'] at ha
      unfold Engine.act at hav
      rw [ha] at hav
      exact Bool.noConfusion hav
    · rw [if_neg ha]
      rw [Bool.not_eq_true', Bool.not_eq_false] at ha
      have hav : st1.act iter.2.toNat = true := ha
      have hle : st1.deg iter.2.toNat ≤ iter.1 := by
        by_contra hc
        have hm := hs1 iter.2.toNat hvlt hav (st1.deg iter.2.toNat) (by omega) (le_refl _)
        rcases List.mem_cons.1 hm with h | h
        · have h1 : st1.deg iter.2.toNat = iter.1 := congrArg Prod.fst h
          omega
        · have := hord1 _ h (by simp only; omega)
          simp only at this
          omega
      by_cases hk : iter.1 ≠ st1.degree.getD iter.2.toNat 0
      · rw [if_pos hk]
        refine ih st1 d2 hsound1 (hskip st1 (progress_refl st1) ?_) hord2 hval'
        intro _
        have : st1.deg iter.2.toNat ≠ iter.1 := fun e => hk e.symm
        omega
      · rw [if_neg hk]
        obtain ⟨g1, g2, g3, g4, g5, g6, _⟩ := greedy_choice_spec hw d2 iter.2.toNat hvlt hav
        have hmove : Move g false st1 (greedy_choice g iter.2.toNat st1) :=
          Move.greedy iter.2.toNat hvlt hav rfl g2 g3 g4
        have hsound2 := sound_move hw hmove hsound1
        have hprog : Progress st1 (greedy_choice g iter.2.toNat st1) := by
          refine ⟨?_, g6, Nat.le_of_lt g5, ?_⟩
          · intro i hi
            rw [g2 i] at hi
            simp only [Bool.and_eq_true] at hi
            exact hi.1.1
          · intro v hv
            rw [g3]
            split
            · rw [getD_set]
              split
              · rfl
              · exact hv
            · exact hv
        by_cases hz : (greedy_choice g iter.2.toNat st1).num_active_hyperedges = 0
        · rw [if_pos hz]
          exact ⟨_, rfl, g1, hsound2, hz⟩
        · rw [if_neg hz]
          refine ih _ g1 hsound2 (hskip _ hprog ?_) hord2 hval'
          intro hav2
          rw [g2 iter.2.toNat] at hav2
          simp at hav2

theorem hits_of_nah_zero {g : Graph} {st : Engine} (hinv : EngineInv g (fun _ => False) st)
    (hsound : Sound g false st) (hz : st.num_active_hyperedges = 0) :
    g.Hits (members st.solution) := by
  have hall := (nah_zero_iff hinv).1 hz
  intro h hlt hge
  rcases hsound.cov h hlt hge (hall h hge) with ⟨v, hv, hc⟩ | ⟨h', hge', ha', _⟩
  · refine ⟨v, hv, ?_⟩
    unfold Chosen at hc
    rw [if_neg Bool.false_ne_true] at hc
    exact hc
  · rw [hall h' hge'] at ha'
    exact Bool.noConfusion ha'

/-- The loop over the schedule of a call with `reduce_only_and_save = false`. -/
theorem greeduce_schedule_spec (gl : Globals) (hint : Solution) (cap : Nat)
    (shuffle : Nat → List (Int × Int) → List (Int × Int)) (budget : Option Nat)
    (hw : WellFormed gl.graph) (hne : NonemptyHyperedges gl.graph)
    (hshuf : ∀ level l, (shuffle level l).Perm l) :
    ∃ st, greeduce_schedule gl hint cap false shuffle budget = .ok st ∧
      EngineInv gl.graph (fun _ => False) st ∧ Sound gl.graph false st ∧
      st.num_active_hyperedges = 0 := by
  obtain ⟨PQ, p1, p2, p3, _, p5⟩ := build_schedule_spec gl.graph hint
    (init_engine gl.graph gl.always_in_solution).degree shuffle hshuf
  obtain ⟨st, s1, s2, s3, s4⟩ := schedule_loop_spec hw cap budget PQ
    (init_engine gl.graph gl.always_in_solution) (init_engine_inv hw _)
    (init_sound hw hne false _) (fun v hv _ k hk1 hkd => p5 v hv k hk1 hkd) p3
    (fun e he => ⟨(p2 e he).1, (p2 e he).2.1, (p2 e he).2.2.1⟩)
  refine ⟨st, ?_, s2, s3, s4⟩
  unfold greeduce_schedule
  simp only [Bool.false_eq_true, if_false, p1]
  exact s1

/-- C1. Post-condition of `greeduce`: on a well-formed graph whose hyperedges
are non-empty, for every hint, cap and outcome of the shuffles, a call with
`reduce_only_and_save = false` reaches the end of the schedule with
`num_active_hyperedges == 0`, the `solution` built there hits every hyperedge,
and the call returns (no assertion fails). -/
theorem greeduce_covers_every_hyperedge (gl : Globals) (hint : Solution) (cap : Nat)
    (shuffle : Nat → List (Int × Int) → List (Int × Int)) (budget : Option Nat)
    (hw : WellFormed gl.graph) (hne : NonemptyHyperedges gl.graph)
    (hshuf : ∀ level l, (shuffle level l).Perm l) :
    (∃ st, greeduce_schedule gl hint cap false shuffle budget = .ok st ∧
      st.num_active_hyperedges = 0 ∧ gl.graph.Hits (members st.solution)) ∧
    ∃ gl', greeduce gl hint cap false shuffle budget = .ok gl' := by
  obtain ⟨st, s1, s2, s3, s4⟩ := greeduce_schedule_spec gl hint cap shuffle budget hw hne hshuf
  have hhits := hits_of_nah_zero s2 s3 s4
  refine ⟨⟨st, s1, s4, hhits⟩, ?_⟩
  obtain ⟨r, r1, _⟩ := remove_unnecessary_nodes_spec hw st.solution s2.sol_len hhits
  unfold greeduce
  simp only [s1, Bool.false_eq_true, if_false, s4, ne_eq, not_true_eq_false, r1]
  split
  · exact ⟨_, rfl⟩
  · exact ⟨_, rfl⟩

/-- C1 at the triangle `{1,2}, {2,3}, {1,3}` with the hint of all vertices, cap 3
and shuffles that leave the blocks as they are. -/
theorem greeduce_covers_every_hyperedge_witness :
    (WellFormed (read_input_hs 3 [[1, 2], [2, 3], [1, 3]]) ∧
      NonemptyHyperedges (read_input_hs 3 [[1, 2], [2, 3], [1, 3]])) ∧
    ((∃ st, greeduce_schedule
        (init_best (initial_globals (read_input_hs 3 [[1, 2], [2, 3], [1, 3]])))
        [true, true, true] 3 false (fun _ l => l) none = .ok st ∧
      st.num_active_hyperedges = 0 ∧
      (read_input_hs 3 [[1, 2], [2, 3], [1, 3]]).Hits (members st.solution)) ∧
    ∃ gl', greeduce (init_best (initial_globals (read_input_hs 3 [[1, 2], [2, 3], [1, 3]])))
      [true, true, true] 3 false (fun _ l => l) none = .ok gl') :=
  ⟨by decide, greeduce_covers_every_hyperedge
    (init_best (initial_globals (read_input_hs 3 [[1, 2], [2, 3], [1, 3]])))
    [true, true, true] 3 (fun _ l => l) none (by decide) (by decide)
    (fun _ l => List.Perm.refl l)⟩

/-! ## The renumbering of compaction -/

theorem new_index_zero (active : List Bool) : new_index active 0 = 0 := by
  simp [new_index]

theorem new_index_succ (active : List Bool) (i : Nat) :
    new_index active (i + 1) = new_index active i + if active.getD i false then 1 else 0 := by
  unfold new_index
  rw [List.take_succ, List.count_append]
  congr 1
  rw [List.getD_eq_getElem?_getD]
  cases h : active[i]? with
  | none => simp
  | some b => cases b <;> simp

theorem new_index_mono (active : List Bool) {i j : Nat} (h : i ≤ j) :
    new_index active i ≤ new_index active j := by
  induction j with
  | zero =>
    have : i = 0 := by omega
    subst this
    exact Nat.le_refl _
  | succ j ih =>
    rcases Nat.lt_or_ge i (j + 1) with h1 | h1
    · have := ih (by omega)
      rw [new_index_succ]
      omega
    · have : i = j + 1 := by omega
      subst this
      exact Nat.le_refl _

theorem new_index_le (active : List Bool) (i : Nat) : new_index active i ≤ i := by
  induction i with
  | zero => simp [new_index_zero]
  | succ i ih =>
    rw [new_index_succ]
    split <;> omega

theorem new_index_lt (active : List Bool) {i j : Nat} (h : i < j)
    (ha : active.getD i false = true) : new_index active i < new_index active j := by
  have h1 := new_index_mono active (show i + 1 ≤ j by omega)
  rw [new_index_succ, if_pos ha] at h1
  omega

theorem new_index_inj (active : List Bool) {i j : Nat} (hi : active.getD i false = true)
    (hj : active.getD j false = true) (h : new_index active i = new_index active j) : i = j := by
  rcases Nat.lt_trichotomy i j with h1 | h1 | h1
  · have := new_index_lt active h1 hi
    omega
  · exact h1
  · have := new_index_lt active h1 hj
    omega

theorem new_index_surj (active : List Bool) :
    ∀ (n j : Nat), j < new_index active n →
      ∃ i < n, active.getD i false = true ∧ new_index active i = j := by
  intro n
  induction n with
  | zero => intro j hj; simp [new_index_zero] at hj
  | succ n ih =>
    intro j hj
    rw [new_index_succ] at hj
    by_cases hlt : j < new_index active n
    · obtain ⟨i, hi, h1, h2⟩ := ih j hlt
      exact ⟨i, by omega, h1, h2⟩
    · by_cases ha : active.getD n false = true
      · rw [if_pos ha] at hj
        exact ⟨n, by omega, ha, by omega⟩
      · rw [if_neg ha] at hj
        omega

/-! ## prune_inactive_objects: the new ids -/

theorem assign_new_ids_fold (active : List Bool) (N : Nat) :
    ∀ m ≤ N,
      ((List.range m).foldl
        (fun (s : Nat × List Int) i =>
          if active.getD i false then (s.1 + 1, s.2.set i (s.1 : Int)) else s)
        (0, List.replicate N (-1))).1 = new_index active m ∧
      ((List.range m).foldl
        (fun (s : Nat × List Int) i =>
          if active.getD i false then (s.1 + 1, s.2.set i (s.1 : Int)) else s)
        (0, List.replicate N (-1))).2.length = N ∧
      ∀ i, ((List.range m).foldl
        (fun (s : Nat × List Int) i =>
          if active.getD i false then (s.1 + 1, s.2.set i (s.1 : Int)) else s)
        (0, List.replicate N (-1))).2.getD i (-1) =
          if i < m ∧ active.getD i false = true then (new_index active i : Int) else -1 := by
  intro m
  induction m with
  | zero =>
    intro _
    refine ⟨by simp [new_index_zero], by simp, ?_⟩
    intro i
    simp only [List.range_zero, List.foldl_nil, Nat.not_lt_zero, false_and, if_false]
    by_cases hi : i < N
    · exact getD_replicate _ _ _ _ hi
    · exact getD_of_length_le _ _ _ (by simp; omega)
  | succ m ih =>
    intro hm
    obtain ⟨h1, h2, h3⟩ := ih (by omega)
    rw [List.range_succ, List.foldl_append]
    simp only [List.foldl_cons, List.foldl_nil]
    by_cases ha : active.getD m false = true
    · rw [if_pos ha]
      refine ⟨by rw [new_index_succ, if_pos ha, h1], by rw [List.length_set, h2], ?_⟩
      intro i
      simp only
      rw [getD_set, h2, h1]
      by_cases him : m = i
      · subst him
        rw [if_pos ⟨rfl, by omega⟩, if_pos ⟨by omega, ha⟩]
      · rw [if_neg (fun h => him h.1), h3 i]
        by_cases hc : i < m ∧ active.getD i false = true
        · rw [if_pos hc, if_pos ⟨by omega, hc.2⟩]
        · rw [if_neg hc, if_neg (fun h => hc ⟨by omega, h.2⟩)]
    · rw [if_neg ha]
      refine ⟨by rw [new_index_succ, if_neg ha, h1]; rfl, h2, ?_⟩
      intro i
      rw [h3 i]
      by_cases hc : i < m ∧ active.getD i false = true
      · rw [if_pos hc, if_pos ⟨by omega, hc.2⟩]
      · rw [if_neg hc, if_neg]
        rintro ⟨h4, h5⟩
        have : i = m := by
          by_contra hne
          exact hc ⟨by omega, h5⟩
        subst this
        exact ha h5

theorem assign_new_ids_spec (active : List Bool) (N : Nat) :
    (assign_new_ids active N).1 = new_index active N ∧
    (assign_new_ids active N).2.length = N ∧
    ∀ i < N, active.getD i false = true →
      ((assign_new_ids active N).2.getD i (-1)).toNat = new_index active i ∧
      (assign_new_ids active N).2.getD i (-1) = (new_index active i : Int) := by
  obtain ⟨h1, h2, h3⟩ := assign_new_ids_fold active N N (Nat.le_refl _)
  refine ⟨h1, h2, ?_⟩
  intro i hi ha
  have := h3 i
  rw [if_pos ⟨hi, ha⟩] at this
  unfold assign_new_ids
  rw [this]
  exact ⟨Int.toNat_ofNat _, rfl⟩

/-! ## prune_inactive_objects: the rewriting in place -/

theorem getD_take {α : Type} (l : List α) (n i : Nat) (d : α) (h : i < n) :
    (l.take n).getD i d = l.getD i d := by
  simp only [List.getD_eq_getElem?_getD, List.getElem?_take, h, if_true]

theorem prune_object_step {g : Graph} (hw : WellFormed g) (active : List Bool)
    (ids : List Int)
    (hids : ∀ i < g.num_objects, active.getD i false = true →
      (ids.getD i (-1)).toNat = new_index active i ∧ ids.getD i (-1) = (new_index active i : Int))
    (m : Nat) (hm : m < g.num_objects) (s : PruneState) (hs : PruneInv g active m s) :
    PruneInv g active (m + 1) (prune_object g.num_vertices active ids s m) := by
  have hle := new_index_le active m
  have hN := hw.incidence_length
  have hV := hw.ids_length
  have ho := hw.objects
  unfold prune_object
  by_cases ha : active.getD m false = true
  · rw [if_pos ha]
    have hnew : new_index active (m + 1) = new_index active m + 1 := by
      rw [new_index_succ, if_pos ha]
    have hread : s.incidence.getD m [] = g.inc m := hs.inc_rest m hle
    have hlist : ((s.incidence.getD m []).filter (fun j => active.getD j false)).map
        (fun j => (ids.getD j (-1)).toNat) = new_incidence g active m := by
      rw [hread]
      unfold new_incidence
      apply List.map_congr_left
      intro j hj
      rw [List.mem_filter] at hj
      exact (hids j (mem_inc_lt hw hj.1).2 hj.2).1
    rw [hlist, (hids m hm ha).1]
    have hinc_done : ∀ i < m + 1, active.getD i false = true →
        (s.incidence.set (new_index active m) (new_incidence g active m)).getD
          (new_index active i) [] = new_incidence g active i := by
      intro i hi hai
      by_cases him : i = m
      · subst him
        exact getD_set_eq _ _ _ _ (by rw [hs.inc_len, hN]; omega)
      · have hlt : i < m := by omega
        have := new_index_lt active hlt hai
        rw [getD_set_ne _ _ _ (by omega)]
        exact hs.inc_done i hlt hai
    have hinc_rest : ∀ j, new_index active (m + 1) ≤ j →
        (s.incidence.set (new_index active m) (new_incidence g active m)).getD j [] =
          g.incidence.getD j [] := by
      intro j hj
      rw [getD_set_ne _ _ _ (by omega)]
      exact hs.inc_rest j (by omega)
    by_cases hv : m < g.num_vertices
    · rw [if_pos hv]
      have hmin : min m g.num_vertices = m := by omega
      have hmin' : min (m + 1) g.num_vertices = m + 1 := by omega
      refine ⟨by simp [hs.inc_len], by simp [hs.vid_len], hinc_done, hinc_rest, ?_, ?_, ?_⟩
      · intro i hi hiv hai
        simp only
        by_cases him : i = m
        · subst him
          rw [getD_set_eq _ _ _ _ (by rw [hs.vid_len, hV]; omega)]
          exact hs.vid_rest i (by rw [hmin]; exact hle)
        · have hlt : i < m := by omega
          have := new_index_lt active hlt hai
          rw [getD_set_ne _ _ _ (by omega)]
          exact hs.vid_done i hlt hiv hai
      · intro j hj
        rw [hmin', hnew] at hj
        simp only
        rw [getD_set_ne _ _ _ (by omega)]
        exact hs.vid_rest j (by rw [hmin]; omega)
      · simp only
        rw [hmin', (hids m hm ha).2, hnew]
        push_cast
        omega
    · rw [if_neg hv]
      have hmin : min m g.num_vertices = g.num_vertices := by omega
      have hmin' : min (m + 1) g.num_vertices = g.num_vertices := by omega
      refine ⟨by simp [hs.inc_len], hs.vid_len, hinc_done, hinc_rest, ?_, ?_, ?_⟩
      · intro i hi hiv hai
        exact hs.vid_done i (by omega) hiv hai
      · intro j hj
        rw [hmin'] at hj
        exact hs.vid_rest j (by rw [hmin]; exact hj)
      · rw [hmin']
        have := hs.last
        rw [hmin] at this
        exact this
  · rw [if_neg ha]
    have hnew : new_index active (m + 1) = new_index active m := by
      rw [new_index_succ, if_neg ha]
      rfl
    have hmin : new_index active (min (m + 1) g.num_vertices) =
        new_index active (min m g.num_vertices) := by
      by_cases hv : m < g.num_vertices
      · rw [show min (m + 1) g.num_vertices = m + 1 by omega,
          show min m g.num_vertices = m by omega, hnew]
      · rw [show min (m + 1) g.num_vertices = g.num_vertices by omega,
          show min m g.num_vertices = g.num_vertices by omega]
    refine ⟨hs.inc_len, hs.vid_len, ?_, ?_, ?_, ?_, ?_⟩
    · intro i hi hai
      have : i ≠ m := fun e => ha (e ▸ hai)
      exact hs.inc_done i (by omega) hai
    · intro j hj
      exact hs.inc_rest j (by omega)
    · intro i hi hiv hai
      have : i ≠ m := fun e => ha (e ▸ hai)
      exact hs.vid_done i (by omega) hiv hai
    · intro j hj
      rw [hmin] at hj
      exact hs.vid_rest j hj
    · rw [hmin]
      exact hs.last

theorem prune_loop_spec {g : Graph} (hw : WellFormed g) (active : List Bool) (ids : List Int)
    (hids : ∀ i < g.num_objects, active.getD i false = true →
      (ids.getD i (-1)).toNat = new_index active i ∧ ids.getD i (-1) = (new_index active i : Int)) :
    ∀ m ≤ g.num_objects,
      PruneInv g active m
        ((List.range m).foldl (prune_object g.num_vertices active ids)
          { incidence := g.incidence, vertex_to_original_id := g.vertex_to_original_id,
            last_new_vertex_id := -1 }) := by
  intro m
  induction m with
  | zero =>
    intro _
    refine ⟨rfl, rfl, ?_, fun _ _ => rfl, ?_, fun _ _ => rfl, ?_⟩
    · intro i hi
      omega
    · intro i hi
      omega
    · simp [new_index_zero]
  | succ m ih =>
    intro hm
    rw [List.range_succ, List.foldl_append]
    exact prune_object_step hw active ids hids m (by omega) _ (ih (by omega))

/-- The function `prune_inactive_objects` on a well-formed graph and an activity vector of the
right size: it fails exactly when no vertex is active, and otherwise returns the
compaction. -/
theorem prune_inactive_objects_spec {g : Graph} (hw : WellFormed g) (active : List Bool)
    (hlen : active.length = g.num_objects) :
    (new_index active g.num_vertices = 0 →
      prune_inactive_objects g active = .error .assertion) ∧
    (new_index active g.num_vertices ≠ 0 →
      ∃ g', prune_inactive_objects g active = .ok g' ∧ Pruned g active g') := by
  obtain ⟨i1, i2, i3⟩ := assign_new_ids_spec active g.num_objects
  have hloop := prune_loop_spec hw active (assign_new_ids active g.num_objects).2 i3
    g.num_objects (Nat.le_refl _)
  have hmin : min g.num_objects g.num_vertices = g.num_vertices := by
    have := hw.objects
    omega
  have hlast := hloop.last
  rw [hmin] at hlast
  unfold prune_inactive_objects
  rw [if_neg (by simp [hlen])]
  simp only
  constructor
  · intro h0
    rw [if_pos (by rw [hlast, h0]; rfl)]
  · intro h0
    rw [if_neg (by rw [hlast]; omega)]
    refine ⟨_, rfl, ?_⟩
    have hnv : (((List.range g.num_objects).foldl
        (prune_object g.num_vertices active (assign_new_ids active g.num_objects).2)
        { incidence := g.incidence, vertex_to_original_id := g.vertex_to_original_id,
          last_new_vertex_id := -1 }).last_new_vertex_id + 1).toNat =
        new_index active g.num_vertices := by
      rw [hlast]
      omega
    have hmono : new_index active g.num_vertices ≤ new_index active g.num_objects :=
      new_index_mono active (by have := hw.objects; omega)
    have hNle := new_index_le active g.num_objects
    have hVle := new_index_le active g.num_vertices
    refine ⟨hnv, i1, ?_, ?_, ?_, ?_, ?_⟩
    · simp only
    · intro i hi hai
      show (List.take _ _).getD _ _ = _
      rw [i1, getD_take _ _ _ _ (new_index_lt active hi hai)]
      exact hloop.inc_done i hi hai
    · intro v hv hav
      show (List.take _ _).getD _ _ = _
      rw [hnv, getD_take _ _ _ _ (new_index_lt active hv hav)]
      exact hloop.vid_done v (by have := hw.objects; omega) hv hav
    · simp only [List.length_take, hloop.inc_len, hw.incidence_length, i1]
      omega
    · simp only [List.length_take, hloop.vid_len, hw.ids_length, hnv]
      omega

/-! ## The kernelizer -/

/-- What a completed call of `fast_lazy_reductions` has done: the engine was
drained from the initial state to a state `st`, and the graph was compacted under
`st.active`. -/
theorem fast_lazy_reductions_spec (gl gl' : Globals) (budget : Option Nat)
    (hw : WellFormed gl.graph) (hne : NonemptyHyperedges gl.graph)
    (hk : fast_lazy_reductions gl budget = .ok gl') :
    ∃ st, drain gl.graph unbounded_cap true (drain_fuel gl.graph) budget
        (init_engine gl.graph gl.always_in_solution) = .ok st ∧
      EngineInv gl.graph (fun _ => False) st ∧ Sound gl.graph true st ∧
      Steps gl.graph true (init_engine gl.graph gl.always_in_solution) st ∧
      (budget = none → st.Q = []) ∧
      new_index st.active gl.graph.num_vertices ≠ 0 ∧
      Pruned gl.graph st.active gl'.graph ∧
      gl'.always_in_solution = st.always_in_solution ∧
      gl'.best = gl.best ∧ gl'.best_cost = gl.best_cost := by
  have hinv0 := init_engine_inv hw gl.always_in_solution
  obtain ⟨st, d1, d2, _, d4, _, d6⟩ := drain_spec hw unbounded_cap true (fun _ => True)
    (fun _ _ _ _ _ _ => trivial) (drain_fuel gl.graph) budget _ hinv0
    (measure_le_fuel hinv0) trivial
  have hsound := sound_steps hw d4 (init_sound hw hne true gl.always_in_solution)
  have hsched : greeduce_schedule gl [] unbounded_cap true (fun _ l => l) budget = .ok st := by
    unfold greeduce_schedule
    simp only [if_true]
    unfold schedule_loop
    rw [d1]
    simp only [if_true]
  obtain ⟨p1, p2⟩ := prune_inactive_objects_spec hw st.active d2.active_len
  unfold fast_lazy_reductions greeduce at hk
  rw [hsched] at hk
  simp only [if_true] at hk
  by_cases h0 : new_index st.active gl.graph.num_vertices = 0
  · rw [p1 h0] at hk
    exact absurd hk (by simp)
  · obtain ⟨g', q1, q2⟩ := p2 h0
    rw [q1] at hk
    simp only [Except.ok.injEq] at hk
    subst hk
    refine ⟨st, d1, d2, hsound, d4, ?_, h0, q2, rfl, rfl, rfl⟩
    intro hb
    rcases d6 with h | ⟨_, h⟩
    · exact h
    · exact absurd hb h

/-! ## Old and new indices -/

theorem new_vertex_lt (active : List Bool) {nv v : Nat} (hv : v < nv)
    (ha : active.getD v false = true) : new_index active v < new_index active nv :=
  new_index_lt active hv ha

theorem new_hyperedge_range (active : List Bool) {nv N h : Nat} (hge : nv ≤ h) (hlt : h < N)
    (ha : active.getD h false = true) :
    new_index active nv ≤ new_index active h ∧ new_index active h < new_index active N :=
  ⟨new_index_mono active hge, new_index_lt active hlt ha⟩

theorem old_hyperedge (active : List Bool) {nv N j : Nat} (hge : new_index active nv ≤ j)
    (hlt : j < new_index active N) :
    ∃ h, nv ≤ h ∧ h < N ∧ active.getD h false = true ∧ new_index active h = j := by
  obtain ⟨i, hi, ha, hj⟩ := new_index_surj active N j hlt
  refine ⟨i, ?_, hi, ha, hj⟩
  by_contra hc
  have := new_index_lt active (show i < nv by omega) ha
  omega

theorem mem_new_incidence (g : Graph) (active : List Bool) (i c : Nat) :
    c ∈ new_incidence g active i ↔
      ∃ v ∈ g.inc i, active.getD v false = true ∧ new_index active v = c := by
  unfold new_incidence
  simp only [List.mem_map, List.mem_filter]
  constructor
  · rintro ⟨v, ⟨h1, h2⟩, h3⟩
    exact ⟨v, h1, h2, h3⟩
  · rintro ⟨v, h1, h2, h3⟩
    exact ⟨v, ⟨h1, h2⟩, h3⟩

/-- Every hyperedge of the instance holds a forced vertex or holds all the active
vertices of an active hyperedge. -/
theorem forced_or_active_witness {g : Graph} {st : Engine} (hs : Sound g true st) (h : Nat)
    (hlt : h < g.num_objects) (hge : g.num_vertices ≤ h) :
    (∃ v ∈ g.inc h, g.vid v ∈ st.always_in_solution) ∨
    (∃ h', g.num_vertices ≤ h' ∧ st.act h' = true ∧
      ∀ v ∈ g.inc h', st.act v = true → v ∈ g.inc h) := by
  by_cases ha : st.act h = true
  · exact Or.inr ⟨h, hge, ha, fun v hv _ => hv⟩
  · rcases hs.cov h hlt hge (act_false_of_not_true ha) with ⟨v, hv, hc⟩ | hr
    · refine Or.inl ⟨v, hv, ?_⟩
      unfold Chosen at hc
      rw [if_pos rfl] at hc
      exact hc
    · exact Or.inr hr

/-- A set that hits the compaction hits, through the renumbering, every active
hyperedge inside its active vertices. -/
theorem pruned_hit {g g' : Graph} (hw : WellFormed g) {ex : Nat → Prop} {st : Engine}
    (hinv : EngineInv g ex st) (hp : Pruned g st.active g') (C' : Nat → Prop)
    (hC : g'.Hits C') (h : Nat) (hge : g.num_vertices ≤ h) (ha : st.act h = true) :
    ∃ v ∈ g.inc h, st.act v = true ∧ v < g.num_vertices ∧
      new_index st.active v < g'.num_vertices ∧ C' (new_index st.active v) ∧
      g'.vid (new_index st.active v) = g.vid v := by
  have hlt := act_lt hinv ha
  have hr := new_hyperedge_range st.active hge hlt ha
  obtain ⟨c, hc, hCc⟩ := hC (new_index st.active h) (by rw [hp.num_objects]; exact hr.2)
    (by rw [hp.num_vertices]; exact hr.1)
  rw [hp.inc h hlt ha, mem_new_incidence] at hc
  obtain ⟨v, hv, hav, rfl⟩ := hc
  have hvlt := mem_inc_of_hyperedge hw hv hge
  exact ⟨v, hv, hav, hvlt, by rw [hp.num_vertices]; exact new_vertex_lt st.active hvlt hav,
    hCc, hp.vid v hvlt hav⟩

theorem kernel_hits_all_vertices {g g' : Graph} (hw : WellFormed g) {st : Engine}
    (hs : Sound g true st)
    (hp : Pruned g st.active g') :
    g'.Hits (members (List.replicate g'.num_vertices true)) := by
  intro h' hlt hge
  rw [hp.num_objects] at hlt
  rw [hp.num_vertices] at hge
  obtain ⟨h, h1, h2, h3, rfl⟩ := old_hyperedge st.active hge hlt
  obtain ⟨v, hv, hav⟩ := hs.positive h h1 h3
  have hvlt := mem_inc_of_hyperedge hw hv h1
  refine ⟨new_index st.active v, ?_, ?_⟩
  · rw [hp.inc h h2 h3, mem_new_incidence]
    exact ⟨v, hv, hav, rfl⟩
  · unfold members
    exact getD_replicate _ _ _ _ (by rw [hp.num_vertices]; exact new_vertex_lt st.active hvlt hav)

/-! ## Signals during kernelization -/

/-- C3, at the failing input. On scenario S1, at the first call of `check_signal`
(top of the only schedule step of the kernelizer, globals as `read_input` left
them), a signal makes the process print `0` and read `best[0]` outside the empty
vector `best`; and the forced set, all that has been committed, does not hit
every hyperedge of the instance. -/
theorem check_signal_before_best_is_initialised :
    check_signal true (initial_globals scenario_S1) = some (0, none) ∧
    ¬ scenario_S1.HitsById (fun id => id ∈ (initial_globals scenario_S1).always_in_solution) := by
  refine ⟨rfl, ?_⟩
  decide

/-! ## Scenario S6 -/

/-- C9, at the failing input. On scenario S6 the reduction run of the kernelizer
forces the five vertices, in the order `1, 2, 3, 4, 5`, and leaves no object
active; `prune_inactive_objects` then fails its assertion, so that
`fast_lazy_reductions` does not return. -/
theorem scenario_S6_kernelization_fails :
    (greeduce_schedule (initial_globals scenario_S6) [] unbounded_cap true (fun _ l => l)
        none).map (fun st => (st.always_in_solution, st.active)) =
      .ok ([1, 2, 3, 4, 5], List.replicate 10 false) ∧
    fast_lazy_reductions (initial_globals scenario_S6) none = .error .assertion :=
  ⟨rfl, rfl⟩

/-! ## Kernelization soundness -/

/-- C6, counterexample. On `pendant_triangle` the kernelizer returns the triangle
and forces nothing; the ids `{3, 4}` hit every hyperedge of the instance, but on
the kernel they leave the hyperedge `{1, 2}` unhit: the equivalence fails. -/
theorem kernel_equivalence_fails :
    fast_lazy_reductions (initial_globals pendant_triangle) none = .ok pendant_triangle_kernel ∧
    ¬ KernelEquivalence pendant_triangle pendant_triangle_kernel (fun id => id = 3 ∨ id = 4) := by
  refine ⟨rfl, ?_⟩
  intro h
  have h1 : pendant_triangle.HitsById (fun id => id = 3 ∨ id = 4) := by decide
  exact absurd (h.1 h1).2 (by decide)

/-- C6, amended. Kernelization soundness, the direction that holds: when the
kernelizer completes on a well-formed instance with kernel `gl'.graph` and forced
set `gl'.always_in_solution`, every set of original ids that contains the forced
set and whose remaining ids, restricted to the vertices of the kernel, hit every
hyperedge of the kernel, hits every hyperedge of the instance. -/
theorem kernel_soundness_if (gl gl' : Globals) (budget : Option Nat)
    (hw : WellFormed gl.graph) (hne : NonemptyHyperedges gl.graph)
    (hk : fast_lazy_reductions gl budget = .ok gl') (S : Nat → Prop)
    (hF : ∀ id ∈ gl'.always_in_solution, S id)
    (hS : gl'.graph.Hits (fun c => c < gl'.graph.num_vertices ∧ S (gl'.graph.vid c) ∧
      gl'.graph.vid c ∉ gl'.always_in_solution)) :
    gl.graph.HitsById S := by
  obtain ⟨st, _, k1, k2, _, _, _, k6, k7, _⟩ := fast_lazy_reductions_spec gl gl' budget hw hne hk
  intro h hlt hge
  rcases forced_or_active_witness k2 h hlt hge with ⟨v, hv, hf⟩ | ⟨h', hge', ha', hsub⟩
  · exact ⟨v, hv, hF _ (by rw [k7]; exact hf)⟩
  · obtain ⟨v, hv, hav, _, _, hCv, hvid⟩ := pruned_hit hw k1 k6 _ hS h' hge' ha'
    refine ⟨v, hsub v hv hav, ?_⟩
    rw [← hvid]
    exact hCv.2.1

/-- C6, amended, at `pendant_triangle` and the ids `{1, 3}`. -/
theorem kernel_soundness_if_witness :
    (WellFormed pendant_triangle ∧ NonemptyHyperedges pendant_triangle ∧
      fast_lazy_reductions (initial_globals pendant_triangle) none =
        .ok pendant_triangle_kernel ∧
      (∀ id ∈ pendant_triangle_kernel.always_in_solution, id = 1 ∨ id = 3) ∧
      pendant_triangle_kernel.graph.Hits
        (fun c => c < pendant_triangle_kernel.graph.num_vertices ∧
          (pendant_triangle_kernel.graph.vid c = 1 ∨ pendant_triangle_kernel.graph.vid c = 3) ∧
          pendant_triangle_kernel.graph.vid c ∉ pendant_triangle_kernel.always_in_solution)) ∧
    (initial_globals pendant_triangle).graph.HitsById (fun id => id = 1 ∨ id = 3) :=
  ⟨⟨by decide, by decide, rfl, by decide, by decide⟩,
    kernel_soundness_if (initial_globals pendant_triangle) pendant_triangle_kernel none
      (by decide) (by decide) rfl (fun id => id = 1 ∨ id = 3) (by decide) (by decide)⟩

/-! ## The forced set -/

theorem forced_move {g : Graph} (hw : WellFormed g) {st st' : Engine}
    (hm : Move g true st st') (hf : ForcedInv g st) : ForcedInv g st' := by
  obtain ⟨U, hU, hn, hin⟩ := hf
  cases hm with
  | idle hact hsol hforced =>
    exact ⟨U, by rw [hforced]; exact hU, hn, fun u hu => ⟨(hin u hu).1, by
      rw [hact u]; exact (hin u hu).2⟩⟩
  | unit x u hx hax hu hau huniq hact hcommit =>
    unfold Commit at hcommit
    simp only [if_true] at hcommit
    have hult := mem_inc_of_hyperedge hw hu hx
    have hnot : u ∉ U := by
      intro hm
      rw [(hin u hm).2] at hau
      exact Bool.noConfusion hau
    refine ⟨U ++ [u], by rw [hcommit.1, hU]; simp, ?_, ?_⟩
    · exact List.Nodup.append hn (List.nodup_singleton u) (by
        intro a ha hb
        rw [List.mem_singleton.1 hb] at ha
        exact hnot ha)
    · intro w hw'
      rcases List.mem_append.1 hw' with h | h
      · refine ⟨(hin w h).1, ?_⟩
        rw [hact w, (hin w h).2]
        rfl
      · rw [List.mem_singleton.1 h]
        refine ⟨hult, ?_⟩
        rw [hact u]
        simp
  | greedy w hw' haw hros hact hsol hforced => exact Bool.noConfusion hros
  | dom_vertex x y hx hy hax hay hne hdom hact hsol hforced =>
    exact ⟨U, by rw [hforced]; exact hU, hn, fun u hu => ⟨(hin u hu).1, by
      rw [hact u, (hin u hu).2]; rfl⟩⟩
  | dom_hyperedge x y hx hy hax hay hne hdom hnu hact hsol hforced =>
    exact ⟨U, by rw [hforced]; exact hU, hn, fun u hu => ⟨(hin u hu).1, by
      rw [hact u, (hin u hu).2]; rfl⟩⟩

theorem forced_steps {g : Graph} (hw : WellFormed g) {st st' : Engine}
    (hm : Steps g true st st') (hf : ForcedInv g st) : ForcedInv g st' := by
  induction hm with
  | refl => exact hf
  | tail _ hstep ih => exact forced_move hw hstep ih

theorem vid_injective {g : Graph} (hw : WellFormed g) (hid : g.vertex_to_original_id.Nodup)
    {u v : Nat} (hu : u < g.num_vertices) (hv : v < g.num_vertices) (h : g.vid u = g.vid v) :
    u = v := by
  unfold Graph.vid at h
  have hu' : u < g.vertex_to_original_id.length := by rw [hw.ids_length]; exact hu
  have hv' : v < g.vertex_to_original_id.length := by rw [hw.ids_length]; exact hv
  rw [List.getD_eq_getElem _ _ hu', List.getD_eq_getElem _ _ hv'] at h
  exact (List.Nodup.getElem_inj_iff hid).1 h

theorem forced_nodup {g : Graph} (hw : WellFormed g) (hid : g.vertex_to_original_id.Nodup)
    {st : Engine} (hf : ForcedInv g st) : st.always_in_solution.Nodup := by
  obtain ⟨U, hU, hn, hin⟩ := hf
  rw [hU]
  refine List.Nodup.map_on ?_ hn
  intro a ha b hb hab
  exact vid_injective hw hid (hin a ha).1 (hin b hb).1 hab

/-! ## Unit hyperedges -/

theorem unit_core_move {g : Graph} (hw : WellFormed g) {st st' : Engine} (h v : Nat)
    (hge : g.num_vertices ≤ h) (hinc : g.inc h = [v]) (hm : Move g true st st')
    (hpos : Positive g st) (hk : UnitCore g h v st) : UnitCore g h v st' := by
  have hvh : v ∈ g.inc h := by rw [hinc]; exact List.mem_singleton_self v
  have hvlt := mem_inc_of_hyperedge hw hvh hge
  have honly : ∀ w, w ∈ g.inc h → w = v := by
    intro w hw'
    rw [hinc] at hw'
    exact List.mem_singleton.1 hw'
  rcases hk with hk | ⟨hah, hav⟩
  · left
    have := chosen_mono hm v (by unfold Chosen; rw [if_pos rfl]; exact hk)
    unfold Chosen at this
    rw [if_pos rfl] at this
    exact this
  · cases hm with
    | idle hact hsol hforced =>
      exact Or.inr ⟨by rw [hact h]; exact hah, by rw [hact v]; exact hav⟩
    | unit x u hx hax hu hau huniq hact hcommit =>
      by_cases huv : u = v
      · subst huv
        left
        unfold Commit at hcommit
        simp only [if_true] at hcommit
        rw [hcommit.1]
        exact List.mem_append_right _ (List.mem_singleton_self _)
      · right
        have hult := mem_inc_of_hyperedge hw hu hx
        have h1 : h ∉ g.inc u := fun hm => huv (honly u (mem_inc_symm hw hm))
        have h2 : v ∉ g.inc u := fun hm => by
          have := (mem_inc_of_vertex hw hm hult).1
          omega
        refine ⟨?_, ?_⟩
        · rw [hact h, hah]
          have : h ≠ u := by omega
          simp [this, h1]
        · rw [hact v, hav]
          simp [Ne.symm huv, h2]
    | greedy w hw' haw hros hact hsol hforced => exact Bool.noConfusion hros
    | dom_vertex x y hx hy hax hay hne hdom hact hsol hforced =>
      right
      have hxv : x ≠ v := by
        intro e
        subst e
        have := hdom h (mem_inc_symm hw hvh) hah
        exact hne (honly y (mem_inc_symm hw this)).symm
      refine ⟨?_, ?_⟩
      · rw [hact h, hah]
        have : h ≠ x := by omega
        simp [this]
      · rw [hact v, hav]
        simp [Ne.symm hxv]
    | dom_hyperedge x y hx hy hax hay hne hdom hnu hact hsol hforced =>
      right
      have hyh : y ≠ h := by
        intro e
        subst e
        apply hnu
        -- the active vertices of `x` are all `v`, and there is one
        obtain ⟨w, hw', haw⟩ := hpos x hx hax
        have hwv : w = v := honly w (hdom w hw' haw)
        subst hwv
        exact countP_eq_one _ w _ (inc_nodup hw x) hw' haw
          (fun b hb hab => honly b (hdom b hb hab))
      refine ⟨?_, ?_⟩
      · rw [hact h, hah]
        simp [Ne.symm hyh]
      · rw [hact v, hav]
        have : v ≠ y := by omega
        simp [this]

theorem unit_core_steps {g : Graph} (hw : WellFormed g) {st st' : Engine} (h v : Nat)
    (hge : g.num_vertices ≤ h) (hinc : g.inc h = [v]) (hm : Steps g true st st')
    (hs : Sound g true st) (hk : UnitCore g h v st) :
    Sound g true st' ∧ UnitCore g h v st' := by
  induction hm with
  | refl => exact ⟨hs, hk⟩
  | tail _ hstep ih =>
    exact ⟨sound_move hw hstep ih.1, unit_core_move hw h v hge hinc hstep ih.1.positive ih.2⟩

theorem reduce_step_unit (g : Graph) (cap : Nat) (ros : Bool) (st : Engine) (x : Nat)
    (rest : List Nat) (hQ : st.Q = x :: rest) (henq : st.enqueued.getD x false = true)
    (hcap : cap ≠ 0) (hax : st.active.getD x false = true) (hx : g.num_vertices ≤ x)
    (hdeg : st.degree.getD x 0 = 1) :
    reduce_step g cap ros st =
      unit_edge_rule g ros x { st with Q := rest, enqueued := st.enqueued.set x false } := by
  unfold reduce_step
  rw [hQ]
  simp only [henq, if_true, hcap, if_false, hax, Bool.not_true, Bool.false_eq_true, hx, hdeg,
    and_self]

theorem unit_pending_step {g : Graph} (hw : WellFormed g) (cap : Nat) (hcap : cap ≠ 0)
    (h v : Nat) (hge : g.num_vertices ≤ h) (hinc : g.inc h = [v]) (st st' : Engine)
    (hinv : EngineInv g (fun _ => False) st) (hs : Sound g true st)
    (hp : UnitPending g h v st) (hne : st.Q ≠ [])
    (hstep : reduce_step g cap true st = .ok st') : UnitPending g h v st' := by
  obtain ⟨x, rest, hQ⟩ := List.exists_cons_of_ne_nil hne
  obtain ⟨st'', e1, e2, e3, _, e5, _⟩ := reduce_step_spec hw cap true hinv x rest hQ
  have heq : st'' = st' := by
    rw [e1] at hstep
    exact Except.ok.inj hstep
  subst heq
  have hcore : UnitCore g h v st := by
    rcases hp with hp | ⟨a, b, _⟩
    · exact Or.inl hp
    · exact Or.inr ⟨a, b⟩
  have hcore' := (unit_core_steps hw h v hge hinc e3 hs hcore).2
  rcases hp with hp | ⟨hah, hav, hq⟩
  · rcases hcore' with hc | hc
    · exact Or.inl hc
    · -- the forced set only grows
      left
      have hch : ∀ a b : Engine, Steps g true a b →
          g.vid v ∈ a.always_in_solution → g.vid v ∈ b.always_in_solution := by
        intro a b hab
        induction hab with
        | refl => exact fun h => h
        | tail _ hstep' ih =>
          intro hin
          have := chosen_mono hstep' v (by unfold Chosen; rw [if_pos rfl]; exact ih hin)
          unfold Chosen at this
          rw [if_pos rfl] at this
          exact this
      exact hch _ _ e3 hp
  · rw [hQ] at hq
    rcases List.mem_cons.1 hq with hx | hx
    · -- `h` is popped: the unit-edge rule takes `v`
      subst hx
      have henq : st.enqueued.getD h false = true :=
        (hinv.q_enq h).1 (by rw [hQ]; exact List.mem_cons_self _ _)
      have hdeg : st.deg h = 1 := by
        rw [hinv.coherent h (act_lt hinv hah) hah (fun h => h)]
        unfold active_count
        rw [hinc]
        simp [hav]
      have hu := reduce_step_unit g cap true st h rest hQ henq hcap hah hge hdeg
      have hinvp := pop_inv hinv h rest hQ _ rfl
      obtain ⟨st2, u, u1, _, u3, _, _, _, u7, _⟩ :=
        unit_edge_rule_spec hw true hinvp h hge hah hdeg
      rw [hu, u1] at e1
      have : st2 = st'' := Except.ok.inj e1
      subst this
      rw [hinc] at u3
      rw [List.mem_singleton.1 u3] at u7
      left
      unfold Commit at u7
      simp only [if_true] at u7
      rw [u7.1]
      exact List.mem_append_right _ (List.mem_singleton_self _)
    · rcases hcore' with hc | ⟨a, b⟩
      · exact Or.inl hc
      · exact Or.inr ⟨a, b, e5 h hx⟩

theorem unbounded_cap_ne_zero : unbounded_cap ≠ 0 := by decide

/-- C8. Unit-edge correctness: on a well-formed instance (hyperedges non-empty,
original ids distinct) in which the incidence list of hyperedge `h` is exactly
the vertex `v`, the reduction run of the kernelizer, without time-budget abort,
drains the worklist, and `always_in_solution` then holds the original id of `v`
exactly once. -/
theorem unit_edge_vertex_is_forced (g : Graph) (hw : WellFormed g)
    (hne : NonemptyHyperedges g) (hid : g.vertex_to_original_id.Nodup) (h v : Nat)
    (hlt : h < g.num_objects) (hge : g.num_vertices ≤ h) (hinc : g.inc h = [v]) :
    ∃ st, drain g unbounded_cap true (drain_fuel g) none (init_engine g []) = .ok st ∧
      st.Q = [] ∧ st.always_in_solution.count (g.vid v) = 1 := by
  have hinv0 := init_engine_inv hw []
  have hvh : v ∈ g.inc h := by rw [hinc]; exact List.mem_singleton_self v
  have hvlt := (mem_inc_lt hw hvh).2
  have hp0 : UnitPending g h v (init_engine g []) :=
    Or.inr ⟨init_act g [] h hlt, init_act g [] v hvlt, List.mem_range.2 hlt⟩
  obtain ⟨st, d1, d2, d3, d4, _, d6⟩ := drain_spec hw unbounded_cap true
    (fun st => Sound g true st ∧ UnitPending g h v st)
    (fun st st' hi hP hq hstep =>
      ⟨by
        obtain ⟨x, rest, hQ⟩ := List.exists_cons_of_ne_nil hq
        obtain ⟨st'', e1, _, e3, _⟩ := reduce_step_spec hw unbounded_cap true hi x rest hQ
        rw [e1] at hstep
        rw [← Except.ok.inj hstep]
        exact sound_steps hw e3 hP.1,
       unit_pending_step hw unbounded_cap unbounded_cap_ne_zero h v hge hinc st st' hi hP.1
        hP.2 hq hstep⟩)
    (drain_fuel g) none _ hinv0 (measure_le_fuel hinv0) ⟨init_sound hw hne true [], hp0⟩
  have hQ : st.Q = [] := by
    rcases d6 with h | ⟨_, h⟩
    · exact h
    · exact absurd rfl h
  refine ⟨st, d1, hQ, ?_⟩
  have hmem : g.vid v ∈ st.always_in_solution := by
    rcases d3.2 with h1 | ⟨_, _, h3⟩
    · exact h1
    · rw [hQ] at h3
      exact absurd h3 (List.not_mem_nil _)
  have hf : ForcedInv g st :=
    forced_steps hw d4 ⟨[], rfl, List.nodup_nil, fun u hu => absurd hu (List.not_mem_nil _)⟩
  exact List.count_eq_one_of_mem (forced_nodup hw hid hf) hmem

/-- C8 at scenario S1 with a third hyperedge `{2}` added. -/
theorem unit_edge_vertex_is_forced_witness :
    (WellFormed (read_input_hs 3 [[1, 2], [2, 3], [2]]) ∧
      NonemptyHyperedges (read_input_hs 3 [[1, 2], [2, 3], [2]]) ∧
      (read_input_hs 3 [[1, 2], [2, 3], [2]]).vertex_to_original_id.Nodup ∧
      5 < (read_input_hs 3 [[1, 2], [2, 3], [2]]).num_objects ∧
      (read_input_hs 3 [[1, 2], [2, 3], [2]]).num_vertices ≤ 5 ∧
      (read_input_hs 3 [[1, 2], [2, 3], [2]]).inc 5 = [1]) ∧
    ∃ st, drain (read_input_hs 3 [[1, 2], [2, 3], [2]]) unbounded_cap true
        (drain_fuel (read_input_hs 3 [[1, 2], [2, 3], [2]])) none
        (init_engine (read_input_hs 3 [[1, 2], [2, 3], [2]]) []) = .ok st ∧
      st.Q = [] ∧
      st.always_in_solution.count ((read_input_hs 3 [[1, 2], [2, 3], [2]]).vid 1) = 1 :=
  ⟨by decide, unit_edge_vertex_is_forced (read_input_hs 3 [[1, 2], [2, 3], [2]]) (by decide)
    (by decide) (by decide) 5 1 (by decide) (by decide) (by decide)⟩

/-! ## Kernelization loses no optimality -/

theorem residual_take {g : Graph} (hw : WellFormed g) {st st' : Engine} (x u : Nat)
    (hx : g.num_vertices ≤ x) (hax : st.act x = true) (hu : u ∈ g.inc x)
    (huniq : ∀ v ∈ g.inc x, st.act v = true → v = u)
    (hact : ∀ i, st'.act i = (st.act i && decide (i ≠ u) && decide (i ∉ g.inc u)))
    (R : Finset Nat) (hR : Residual g st R) :
    u ∈ R ∧ Residual g st' (R.erase u) := by
  have hult := mem_inc_of_hyperedge hw hu hx
  obtain ⟨w, hw1, hw2⟩ := hR.2 x hx hax
  have hwu : w = u := huniq w hw1 (hR.1 w hw2).2
  subst hwu
  refine ⟨hw2, ?_, ?_⟩
  · intro v hv
    have hv' := Finset.mem_erase.1 hv
    have hvR := hR.1 v hv'.2
    refine ⟨hvR.1, ?_⟩
    have h2 : v ∉ g.inc w := fun hm => by
      have := (mem_inc_of_vertex hw hm hult).1
      omega
    rw [hact v, hvR.2]
    simp [hv'.1, h2]
  · intro h hge hah
    rw [hact h] at hah
    simp only [Bool.and_eq_true, decide_eq_true_eq] at hah
    obtain ⟨v, hv1, hv2⟩ := hR.2 h hge hah.1.1
    refine ⟨v, hv1, Finset.mem_erase.2 ⟨?_, hv2⟩⟩
    intro e
    exact hah.2 (e ▸ mem_inc_symm hw hv1)

theorem opt_move {g : Graph} (hw : WellFormed g) {st st' : Engine}
    (hm : Move g true st st') (ho : Opt g st) : Opt g st' := by
  intro C hC
  obtain ⟨R, hR, hcard⟩ := ho C hC
  cases hm with
  | idle hact hsol hforced =>
    refine ⟨R, ⟨?_, ?_⟩, by rw [hforced]; exact hcard⟩
    · intro v hv
      exact ⟨(hR.1 v hv).1, by rw [hact v]; exact (hR.1 v hv).2⟩
    · intro h hge hah
      rw [hact h] at hah
      exact hR.2 h hge hah
  | unit x u hx hax hu hau huniq hact hcommit =>
    obtain ⟨huR, hres⟩ := residual_take hw x u hx hax hu huniq hact R hR
    refine ⟨R.erase u, hres, ?_⟩
    unfold Commit at hcommit
    simp only [if_true] at hcommit
    rw [hcommit.1, List.length_append, List.length_singleton, Finset.card_erase_of_mem huR]
    have : 0 < R.card := Finset.card_pos.2 ⟨u, huR⟩
    omega
  | greedy w hw' haw hros hact hsol hforced => exact Bool.noConfusion hros
  | dom_vertex x y hx hy hax hay hne hdom hact hsol hforced =>
    by_cases hxR : x ∈ R
    · refine ⟨insert y (R.erase x), ⟨?_, ?_⟩, ?_⟩
      · intro v hv
        rcases Finset.mem_insert.1 hv with h | h
        · subst h
          refine ⟨hy, ?_⟩
          rw [hact v, hay]
          simp [Ne.symm hne]
        · have h' := Finset.mem_erase.1 h
          refine ⟨(hR.1 v h'.2).1, ?_⟩
          rw [hact v, (hR.1 v h'.2).2]
          simp [h'.1]
      · intro h hge hah
        rw [hact h, Bool.and_eq_true] at hah
        obtain ⟨v, hv1, hv2⟩ := hR.2 h hge hah.1
        by_cases hvx : v = x
        · subst hvx
          have := hdom h (mem_inc_symm hw hv1) hah.1
          exact ⟨y, mem_inc_symm hw this, Finset.mem_insert_self _ _⟩
        · exact ⟨v, hv1, Finset.mem_insert_of_mem (Finset.mem_erase.2 ⟨hvx, hv2⟩)⟩
      · rw [hforced]
        have h1 := Finset.card_insert_le y (R.erase x)
        have h2 := Finset.card_erase_of_mem hxR
        have h3 : 0 < R.card := Finset.card_pos.2 ⟨x, hxR⟩
        omega
    · refine ⟨R, ⟨?_, ?_⟩, by rw [hforced]; exact hcard⟩
      · intro v hv
        refine ⟨(hR.1 v hv).1, ?_⟩
        have : v ≠ x := fun e => hxR (e ▸ hv)
        rw [hact v, (hR.1 v hv).2]
        simp [this]
      · intro h hge hah
        rw [hact h, Bool.and_eq_true] at hah
        exact hR.2 h hge hah.1
  | dom_hyperedge x y hx hy hax hay hne hdom hnu hact hsol hforced =>
    refine ⟨R, ⟨?_, ?_⟩, by rw [hforced]; exact hcard⟩
    · intro v hv
      refine ⟨(hR.1 v hv).1, ?_⟩
      have : v ≠ y := by
        have := (hR.1 v hv).1
        omega
      rw [hact v, (hR.1 v hv).2]
      simp [this]
    · intro h hge hah
      rw [hact h, Bool.and_eq_true] at hah
      exact hR.2 h hge hah.1

theorem opt_steps {g : Graph} (hw : WellFormed g) {st st' : Engine}
    (hm : Steps g true st st') (ho : Opt g st) : Opt g st' := by
  induction hm with
  | refl => exact ho
  | tail _ hstep ih => exact opt_move hw hstep ih

theorem opt_init {g : Graph} (hw : WellFormed g) : Opt g (init_engine g []) := by
  intro C hC
  refine ⟨C, ⟨?_, ?_⟩, by simp [init_engine]⟩
  · intro v hv
    have := hC.1 v hv
    exact ⟨this, init_act g [] v (by have := hw.objects; omega)⟩
  · intro h hge hah
    have hlt : h < g.num_objects := by
      have := lt_length_of_getD_true _ _ hah
      simpa [init_engine] using this
    exact hC.2 h hlt hge

/-- Direction (B): a hitting set of the instance gives a hitting set of the
kernel that is smaller by the size of the forced set at least. -/
theorem kernel_cover_of_cover {g g' : Graph} {st : Engine}
    (hp : Pruned g st.active g') (ho : Opt g st) (C : Finset Nat) (hC : IsCover g C) :
    ∃ C', IsCover g' C' ∧ C'.card + st.always_in_solution.length ≤ C.card := by
  obtain ⟨R, hR, hcard⟩ := ho C hC
  refine ⟨R.image (new_index st.active), ⟨?_, ?_⟩, ?_⟩
  · intro c hc
    obtain ⟨v, hv, rfl⟩ := Finset.mem_image.1 hc
    rw [hp.num_vertices]
    exact new_vertex_lt st.active (hR.1 v hv).1 (hR.1 v hv).2
  · intro h' hlt hge
    rw [hp.num_objects] at hlt
    rw [hp.num_vertices] at hge
    obtain ⟨h, h1, h2, h3, rfl⟩ := old_hyperedge st.active hge hlt
    obtain ⟨v, hv, hvR⟩ := hR.2 h h1 h3
    refine ⟨new_index st.active v, ?_, Finset.mem_image_of_mem _ hvR⟩
    rw [hp.inc h h2 h3, mem_new_incidence]
    exact ⟨v, hv, (hR.1 v hvR).2, rfl⟩
  · have : (R.image (new_index st.active)).card ≤ R.card := Finset.card_image_le
    omega

/-- Direction (A): a hitting set of the kernel gives a hitting set of
the instance that is larger by the size of the forced set at most. -/
theorem cover_of_kernel_cover {g g' : Graph} (hw : WellFormed g)
    (hid : g.vertex_to_original_id.Nodup) {st : Engine}
    (hinv : EngineInv g (fun _ => False) st) (hs : Sound g true st) (hf : ForcedInv g st)
    (hp : Pruned g st.active g') (C' : Finset Nat) (hC' : IsCover g' C') :
    ∃ C, IsCover g C ∧ C.card ≤ st.always_in_solution.length + C'.card := by
  obtain ⟨U, hU, _, hin⟩ := hf
  refine ⟨U.toFinset ∪ (Finset.range g.num_vertices).filter
    (fun v => st.act v = true ∧ new_index st.active v ∈ C'), ⟨?_, ?_⟩, ?_⟩
  · intro v hv
    rcases Finset.mem_union.1 hv with h | h
    · exact (hin v (List.mem_toFinset.1 h)).1
    · exact Finset.mem_range.1 (Finset.mem_filter.1 h).1
  · intro h hlt hge
    rcases forced_or_active_witness hs h hlt hge with ⟨v, hv, hfv⟩ | ⟨h', hge', ha', hsub⟩
    · refine ⟨v, hv, Finset.mem_union_left _ (List.mem_toFinset.2 ?_)⟩
      rw [hU] at hfv
      obtain ⟨u, hu, huv⟩ := List.mem_map.1 hfv
      have := vid_injective hw hid (hin u hu).1 (mem_inc_of_hyperedge hw hv hge) huv
      rw [← this]
      exact hu
    · obtain ⟨v, hv, hav, hvlt, _, hCv, _⟩ :=
        pruned_hit hw hinv hp (fun c => c ∈ C') hC'.2 h' hge' ha'
      exact ⟨v, hsub v hv hav, Finset.mem_union_right _
        (Finset.mem_filter.2 ⟨Finset.mem_range.2 hvlt, hav, hCv⟩)⟩
  · have h1 := Finset.card_union_le U.toFinset ((Finset.range g.num_vertices).filter
      (fun v => st.act v = true ∧ new_index st.active v ∈ C'))
    have h2 := List.toFinset_card_le U
    have h3 : ((Finset.range g.num_vertices).filter
        (fun v => st.act v = true ∧ new_index st.active v ∈ C')).card ≤ C'.card := by
      apply Finset.card_le_card_of_injOn (new_index st.active)
      · intro v hv
        exact (Finset.mem_filter.1 (Finset.mem_coe.1 hv)).2.2
      · intro a ha b hb hab
        exact new_index_inj st.active (Finset.mem_filter.1 (Finset.mem_coe.1 ha)).2.1
          (Finset.mem_filter.1 (Finset.mem_coe.1 hb)).2.1 hab
    have h4 : st.always_in_solution.length = U.length := by rw [hU, List.length_map]
    omega

theorem min_cover_exists (g : Graph) (C : Finset Nat) (hC : IsCover g C) :
    ∃ m, MinCover g m := by
  classical
  have hex : ∃ m, ∃ C, IsCover g C ∧ C.card = m := ⟨C.card, C, hC, rfl⟩
  refine ⟨Nat.find hex, Nat.find_spec hex, ?_⟩
  intro D hD
  exact Nat.find_min' hex ⟨D, hD, rfl⟩

/-- C7. Kernelization loses no optimality: when the kernelizer completes on a
well-formed instance (hyperedges non-empty, original ids distinct, nothing forced
before) with kernel `gl'.graph` and forced set `gl'.always_in_solution`, the
kernel has a minimum hitting set size, and the minimum hitting set size of
the instance is the size of the forced set plus that of the kernel. -/
theorem kernelization_keeps_optimum (g : Graph) (gl' : Globals) (budget : Option Nat)
    (hw : WellFormed g) (hne : NonemptyHyperedges g) (hid : g.vertex_to_original_id.Nodup)
    (hk : fast_lazy_reductions (initial_globals g) budget = .ok gl') :
    (∃ m', MinCover gl'.graph m') ∧
    ∀ m', MinCover gl'.graph m' → MinCover g (gl'.always_in_solution.length + m') := by
  obtain ⟨st, _, k1, k2, k4, _, _, k6, k7, _⟩ :=
    fast_lazy_reductions_spec (initial_globals g) gl' budget hw hne hk
  have hopt : Opt g st := opt_steps hw k4 (opt_init hw)
  have hf : ForcedInv g st :=
    forced_steps hw k4 ⟨[], rfl, List.nodup_nil, fun u hu => absurd hu (List.not_mem_nil _)⟩
  have hB := kernel_cover_of_cover k6 hopt
  have hA := cover_of_kernel_cover hw hid k1 k2 hf k6
  constructor
  · have hall := kernel_hits_all_vertices hw k2 k6
    refine min_cover_exists gl'.graph (Finset.range gl'.graph.num_vertices) ⟨?_, ?_⟩
    · intro v hv
      exact Finset.mem_range.1 hv
    · intro h hlt hge
      obtain ⟨v, hv, hm⟩ := hall h hlt hge
      refine ⟨v, hv, Finset.mem_range.2 ?_⟩
      have := lt_length_of_getD_true _ _ hm
      simpa using this
  · intro m' hm'
    rw [k7]
    obtain ⟨⟨C', hC', hcard'⟩, hmin'⟩ := hm'
    have hlow : ∀ C, IsCover g C → st.always_in_solution.length + m' ≤ C.card := by
      intro C hC
      obtain ⟨D, hD, hDc⟩ := hB C hC
      have := hmin' D hD
      omega
    obtain ⟨C, hC, hCc⟩ := hA C' hC'
    have := hlow C hC
    exact ⟨⟨C, hC, by omega⟩, hlow⟩

/-- C7 at `pendant_triangle`, whose kernel is the triangle. -/
theorem kernelization_keeps_optimum_witness :
    (WellFormed pendant_triangle ∧ NonemptyHyperedges pendant_triangle ∧
      pendant_triangle.vertex_to_original_id.Nodup ∧
      fast_lazy_reductions (initial_globals pendant_triangle) none =
        .ok pendant_triangle_kernel) ∧
    ((∃ m', MinCover pendant_triangle_kernel.graph m') ∧
      ∀ m', MinCover pendant_triangle_kernel.graph m' →
        MinCover pendant_triangle (pendant_triangle_kernel.always_in_solution.length + m')) :=
  ⟨⟨by decide, by decide, by decide, rfl⟩,
    kernelization_keeps_optimum pendant_triangle pendant_triangle_kernel none (by decide)
      (by decide) (by decide) rfl⟩

/-! ## prune_inactive_objects: when it fails, and what it returns -/

theorem prune_object_last (nv : Nat) (active : List Bool) (ids : List Int) (s : PruneState)
    (m : Nat) :
    (prune_object nv active ids s m).last_new_vertex_id =
      if active.getD m false = true ∧ m < nv then ids.getD m (-1) else s.last_new_vertex_id := by
  unfold prune_object
  by_cases ha : active.getD m false = true
  · rw [if_pos ha]
    by_cases hv : m < nv
    · rw [if_pos hv, if_pos ⟨ha, hv⟩]
    · rw [if_neg hv, if_neg (fun h => hv h.2)]
  · rw [if_neg ha, if_neg (fun h => ha h.1)]

theorem prune_last_fold (nv N : Nat) (active : List Bool) (ids : List Int)
    (hids : ∀ i < N, active.getD i false = true → 0 ≤ ids.getD i (-1)) (s0 : PruneState)
    (h0 : s0.last_new_vertex_id = -1) :
    ∀ m ≤ N,
      (((List.range m).foldl (prune_object nv active ids) s0).last_new_vertex_id = -1 ↔
        ∀ i < m, i < nv → active.getD i false = false) := by
  intro m
  induction m with
  | zero =>
    intro _
    simp [h0]
  | succ m ih =>
    intro hm
    rw [List.range_succ, List.foldl_append]
    simp only [List.foldl_cons, List.foldl_nil]
    rw [prune_object_last]
    by_cases hc : active.getD m false = true ∧ m < nv
    · rw [if_pos hc]
      constructor
      · intro h
        have := hids m (by omega) hc.1
        omega
      · intro h
        have := h m (by omega) hc.2
        rw [hc.1] at this
        exact Bool.noConfusion this
    · rw [if_neg hc, ih (by omega)]
      constructor
      · intro h i hi hiv
        by_cases him : i = m
        · subst him
          by_contra hne
          exact hc ⟨by simpa using hne, hiv⟩
        · exact h i (by omega) hiv
      · intro h i hi hiv
        exact h i (by omega) hiv

/-- C12. For every activity vector of length num_objects, the call
prune_inactive_objects(active) fails, with an assertion, exactly when active[i] is
false for every vertex i; when some vertex is active it completes. -/
theorem prune_inactive_objects_fails_iff_no_vertex_active (g : Graph) (active : List Bool)
    (hlen : active.length = g.num_objects) :
    (prune_inactive_objects g active = .error .assertion ↔
      ∀ i < g.num_vertices, active.getD i false = false) ∧
    ((∃ i < g.num_vertices, active.getD i false = true) →
      ∃ g', prune_inactive_objects g active = .ok g') := by
  obtain ⟨_, _, i3⟩ := assign_new_ids_spec active g.num_objects
  have hfold := prune_last_fold g.num_vertices g.num_objects active
    (assign_new_ids active g.num_objects).2
    (fun i hi ha => by rw [(i3 i hi ha).2]; exact Int.natCast_nonneg _)
    { incidence := g.incidence, vertex_to_original_id := g.vertex_to_original_id,
      last_new_vertex_id := -1 } rfl g.num_objects (Nat.le_refl _)
  have hall : (∀ i < g.num_objects, i < g.num_vertices → active.getD i false = false) ↔
      ∀ i < g.num_vertices, active.getD i false = false := by
    constructor
    · intro h i hi
      by_cases hN : i < g.num_objects
      · exact h i hN hi
      · exact getD_of_length_le _ _ _ (by omega)
    · intro h i _ hi
      exact h i hi
  rw [hall] at hfold
  unfold prune_inactive_objects
  rw [if_neg (by simp [hlen])]
  simp only
  constructor
  · constructor
    · intro h
      by_contra hne
      rw [if_neg (fun e => hne (hfold.1 e))] at h
      exact Except.noConfusion h
    · intro h
      rw [if_pos (hfold.2 h)]
  · rintro ⟨i, hi, ha⟩
    rw [if_neg]
    · exact ⟨_, rfl⟩
    · intro e
      have := hfold.1 e i hi
      rw [ha] at this
      exact Bool.noConfusion this

theorem prune_inactive_objects_fails_iff_no_vertex_active_witness :
    [false, false, false, true, true].length = scenario_S1.num_objects ∧
    ((prune_inactive_objects scenario_S1 [false, false, false, true, true] = .error .assertion ↔
      ∀ i < scenario_S1.num_vertices,
        [false, false, false, true, true].getD i false = false) ∧
    ((∃ i < scenario_S1.num_vertices, [false, false, false, true, true].getD i false = true) →
      ∃ g', prune_inactive_objects scenario_S1 [false, false, false, true, true] = .ok g')) :=
  ⟨by decide,
    prune_inactive_objects_fails_iff_no_vertex_active scenario_S1
      [false, false, false, true, true] (by decide)⟩

/-! ## The compaction is a well-formed graph -/

theorem new_index_length (active : List Bool) {n : Nat} (h : active.length ≤ n) :
    new_index active n = active.count true := by
  unfold new_index
  rw [List.take_of_length_le h]

theorem new_incidence_sorted {g : Graph} (hw : WellFormed g) (active : List Bool) (i : Nat) :
    (new_incidence g active i).Sorted (· < ·) := by
  unfold new_incidence
  have h1 : ((g.inc i).filter (fun j => active.getD j false)).Pairwise (· < ·) :=
    List.Pairwise.sublist (List.filter_sublist _) (inc_sorted hw i)
  show List.Pairwise _ _
  rw [List.pairwise_map]
  refine List.Pairwise.imp_of_mem ?_ h1
  intro a b ha _ hab
  rw [List.mem_filter] at ha
  exact new_index_lt active hab ha.2

theorem new_index_lt_iff (active : List Bool) {i n : Nat} (ha : active.getD i false = true) :
    new_index active i < new_index active n ↔ i < n := by
  constructor
  · intro h
    by_contra hn
    have := new_index_mono active (Nat.le_of_not_lt hn)
    omega
  · intro h
    exact new_index_lt active h ha

/-- The compaction of a well-formed graph is well-formed. -/
theorem pruned_well_formed {g g' : Graph} (hw : WellFormed g) (active : List Bool)
    (hp : Pruned g active g') : WellFormed g' := by
  have hmono : new_index active g.num_vertices ≤ new_index active g.num_objects :=
    new_index_mono active (by have := hw.objects; omega)
  have hold : ∀ i', i' < g'.num_objects →
      ∃ i < g.num_objects, active.getD i false = true ∧ new_index active i = i' ∧
        g'.inc i' = new_incidence g active i := by
    intro i' hi'
    rw [hp.num_objects] at hi'
    obtain ⟨i, hi, ha, he⟩ := new_index_surj active _ _ hi'
    exact ⟨i, hi, ha, he, he ▸ hp.inc i hi ha⟩
  refine ⟨?_, hp.inc_len, hp.vid_len, ?_, ?_, ?_⟩
  · rw [hp.num_hyperedges, hp.num_objects, hp.num_vertices]
    omega
  · intro i' hi' j' hj'
    obtain ⟨i, hi, ha, he, hinc⟩ := hold i' hi'
    rw [hinc, mem_new_incidence] at hj'
    obtain ⟨j, hj, haj, hej⟩ := hj'
    have hb := hw.bipartite i hi j hj
    rw [hp.num_objects, hp.num_vertices, ← he, ← hej]
    refine ⟨new_index_lt active hb.1 haj, ?_⟩
    rw [new_index_lt_iff active ha, hb.2]
    constructor
    · exact fun h => new_index_mono active h
    · intro h
      by_contra hn
      have := new_index_lt active (Nat.lt_of_not_le hn) haj
      omega
  · intro i' hi'
    obtain ⟨i, _, _, _, hinc⟩ := hold i' hi'
    rw [hinc]
    exact new_incidence_sorted hw active i
  · intro i' hi' j' hj'
    obtain ⟨i, hi, ha, he, hinc⟩ := hold i' hi'
    rw [hinc, mem_new_incidence] at hj'
    obtain ⟨j, hj, haj, hej⟩ := hj'
    have hjlt := (hw.bipartite i hi j hj).1
    rw [← hej, hp.inc j hjlt haj, mem_new_incidence]
    exact ⟨i, mem_inc_symm hw hj, ha, he⟩

/-- C16. Compaction is the induced subgraph under the order-preserving renumbering
new(i) = number of active objects below i: on a well-formed graph and an activity
vector (of length num_objects) with an active vertex, prune_inactive_objects
returns a graph whose num_vertices is the number of active vertices, whose
num_objects is the number of active objects, in which incidence[new(i)] is the
list of new(j) for the active j of the old incidence[i] in the old order and
vertex_to_original_id[new(v)] is the old vertex_to_original_id[v], for all active
i and active vertices v; and this graph is well-formed (vertices in the low index range,
lists inside the index space, strictly increasing, symmetric). -/
theorem prune_inactive_objects_is_induced_subgraph (g : Graph) (active : List Bool)
    (hw : WellFormed g) (hlen : active.length = g.num_objects)
    (hv : ∃ v < g.num_vertices, active.getD v false = true) :
    ∃ g', prune_inactive_objects g active = .ok g' ∧
      g'.num_vertices = (active.take g.num_vertices).count true ∧
      g'.num_objects = active.count true ∧
      g'.num_hyperedges = g'.num_objects - g'.num_vertices ∧
      (∀ i < g.num_objects, active.getD i false = true →
        g'.inc ((active.take i).count true) =
          ((g.inc i).filter (fun j => active.getD j false)).map
            (fun j => (active.take j).count true)) ∧
      (∀ v < g.num_vertices, active.getD v false = true →
        g'.vid ((active.take v).count true) = g.vid v) ∧
      WellFormed g' := by
  obtain ⟨v, hvlt, hva⟩ := hv
  have hne : new_index active g.num_vertices ≠ 0 := by
    have := new_index_lt active hvlt hva
    omega
  obtain ⟨g', h1, h2⟩ := (prune_inactive_objects_spec hw active hlen).2 hne
  refine ⟨g', h1, h2.num_vertices, ?_, h2.num_hyperedges, h2.inc, h2.vid,
    pruned_well_formed hw active h2⟩
  rw [h2.num_objects]
  exact new_index_length active (by omega)

theorem prune_inactive_objects_is_induced_subgraph_witness :
    (WellFormed pendant_triangle ∧
      [true, true, true, false, true, true, true].length = pendant_triangle.num_objects ∧
      ∃ v < pendant_triangle.num_vertices,
        [true, true, true, false, true, true, true].getD v false = true) ∧
    ∃ g', prune_inactive_objects pendant_triangle [true, true, true, false, true, true, true] =
        .ok g' ∧
      g'.num_vertices =
        (([true, true, true, false, true, true, true] : List Bool).take
          pendant_triangle.num_vertices).count true ∧
      g'.num_objects = ([true, true, true, false, true, true, true] : List Bool).count true ∧
      g'.num_hyperedges = g'.num_objects - g'.num_vertices ∧
      (∀ i < pendant_triangle.num_objects,
        [true, true, true, false, true, true, true].getD i false = true →
        g'.inc ((([true, true, true, false, true, true, true] : List Bool).take i).count true) =
          ((pendant_triangle.inc i).filter
            (fun j => [true, true, true, false, true, true, true].getD j false)).map
            (fun j => (([true, true, true, false, true, true, true] : List Bool).take j).count
              true)) ∧
      (∀ v < pendant_triangle.num_vertices,
        [true, true, true, false, true, true, true].getD v false = true →
        g'.vid ((([true, true, true, false, true, true, true] : List Bool).take v).count true) =
          pendant_triangle.vid v) ∧
      WellFormed g' :=
  ⟨⟨by decide, by decide, ⟨0, by decide, by decide⟩⟩,
    prune_inactive_objects_is_induced_subgraph pendant_triangle
      [true, true, true, false, true, true, true] (by decide) (by decide)
      ⟨0, by decide, by decide⟩⟩

/-! ## The priority schedule: completeness and order -/

theorem sweep_zero (degree : List Int) (i : Nat) (PQ : List (Int × Int)) :
    sweep degree 0 i PQ = if i < PQ.length then .error .out_of_fuel else .ok PQ := rfl

/-- The loop that extends the schedule only appends, and what it appends keeps
the part behind `pre` in the order of growing requirement. -/
theorem sweep_order (degree : List Int) (P : Int × Int → Prop)
    (hP : ∀ e, P e → P (e.1 + 1, e.2)) (pre : List (Int × Int)) :
    ∀ (fuel : Nat) (done todo L : List (Int × Int)),
      sweep degree fuel (pre ++ done).length (pre ++ done ++ todo) = .ok L →
      (∀ e ∈ done ++ todo, P e) →
      (done ++ todo).Pairwise (fun a b => a.1 ≤ b.1) →
      (∀ e ∈ done ++ todo, ∀ t ∈ todo, e.1 ≤ t.1 + 1) →
      ∃ M, L = pre ++ M ∧ (∀ e ∈ M, P e) ∧ M.Pairwise (fun a b => a.1 ≤ b.1) := by
  intro fuel
  induction fuel with
  | zero =>
    intro done todo L hL hp hs _
    cases todo with
    | nil =>
      rw [sweep_zero, if_neg (by simp)] at hL
      have : L = pre ++ done := by
        simpa using (Except.ok.inj hL).symm
      exact ⟨done, this, by simpa using hp, by simpa using hs⟩
    | cons e tail =>
      rw [sweep_zero, if_pos (by simp)] at hL
      exact Except.noConfusion hL
  | succ fuel ih =>
    intro done todo L hL hp hs hb
    cases todo with
    | nil =>
      rw [sweep_succ, if_neg (by simp)] at hL
      have : L = pre ++ done := by
        simpa using (Except.ok.inj hL).symm
      exact ⟨done, this, by simpa using hp, by simpa using hs⟩
    | cons e tail =>
      rw [sweep_succ, if_pos (by simp), getD_append_cons] at hL
      have hlen : (pre ++ done).length + 1 = (pre ++ (done ++ [e])).length := by
        simp only [List.length_append, List.length_singleton]
        omega
      have hsplit : done ++ e :: tail = (done ++ [e]) ++ tail := by simp
      by_cases hge : e.1 ≥ degree.getD e.2.toNat 0
      · rw [if_pos hge, hlen,
          show pre ++ done ++ e :: tail = pre ++ (done ++ [e]) ++ tail by simp] at hL
        refine ih (done ++ [e]) tail L hL ?_ ?_ ?_
        · rw [← hsplit]; exact hp
        · rw [← hsplit]; exact hs
        · intro a ha t ht
          rw [← hsplit] at ha
          exact hb a ha t (List.mem_cons_of_mem _ ht)
      · rw [if_neg hge, hlen,
          show pre ++ done ++ e :: tail ++ [(e.1 + 1, e.2)] =
            pre ++ (done ++ [e]) ++ (tail ++ [(e.1 + 1, e.2)]) by simp] at hL
        have hsplit2 : done ++ [e] ++ (tail ++ [(e.1 + 1, e.2)]) =
            (done ++ e :: tail) ++ [(e.1 + 1, e.2)] := by simp
        have hle : ∀ t ∈ tail, e.1 ≤ t.1 := by
          intro t ht
          have h1 := (List.pairwise_append.1 hs).2.1
          exact List.rel_of_pairwise_cons h1 ht
        refine ih (done ++ [e]) (tail ++ [(e.1 + 1, e.2)]) L hL ?_ ?_ ?_
        · intro a ha
          rw [hsplit2] at ha
          rcases List.mem_append.1 ha with h | h
          · exact hp a h
          · rw [List.mem_singleton.1 h]
            exact hP e (hp e (by simp))
        · rw [hsplit2, List.pairwise_append]
          refine ⟨hs, List.pairwise_singleton _ _, ?_⟩
          intro a ha b hb'
          rw [List.mem_singleton.1 hb']
          exact hb a ha e (List.mem_cons_self _ _)
        · intro a ha t ht
          rw [hsplit2] at ha
          rcases List.mem_append.1 ha with h | h
          · rcases List.mem_append.1 ht with h' | h'
            · exact hb a h t (List.mem_cons_of_mem _ h')
            · rw [List.mem_singleton.1 h']
              have := hb a h e (List.mem_cons_self _ _)
              simp only
              omega
          · rw [List.mem_singleton.1 h]
            rcases List.mem_append.1 ht with h' | h'
            · have := hle t h'
              simp only
              omega
            · rw [List.mem_singleton.1 h']
              simp only
              omega

theorem add_level_order (g : Graph) (hint : Solution) (degree : List Int)
    (shuf : List (Int × Int) → List (Int × Int)) (level : Nat) (PQ L : List (Int × Int))
    (hperm : (shuf (level_block g hint level)).Perm (level_block g hint level))
    (hL : add_level g hint degree shuf level PQ = .ok L) :
    ∃ M, L = PQ ++ M ∧ (∀ e ∈ M, (if hinted hint e then 1 else 0) = level) ∧
      M.Pairwise (fun a b => a.1 ≤ b.1) := by
  have hmem : ∀ e ∈ shuf (level_block g hint level),
      ∃ v < g.num_vertices, (if hint.getD v false then 1 else 0) = level ∧ e = (1, (v : Int)) :=
    fun e he => (mem_level_block g hint level e).1 (hperm.mem_iff.1 he)
  unfold add_level at hL
  simp only at hL
  have hL' : sweep degree (sweep_fuel degree (shuf (level_block g hint level)))
      (PQ ++ []).length (PQ ++ [] ++ shuf (level_block g hint level)) = .ok L := by
    simpa using hL
  refine sweep_order degree (fun e => (if hinted hint e then 1 else 0) = level)
    (fun e he => he) PQ _ [] _ L hL' ?_ ?_ ?_
  · intro e he
    obtain ⟨v, _, hc, rfl⟩ := hmem e (by simpa using he)
    simpa [hinted] using hc
  · rw [List.nil_append]
    apply List.pairwise_of_forall_mem_list
    intro a ha b hb
    obtain ⟨_, _, _, rfl⟩ := hmem a ha
    obtain ⟨_, _, _, rfl⟩ := hmem b hb
    exact le_refl _
  · intro a ha t ht
    obtain ⟨_, _, _, rfl⟩ := hmem a (by simpa using ha)
    obtain ⟨_, _, _, rfl⟩ := hmem t ht
    simp

/-- C17. Schedule completeness: for every hint and every outcome of the shuffles,
the schedule that a non-kernel call builds from the initial degrees
(degree[v] = |incidence[v]|) holds the pair (k, v), exactly once, for every vertex v
and every k with 1 ≤ k ≤ max(1, |incidence[v]|), holds no other pair, and lists
the entries of each vertex in strictly decreasing order of k. -/
theorem schedule_holds_every_level_once (g : Graph) (hint : Solution) (F : List Nat)
    (shuffle : Nat → List (Int × Int) → List (Int × Int))
    (hle : g.num_vertices ≤ g.num_objects)
    (hshuf : ∀ level l, (shuffle level l).Perm l) :
    ∃ PQ, build_schedule g hint (init_engine g F).degree shuffle = .ok PQ ∧
      (∀ v < g.num_vertices, ∀ k : Int, 1 ≤ k → k ≤ max 1 ((g.inc v).length : Int) →
        PQ.countP (fun e => decide (e = (k, (v : Int)))) = 1) ∧
      (∀ e ∈ PQ, ∃ v < g.num_vertices, e.2 = (v : Int) ∧ 1 ≤ e.1 ∧
        e.1 ≤ max 1 ((g.inc v).length : Int)) ∧
      PQ.Pairwise (fun a b => a.2 = b.2 → b.1 < a.1) := by
  obtain ⟨PQ, h1, h2, h3, h4, h5⟩ :=
    build_schedule_spec g hint (init_engine g F).degree shuffle hshuf
  have hdeg : ∀ v < g.num_vertices,
      (init_engine g F).degree.getD v 0 = ((g.inc v).length : Int) :=
    fun v hv => init_deg g F v (by omega)
  have hnd : PQ.Nodup := by
    refine h3.imp ?_
    intro a b hab e
    subst e
    exact absurd (hab rfl) (lt_irrefl _)
  refine ⟨PQ, h1, ?_, ?_, h3⟩
  · intro v hv k hk1 hk2
    refine countP_eq_one _ (k, (v : Int)) PQ hnd ?_ (by simp) (fun b _ hb => by simpa using hb)
    by_cases hk : k ≤ 1
    · have : k = 1 := by omega
      subst this
      exact h4 v hv
    · refine h5 v hv k hk1 ?_
      rw [hdeg v hv]
      omega
  · intro e he
    obtain ⟨a, b, c, d⟩ := h2 e he
    refine ⟨e.2.toNat, by omega, by omega, a, ?_⟩
    rw [hdeg e.2.toNat (by omega)] at d
    omega

theorem schedule_holds_every_level_once_witness :
    (scenario_S1.num_vertices ≤ scenario_S1.num_objects ∧
      ∀ (level : Nat) (l : List (Int × Int)), ((fun _ (l : List (Int × Int)) => l.reverse) level l).Perm l) ∧
    ∃ PQ, build_schedule scenario_S1 [true, false, false] (init_engine scenario_S1 []).degree
        (fun _ (l : List (Int × Int)) => l.reverse) = .ok PQ ∧
      (∀ v < scenario_S1.num_vertices, ∀ k : Int, 1 ≤ k →
        k ≤ max 1 ((scenario_S1.inc v).length : Int) → PQ.countP (fun e => decide (e = (k, (v : Int)))) = 1) ∧
      (∀ e ∈ PQ, ∃ v < scenario_S1.num_vertices, e.2 = (v : Int) ∧ 1 ≤ e.1 ∧
        e.1 ≤ max 1 ((scenario_S1.inc v).length : Int)) ∧
      PQ.Pairwise (fun a b => a.2 = b.2 → b.1 < a.1) :=
  ⟨⟨by decide, fun _ l => List.reverse_perm l⟩,
    schedule_holds_every_level_once scenario_S1 [true, false, false] []
      (fun _ (l : List (Int × Int)) => l.reverse) (by decide) (fun _ l => List.reverse_perm l)⟩

/-- C18, counterexample. On the triangle (the kernel of `pendant_triangle`) with
the hint 1, 1, 0 and shuffles that change nothing, the schedule is
(2,1) (2,0) (1,1) (1,0) (2,2) (1,2): the required degree grows from 1 to 2 at the
fifth entry, and among the entries of required degree 2 the vertices 1 and 0,
rated 1, come before vertex 2, rated 0. -/
theorem schedule_order_fails :
    build_schedule pendant_triangle_kernel.graph [true, true, false]
        (init_engine pendant_triangle_kernel.graph []).degree (fun _ l => l) =
      .ok [(2, 1), (2, 0), (1, 1), (1, 0), (2, 2), (1, 2)] ∧
    ¬ [((2 : Int), (1 : Int)), (2, 0), (1, 1), (1, 0), (2, 2), (1, 2)].Pairwise
        (fun a b => b.1 ≤ a.1) ∧
    ¬ [((2 : Int), (1 : Int)), (2, 0), (1, 1), (1, 0), (2, 2), (1, 2)].Pairwise
        (fun a b => a.1 = b.1 →
          ¬ (hinted [true, true, false] a = true ∧ hinted [true, true, false] b = false)) ∧
    ¬ ScheduleOrder [true, true, false] [(2, 1), (2, 0), (1, 1), (1, 0), (2, 2), (1, 2)] := by
  refine ⟨rfl, by decide, by decide, by decide⟩

/-- C18, amended. For every graph, hint and outcome of the shuffles, the schedule
is built, all entries of vertices rated 1 by the hint come before all entries of
vertices rated 0, and among the entries of either kind the required degrees do
not grow from front to back. -/
theorem schedule_is_hint_first (g : Graph) (hint : Solution) (degree : List Int)
    (shuffle : Nat → List (Int × Int) → List (Int × Int))
    (hshuf : ∀ level l, (shuffle level l).Perm l) :
    ∃ PQ, build_schedule g hint degree shuffle = .ok PQ ∧ HintFirstOrder hint PQ := by
  obtain ⟨PQ, h1, _⟩ := build_schedule_spec g hint degree shuffle hshuf
  refine ⟨PQ, h1, ?_⟩
  unfold build_schedule at h1
  cases a1 : add_level g hint degree (shuffle 0) 0 [] with
  | error e =>
    rw [a1] at h1
    exact Except.noConfusion h1
  | ok L0 =>
    rw [a1] at h1
    simp only at h1
    cases b1 : add_level g hint degree (shuffle 1) 1 L0 with
    | error e =>
      rw [b1] at h1
      exact Except.noConfusion h1
    | ok L1 =>
      rw [b1] at h1
      simp only at h1
      have hPQ : PQ = L1.reverse := (Except.ok.inj h1).symm
      obtain ⟨M0, e0, p0, s0⟩ := add_level_order g hint degree (shuffle 0) 0 [] L0 (hshuf 0 _) a1
      obtain ⟨M1, e1, p1, s1⟩ := add_level_order g hint degree (shuffle 1) 1 L0 L1 (hshuf 1 _) b1
      rw [List.nil_append] at e0
      subst e0
      have q0 : ∀ e ∈ L0, hinted hint e = false := by
        intro e he
        have := p0 e he
        by_contra hne
        rw [if_pos (by simpa using hne)] at this
        omega
      have q1 : ∀ e ∈ M1, hinted hint e = true := by
        intro e he
        have := p1 e he
        by_contra hne
        rw [if_neg hne] at this
        omega
      rw [hPQ, e1, List.reverse_append]
      unfold HintFirstOrder
      rw [List.pairwise_append]
      refine ⟨?_, ?_, ?_⟩
      · rw [List.pairwise_reverse]
        refine s1.imp_of_mem ?_
        intro a b ha hb hab
        refine ⟨?_, fun _ => hab⟩
        rintro ⟨h, _⟩
        rw [q1 b hb] at h
        exact Bool.noConfusion h
      · rw [List.pairwise_reverse]
        refine s0.imp_of_mem ?_
        intro a b ha hb hab
        refine ⟨?_, fun _ => hab⟩
        rintro ⟨_, h⟩
        rw [q0 a ha] at h
        exact Bool.noConfusion h
      · intro a ha b hb
        rw [List.mem_reverse] at ha hb
        refine ⟨?_, ?_⟩
        · rintro ⟨h, _⟩
          rw [q1 a ha] at h
          exact Bool.noConfusion h
        · intro h
          rw [q1 a ha, q0 b hb] at h
          exact Bool.noConfusion h

theorem schedule_is_hint_first_witness :
    (∀ (level : Nat) (l : List (Int × Int)), ((fun _ (l : List (Int × Int)) => l.reverse) level l).Perm l) ∧
    ∃ PQ, build_schedule pendant_triangle_kernel.graph [true, true, false]
        (init_engine pendant_triangle_kernel.graph []).degree (fun _ (l : List (Int × Int)) => l.reverse) = .ok PQ ∧
      HintFirstOrder [true, true, false] PQ :=
  ⟨fun _ l => List.reverse_perm l,
    schedule_is_hint_first pendant_triangle_kernel.graph [true, true, false]
      (init_engine pendant_triangle_kernel.graph []).degree (fun _ (l : List (Int × Int)) => l.reverse)
      (fun _ l => List.reverse_perm l)⟩

/-! ## The points of a run satisfy the invariants -/

theorem dominate_cons (g : Graph) (x y : Nat) (rest : List Nat) (st : Engine) :
    dominate g x (y :: rest) st =
      if decide (x < g.num_vertices) ≠ decide (y < g.num_vertices) then .error .assertion
      else if x = y || !st.active.getD y false then dominate g x rest st
      else if st.degree.getD x 0 > st.degree.getD y 0 then dominate g x rest st
      else if x_is_subset_of_y g st x y then
        if (if x < g.num_vertices then x else y) = x then
          .ok (remove_dominated g st (if x < g.num_vertices then x else y))
        else dominate g x rest (remove_dominated g st (if x < g.num_vertices then x else y))
      else dominate g x rest st := rfl

theorem dominate_events_cons (g : Graph) (x y : Nat) (rest : List Nat) (st : Engine) :
    dominate_events g x (y :: rest) st =
      if decide (x < g.num_vertices) ≠ decide (y < g.num_vertices) then []
      else if x = y || !st.active.getD y false then dominate_events g x rest st
      else if st.degree.getD x 0 > st.degree.getD y 0 then dominate_events g x rest st
      else if x_is_subset_of_y g st x y then
        if (if x < g.num_vertices then x else y) = x then
          [.removal x y (remove_dominated g st (if x < g.num_vertices then x else y))]
        else
          .removal x y (remove_dominated g st (if x < g.num_vertices then x else y)) ::
            dominate_events g x rest
              (remove_dominated g st (if x < g.num_vertices then x else y))
      else dominate_events g x rest st := rfl

/-- Every point of the loop of the domination rule is the state in which the loop
ends on a front part of the candidates. -/
theorem dominate_events_prefix (g : Graph) (x : Nat) :
    ∀ (cands : List Nat) (st : Engine) (e : Event), e ∈ dominate_events g x cands st →
      ∃ pre suf y, cands = pre ++ suf ∧ dominate g x pre st = .ok e.state ∧
        e = .removal x y e.state := by
  intro cands
  induction cands with
  | nil =>
    intro st e he
    exact absurd he (List.not_mem_nil _)
  | cons y rest ih =>
    intro st e he
    rw [dominate_events_cons] at he
    by_cases h0 : decide (x < g.num_vertices) ≠ decide (y < g.num_vertices)
    · rw [if_pos h0] at he
      exact absurd he (List.not_mem_nil _)
    · rw [if_neg h0] at he
      by_cases h1 : (x = y || !st.active.getD y false) = true
      · rw [if_pos h1] at he
        obtain ⟨pre, suf, y', e1, e2, e3⟩ := ih st e he
        refine ⟨y :: pre, suf, y', by rw [e1]; rfl, ?_, e3⟩
        rw [dominate_cons, if_neg h0, if_pos h1]
        exact e2
      · rw [if_neg h1] at he
        by_cases h2 : st.degree.getD x 0 > st.degree.getD y 0
        · rw [if_pos h2] at he
          obtain ⟨pre, suf, y', e1, e2, e3⟩ := ih st e he
          refine ⟨y :: pre, suf, y', by rw [e1]; rfl, ?_, e3⟩
          rw [dominate_cons, if_neg h0, if_neg h1, if_pos h2]
          exact e2
        · rw [if_neg h2] at he
          by_cases h3 : x_is_subset_of_y g st x y = true
          · rw [if_pos h3] at he
            by_cases h4 : (if x < g.num_vertices then x else y) = x
            · rw [if_pos h4, List.mem_singleton] at he
              refine ⟨[y], rest, y, rfl, ?_, ?_⟩
              · rw [dominate_cons, if_neg h0, if_neg h1, if_neg h2, if_pos h3, if_pos h4, he]
                rfl
              · rw [he]
                rfl
            · rw [if_neg h4, List.mem_cons] at he
              rcases he with he | he
              · refine ⟨[y], rest, y, rfl, ?_, ?_⟩
                · rw [dominate_cons, if_neg h0, if_neg h1, if_neg h2, if_pos h3, if_neg h4, he]
                  rfl
                · rw [he]
                  rfl
              · obtain ⟨pre, suf, y', e1, e2, e3⟩ := ih _ e he
                refine ⟨y :: pre, suf, y', by rw [e1]; rfl, ?_, e3⟩
                rw [dominate_cons, if_neg h0, if_neg h1, if_neg h2, if_pos h3, if_neg h4]
                exact e2
          · rw [if_neg h3] at he
            obtain ⟨pre, suf, y', e1, e2, e3⟩ := ih st e he
            refine ⟨y :: pre, suf, y', by rw [e1]; rfl, ?_, e3⟩
            rw [dominate_cons, if_neg h0, if_neg h1, if_neg h2, if_neg h3]
            exact e2

theorem event_ok_of_state {g : Graph} {ros : Bool} {st0 : Engine} {PQ : List (Int × Int)}
    {e : Event} (hinv : EngineInv g (fun _ => False) e.state) (hs : Steps g ros st0 e.state)
    (hne : ∀ iter before st, e ≠ .selected iter before st) : EventOK g ros st0 PQ e :=
  ⟨hinv, hs, fun iter before st h => absurd h (hne iter before st)⟩

theorem reduce_events_ok {g : Graph} (hw : WellFormed g) (cap : Nat) (ros : Bool)
    (st0 : Engine) (PQ : List (Int × Int)) {st : Engine}
    (hinv : EngineInv g (fun _ => False) st) (hs : Steps g ros st0 st) :
    ∀ e ∈ reduce_events g cap ros st, EventOK g ros st0 PQ e := by
  intro e he
  cases hQ : st.Q with
  | nil =>
    unfold reduce_events at he
    rw [hQ] at he
    exact absurd he (List.not_mem_nil _)
  | cons x rest =>
    have henq : st.enqueued.getD x false = true :=
      (hinv.q_enq x).1 (by rw [hQ]; exact List.mem_cons_self _ _)
    obtain ⟨stp, hp⟩ : ∃ stp : Engine,
        stp = { st with Q := rest, enqueued := st.enqueued.set x false } := ⟨_, rfl⟩
    have hev : reduce_events g cap ros st =
        .popped x stp ::
          (if cap = 0 then []
           else if !stp.active.getD x false then []
           else if g.num_vertices ≤ x ∧ stp.degree.getD x 0 = 1 then
             unit_edge_events g ros x stp
           else dominate_events g x (collect_candidates g cap x) stp) := by
      subst hp
      unfold reduce_events
      rw [hQ]
      simp only [henq, if_true]
    rw [hev] at he
    have hinvp := pop_inv hinv x rest hQ stp hp
    have hidle : Move g ros st stp := by
      subst hp
      exact Move.idle (fun _ => rfl) rfl rfl
    have hsp : Steps g ros st0 stp := Relation.ReflTransGen.tail hs hidle
    rw [List.mem_cons] at he
    rcases he with he | he
    · subst he
      exact event_ok_of_state hinvp hsp (fun _ _ _ h => Event.noConfusion h)
    · by_cases h0 : cap = 0
      · rw [if_pos h0] at he
        exact absurd he (List.not_mem_nil _)
      · rw [if_neg h0] at he
        by_cases h1 : (!stp.active.getD x false) = true
        · rw [if_pos h1] at he
          exact absurd he (List.not_mem_nil _)
        · rw [if_neg h1] at he
          rw [Bool.not_eq_true', Bool.not_eq_false] at h1
          have hax : stp.act x = true := h1
          by_cases h2 : g.num_vertices ≤ x ∧ stp.degree.getD x 0 = 1
          · rw [if_pos h2] at he
            obtain ⟨st', u, e1, e2, e3, e4, e5, e6, e7, _⟩ :=
              unit_edge_rule_spec hw ros hinvp x h2.1 hax h2.2
            unfold unit_edge_events at he
            rw [e1] at he
            simp only [List.mem_singleton] at he
            subst he
            exact event_ok_of_state e2
              (Relation.ReflTransGen.tail hsp (Move.unit x u h2.1 hax e3 e4 e5 e6 e7))
              (fun _ _ _ h => Event.noConfusion h)
          · rw [if_neg h2] at he
            obtain ⟨pre, suf, y, c1, c2, c3⟩ := dominate_events_prefix g x _ stp e he
            obtain ⟨st', d1, d2, d3, _⟩ := dominate_spec hw ros x pre stp hinvp hax
              (fun hk hd => h2 ⟨hk, hd⟩) (by
                intro y' hy'
                have hy : y' ∈ collect_candidates g cap x := by
                  rw [c1]
                  exact List.mem_append_left _ hy'
                obtain ⟨z, hz, hyz⟩ := mem_collect_candidates g cap x y' hy
                exact same_kind_of_two_steps hw hz hyz)
            rw [c2] at d1
            have hst : e.state = st' := Except.ok.inj d1
            refine event_ok_of_state (hst ▸ d2)
              (Relation.ReflTransGen.trans hsp (hst ▸ d3)) ?_
            intro _ _ _ h
            rw [c3] at h
            exact Event.noConfusion h

theorem drain_events_ok {g : Graph} (hw : WellFormed g) (cap : Nat) (ros : Bool)
    (st0 : Engine) (PQ : List (Int × Int)) :
    ∀ (fuel : Nat) (budget : Option Nat) (st : Engine), EngineInv g (fun _ => False) st →
      Steps g ros st0 st →
      ∀ e ∈ drain_events g cap ros fuel budget st, EventOK g ros st0 PQ e := by
  have hdr : ∀ st : Engine, EngineInv g (fun _ => False) st → Steps g ros st0 st →
      EventOK g ros st0 PQ (.drained st) :=
    fun st hinv hs => event_ok_of_state hinv hs (fun _ _ _ h => Event.noConfusion h)
  intro fuel
  induction fuel with
  | zero =>
    intro budget st hinv hs e he
    unfold drain_events at he
    split_ifs at he
    · rw [List.mem_singleton.1 he]
      exact hdr st hinv hs
    · rw [List.mem_singleton.1 he]
      exact hdr st hinv hs
    · exact absurd he (List.not_mem_nil _)
  | succ fuel ih =>
    intro budget st hinv hs e he
    unfold drain_events at he
    split_ifs at he with hq hb
    · rw [List.mem_singleton.1 he]
      exact hdr st hinv hs
    · rw [List.mem_singleton.1 he]
      exact hdr st hinv hs
    · rw [List.mem_append] at he
      rcases he with he | he
      · exact reduce_events_ok hw cap ros st0 PQ hinv hs e he
      · cases hQ : st.Q with
        | nil => simp [hQ] at hq
        | cons x rest =>
          obtain ⟨st1, e1, e2, e3, _⟩ := reduce_step_spec hw cap ros hinv x rest hQ
          rw [e1] at he
          exact ih _ st1 e2 (Relation.ReflTransGen.trans hs e3) e he

theorem schedule_events_ok {g : Graph} (hw : WellFormed g) (cap : Nat) (ros : Bool)
    (budget : Option Nat) (st0 : Engine) (PQ : List (Int × Int))
    (hvalid : ros = false → ∀ e ∈ PQ, 0 ≤ e.2 ∧ e.2 < (g.num_vertices : Int)) :
    ∀ (rest : List (Int × Int)) (st : Engine), (∀ e ∈ rest, e ∈ PQ) →
      EngineInv g (fun _ => False) st → Steps g ros st0 st →
      ∀ e ∈ schedule_events g cap ros budget rest st, EventOK g ros st0 PQ e := by
  intro rest
  induction rest with
  | nil =>
    intro st _ _ _ e he
    exact absurd he (List.not_mem_nil _)
  | cons iter rest ih =>
    intro st hsub hinv hs e he
    have hrest : ∀ e ∈ rest, e ∈ PQ := fun e h => hsub e (List.mem_cons_of_mem _ h)
    unfold schedule_events at he
    rw [List.mem_append] at he
    rcases he with he | he
    · exact drain_events_ok hw cap ros st0 PQ _ budget st hinv hs e he
    · obtain ⟨st1, d1, d2, _, d4, _⟩ := drain_spec hw cap ros (fun _ => True)
        (fun _ _ _ _ _ _ => trivial) (drain_fuel g) budget st hinv (measure_le_fuel hinv)
        trivial
      rw [d1] at he
      simp only at he
      have hs1 : Steps g ros st0 st1 := Relation.ReflTransGen.trans hs d4
      cases ros with
      | true =>
        simp only [if_true] at he
        exact absurd he (List.not_mem_nil _)
      | false =>
        simp only [Bool.false_eq_true, if_false] at he
        by_cases h1 : (!st1.active.getD iter.2.toNat false) = true
        · rw [if_pos h1] at he
          exact ih st1 hrest d2 hs1 e he
        · rw [if_neg h1] at he
          by_cases h2 : iter.1 ≠ st1.degree.getD iter.2.toNat 0
          · rw [if_pos h2] at he
            exact ih st1 hrest d2 hs1 e he
          · rw [if_neg h2] at he
            rw [Bool.not_eq_true', Bool.not_eq_false] at h1
            have hav : st1.act iter.2.toNat = true := h1
            have hv := hvalid rfl iter (hsub iter (List.mem_cons_self _ _))
            have hvlt : iter.2.toNat < g.num_vertices := by omega
            obtain ⟨c1, c2, c3, c4, _⟩ := greedy_choice_spec hw d2 iter.2.toNat hvlt hav
            have hs2 : Steps g false st0 (greedy_choice g iter.2.toNat st1) :=
              Relation.ReflTransGen.tail hs1
                (Move.greedy iter.2.toNat hvlt hav rfl c2 c3 c4)
            rw [List.mem_cons] at he
            rcases he with he | he
            · subst he
              refine ⟨c1, hs2, ?_⟩
              intro iter' before st' h
              injection h with a1 a2 a3
              subst a1 a2 a3
              exact ⟨hsub _ (List.mem_cons_self _ _), d2, hs1, hav, not_not.1 h2, rfl⟩
            · split_ifs at he
              · exact absurd he (List.not_mem_nil _)
              · exact ih _ hrest c1 hs2 e he

/-- Every point of a call of `greeduce` on a well-formed graph satisfies the
bookkeeping invariant and is reached from the initial state by rule applications;
in a non-kernel call the schedule is built and its entries are in range. -/
theorem greeduce_events_ok (gl : Globals) (hint : Solution) (cap : Nat) (ros : Bool)
    (shuffle : Nat → List (Int × Int) → List (Int × Int)) (budget : Option Nat)
    (hw : WellFormed gl.graph) (hshuf : ∀ level l, (shuffle level l).Perm l) :
    ∃ PQ, (ros = false → ∀ e ∈ PQ, 1 ≤ e.1 ∧ 0 ≤ e.2 ∧ e.2 < (gl.graph.num_vertices : Int)) ∧
      ∀ e ∈ greeduce_events gl hint cap ros shuffle budget,
        EventOK gl.graph ros (init_engine gl.graph gl.always_in_solution) PQ e := by
  have hinit := init_engine_inv hw gl.always_in_solution
  have hstart : ∀ PQ, EventOK gl.graph ros (init_engine gl.graph gl.always_in_solution) PQ
      (.start (init_engine gl.graph gl.always_in_solution)) :=
    fun PQ => event_ok_of_state hinit Relation.ReflTransGen.refl
      (fun _ _ _ h => Event.noConfusion h)
  cases ros with
  | true =>
    refine ⟨[(-1, -1)], fun h => Bool.noConfusion h, ?_⟩
    intro e he
    unfold greeduce_events at he
    simp only [if_true, List.mem_cons] at he
    rcases he with he | he
    · rw [he]
      exact hstart _
    · exact schedule_events_ok hw cap true budget _ _ (fun h => Bool.noConfusion h) _ _
        (fun e h => h) hinit Relation.ReflTransGen.refl e he
  | false =>
    obtain ⟨PQ, b1, b2, _⟩ := build_schedule_spec gl.graph hint
      (init_engine gl.graph gl.always_in_solution).degree shuffle hshuf
    have hv : ∀ e ∈ PQ, 1 ≤ e.1 ∧ 0 ≤ e.2 ∧ e.2 < (gl.graph.num_vertices : Int) :=
      fun e he => ⟨(b2 e he).1, (b2 e he).2.1, (b2 e he).2.2.1⟩
    refine ⟨PQ, fun _ => hv, ?_⟩
    intro e he
    unfold greeduce_events at he
    simp only [Bool.false_eq_true, if_false, b1, List.mem_cons] at he
    rcases he with he | he
    · rw [he]
      exact hstart _
    · exact schedule_events_ok hw cap false budget _ PQ
        (fun _ e he => ⟨(hv e he).2.1, (hv e he).2.2⟩) _ _
        (fun e h => h) hinit Relation.ReflTransGen.refl e he

/-! ## Degree coherence, positive degrees, greedy selections -/

theorem coherent_active_of_inv {g : Graph} {st : Engine}
    (hinv : EngineInv g (fun _ => False) st) : CoherentActive g st :=
  fun i hi ha => hinv.coherent i hi ha (fun h => h)

theorem active_count_pos_iff (g : Graph) (st : Engine) (i : Nat) :
    0 < active_count g st i ↔ ∃ j ∈ g.inc i, st.act j = true := by
  unfold active_count
  rw [List.countP_pos_iff]

/-- C13, counterexample. The kernelizing call on `p hs 4 4` with the lines
`1 2`, `2 3`, `1 3`, `4` reaches the end of its reduction loop with an
empty worklist and with degree[7] = 1, although hyperedge 7 has no active
neighbour: the unit-edge rule deactivated its vertex 3 without touching
degree[7]. The call then completes, with the triangle as kernel. -/
theorem degree_coherence_fails_for_inactive_objects :
    WellFormed triangle_and_unit ∧
    Event.drained triangle_and_unit_drained ∈
      greeduce_events (initial_globals triangle_and_unit) [] unbounded_cap true
        (fun _ l => l) none ∧
    triangle_and_unit_drained.Q = [] ∧
    triangle_and_unit_drained.deg 7 = 1 ∧
    active_count triangle_and_unit triangle_and_unit_drained 7 = 0 ∧
    ¬ CoherentEverywhere triangle_and_unit triangle_and_unit_drained ∧
    fast_lazy_reductions (initial_globals triangle_and_unit) none =
      .ok { pendant_triangle_kernel with always_in_solution := [4] } := by
  refine ⟨by decide, by decide, rfl, rfl, rfl, by decide, rfl⟩

/-- C14. Degree coherence for active objects: in every call of greeduce on a
well-formed graph, at every point between rule applications, so after every
unit-edge step, every single domination removal and every greedy selection, for
every object i with active[i] = true, degree[i] is the number of active j in
incidence[i]. Consequently whenever a popped hyperedge is active and has degree 1,
the search of the unit-edge rule finds its one active vertex: neither
assert(u == -1) nor assert(u != -1) fails and the rule returns. -/
theorem degree_coherent_for_active_objects (gl : Globals) (hint : Solution) (cap : Nat)
    (ros : Bool) (shuffle : Nat → List (Int × Int) → List (Int × Int)) (budget : Option Nat)
    (hw : WellFormed gl.graph) (hshuf : ∀ level l, (shuffle level l).Perm l) :
    (∀ e ∈ greeduce_events gl hint cap ros shuffle budget,
      ∀ i < gl.graph.num_objects, e.state.act i = true →
        e.state.deg i = (active_count gl.graph e.state i : Int)) ∧
    (∀ x st, Event.popped x st ∈ greeduce_events gl hint cap ros shuffle budget →
      gl.graph.num_vertices ≤ x → st.act x = true → st.deg x = 1 →
      ∃ u ∈ gl.graph.inc x, st.act u = true ∧
        (∀ v ∈ gl.graph.inc x, st.act v = true → v = u) ∧
        find_unit st.active (gl.graph.inc x) none = .ok (some u) ∧
        ∃ st', unit_edge_rule gl.graph ros x st = .ok st') := by
  obtain ⟨PQ, _, h⟩ := greeduce_events_ok gl hint cap ros shuffle budget hw hshuf
  constructor
  · intro e he
    exact coherent_active_of_inv (h e he).1
  · intro x st hx hge hax hdeg
    have hinv : EngineInv gl.graph (fun _ => False) st := (h _ hx).1
    have hc := hinv.coherent x (act_lt hinv hax) hax (fun h => h)
    rw [hdeg] at hc
    have hone : (gl.graph.inc x).countP (fun v => st.active.getD v false) = 1 := by
      have : active_count gl.graph st x = 1 := by exact_mod_cast hc.symm
      exact this
    obtain ⟨u, hu, hau, hf⟩ := find_unit_one st.active (gl.graph.inc x) hone
    obtain ⟨st', _, e1, _⟩ := unit_edge_rule_spec hw ros hinv x hge hax hdeg
    refine ⟨u, hu, hau, ?_, hf, st', e1⟩
    intro v hv hav
    exact countP_unique _ _ hone hv hav hu hau

theorem degree_coherent_for_active_objects_witness :
    (WellFormed (initial_globals triangle_and_unit).graph ∧
      (∀ (level : Nat) (l : List (Int × Int)), ((fun _ l => l) level l).Perm l) ∧
      Event.popped 7 triangle_and_unit_popped ∈
        greeduce_events (initial_globals triangle_and_unit) [] unbounded_cap true
          (fun _ l => l) none ∧
      (initial_globals triangle_and_unit).graph.num_vertices ≤ 7 ∧
      triangle_and_unit_popped.act 7 = true ∧ triangle_and_unit_popped.deg 7 = 1) ∧
    ((∀ i < (initial_globals triangle_and_unit).graph.num_objects,
        (Event.popped 7 triangle_and_unit_popped).state.act i = true →
        (Event.popped 7 triangle_and_unit_popped).state.deg i =
          (active_count (initial_globals triangle_and_unit).graph
            (Event.popped 7 triangle_and_unit_popped).state i : Int)) ∧
      ∃ u ∈ (initial_globals triangle_and_unit).graph.inc 7,
        triangle_and_unit_popped.act u = true ∧
        (∀ v ∈ (initial_globals triangle_and_unit).graph.inc 7,
          triangle_and_unit_popped.act v = true → v = u) ∧
        find_unit triangle_and_unit_popped.active
            ((initial_globals triangle_and_unit).graph.inc 7) none =
          .ok (some u) ∧
        ∃ st', unit_edge_rule (initial_globals triangle_and_unit).graph true 7
            triangle_and_unit_popped = .ok st') :=
  ⟨⟨by decide, fun _ l => List.Perm.refl l, by decide, by decide, rfl, rfl⟩,
    (degree_coherent_for_active_objects (initial_globals triangle_and_unit) [] unbounded_cap
      true (fun _ l => l) none (by decide) (fun _ l => List.Perm.refl l)).1
      (Event.popped 7 triangle_and_unit_popped) (by decide),
    (degree_coherent_for_active_objects (initial_globals triangle_and_unit) [] unbounded_cap
      true (fun _ l => l) none (by decide) (fun _ l => List.Perm.refl l)).2 7
      triangle_and_unit_popped (by decide) (by decide) rfl rfl⟩

/-- C15. Hyperedge degree stays positive: in every call of greeduce, kernelizing
or not, on a well-formed graph in which every hyperedge has a vertex, at every
point between rule applications every active hyperedge has an active vertex on
its list, and its degree is at least 1. -/
theorem active_hyperedge_has_positive_degree (gl : Globals) (hint : Solution) (cap : Nat)
    (ros : Bool) (shuffle : Nat → List (Int × Int) → List (Int × Int)) (budget : Option Nat)
    (hw : WellFormed gl.graph) (hne : NonemptyHyperedges gl.graph)
    (hshuf : ∀ level l, (shuffle level l).Perm l) (e : Event)
    (he : e ∈ greeduce_events gl hint cap ros shuffle budget) (h : Nat)
    (hge : gl.graph.num_vertices ≤ h) (hah : e.state.act h = true) :
    (∃ v ∈ gl.graph.inc h, e.state.act v = true) ∧ 1 ≤ e.state.deg h := by
  obtain ⟨PQ, _, hok⟩ := greeduce_events_ok gl hint cap ros shuffle budget hw hshuf
  obtain ⟨hinv, hsteps, _⟩ := hok e he
  have hs := sound_steps hw hsteps (init_sound hw hne ros gl.always_in_solution)
  have hpos := hs.positive h hge hah
  refine ⟨hpos, ?_⟩
  rw [hinv.coherent h (act_lt hinv hah) hah (fun h => h)]
  have := (active_count_pos_iff gl.graph e.state h).2 hpos
  omega

theorem active_hyperedge_has_positive_degree_witness :
    (WellFormed (initial_globals triangle_and_unit).graph ∧
      NonemptyHyperedges (initial_globals triangle_and_unit).graph ∧
      (∀ (level : Nat) (l : List (Int × Int)), ((fun _ l => l) level l).Perm l) ∧
      Event.popped 7 triangle_and_unit_popped ∈
        greeduce_events (initial_globals triangle_and_unit) [] unbounded_cap true
          (fun _ l => l) none ∧
      (initial_globals triangle_and_unit).graph.num_vertices ≤ 7 ∧
      (Event.popped 7 triangle_and_unit_popped).state.act 7 = true) ∧
    ((∃ v ∈ (initial_globals triangle_and_unit).graph.inc 7,
        (Event.popped 7 triangle_and_unit_popped).state.act v = true) ∧
      1 ≤ (Event.popped 7 triangle_and_unit_popped).state.deg 7) :=
  ⟨⟨by decide, by decide, fun _ l => List.Perm.refl l, by decide, by decide, rfl⟩,
    active_hyperedge_has_positive_degree (initial_globals triangle_and_unit) []
      unbounded_cap true (fun _ l => l) none (by decide) (by decide)
      (fun _ l => List.Perm.refl l) (Event.popped 7 triangle_and_unit_popped) (by decide) 7
      (by decide) rfl⟩

/-- C20. A greedy selection always enters the cover: in every non-kernel call of
greeduce on a well-formed graph, whenever a schedule entry (k, v) passes the test
at a state `before` (v is active and degree[v] = k), k is at least 1 and the
selection step, which ends in `st`, has set solution[v] = true, has deactivated
v and the active hyperedges on the list of v, whose number is k, and has
deactivated nothing else. -/
theorem greedy_selection_enters_the_cover (gl : Globals) (hint : Solution) (cap : Nat)
    (shuffle : Nat → List (Int × Int) → List (Int × Int)) (budget : Option Nat)
    (hw : WellFormed gl.graph) (hshuf : ∀ level l, (shuffle level l).Perm l)
    (iter : Int × Int) (before st : Engine)
    (hsel : Event.selected iter before st ∈
      greeduce_events gl hint cap false shuffle budget) :
    (1 ≤ iter.1 ∧ before.act iter.2.toNat = true ∧ before.deg iter.2.toNat = iter.1) ∧
    st.solution.getD iter.2.toNat false = true ∧
    st.act iter.2.toNat = false ∧
    (((gl.graph.inc iter.2.toNat).filter (fun h => before.act h)).length : Int) = iter.1 ∧
    (∀ h ∈ (gl.graph.inc iter.2.toNat).filter (fun h => before.act h),
      gl.graph.num_vertices ≤ h ∧ st.act h = false) ∧
    (∀ i, before.act i = true → st.act i = false →
      i = iter.2.toNat ∨ i ∈ (gl.graph.inc iter.2.toNat).filter (fun h => before.act h)) := by
  obtain ⟨PQ, hPQ, hok⟩ := greeduce_events_ok gl hint cap false shuffle budget hw hshuf
  obtain ⟨_, _, hs⟩ := hok _ hsel
  obtain ⟨hmem, hinv, _, hav, hdeg, hst⟩ := hs iter before st rfl
  have hv := hPQ rfl iter hmem
  have hvlt : iter.2.toNat < gl.graph.num_vertices := by omega
  obtain ⟨c1, c2, c3, _⟩ := greedy_choice_spec hw hinv iter.2.toNat hvlt hav
  rw [← hst] at c1 c2 c3
  have hcoh := hinv.coherent _ (act_lt hinv hav) hav (fun h => h)
  have hcount : (active_count gl.graph before iter.2.toNat : Int) = iter.1 := by
    rw [← hcoh, hdeg]
  have hex : ∃ h ∈ gl.graph.inc iter.2.toNat, before.act h = true := by
    rw [← active_count_pos_iff]
    omega
  refine ⟨⟨hv.1, hav, hdeg.symm⟩, ?_, ?_, ?_, ?_, ?_⟩
  · rw [c3, if_pos hex]
    exact getD_set_eq _ _ _ _ (by rw [hinv.sol_len]; exact hvlt)
  · rw [c2, hav]
    simp
  · rw [← hcount]
    unfold active_count
    rw [List.countP_eq_length_filter]
  · intro h hh
    rw [List.mem_filter] at hh
    refine ⟨(mem_inc_of_vertex hw hh.1 hvlt).1, ?_⟩
    rw [c2]
    simp [hh.1]
  · intro i hbi hsi
    rw [c2, hbi] at hsi
    by_cases h1 : i = iter.2.toNat
    · exact Or.inl h1
    · right
      rw [List.mem_filter]
      refine ⟨?_, hbi⟩
      by_contra h2
      simp [h1, h2] at hsi

theorem greedy_selection_enters_the_cover_witness :
    (WellFormed (init_best pendant_triangle_kernel).graph ∧
      (∀ (level : Nat) (l : List (Int × Int)), ((fun _ l => l) level l).Perm l) ∧
      Event.selected (2, 2) triangle_before_selection triangle_after_selection ∈
        greeduce_events (init_best pendant_triangle_kernel) [true, true, true] 0 false
          (fun _ l => l) none) ∧
    ((1 ≤ ((2 : Int), (2 : Int)).1 ∧
        triangle_before_selection.act ((2 : Int), (2 : Int)).2.toNat = true ∧
        triangle_before_selection.deg ((2 : Int), (2 : Int)).2.toNat =
          ((2 : Int), (2 : Int)).1) ∧
      triangle_after_selection.solution.getD ((2 : Int), (2 : Int)).2.toNat false = true ∧
      triangle_after_selection.act ((2 : Int), (2 : Int)).2.toNat = false ∧
      ((((init_best pendant_triangle_kernel).graph.inc ((2 : Int), (2 : Int)).2.toNat).filter
          (fun h => triangle_before_selection.act h)).length : Int) =
        ((2 : Int), (2 : Int)).1 ∧
      (∀ h ∈ ((init_best pendant_triangle_kernel).graph.inc
            ((2 : Int), (2 : Int)).2.toNat).filter
          (fun h => triangle_before_selection.act h),
        (init_best pendant_triangle_kernel).graph.num_vertices ≤ h ∧
          triangle_after_selection.act h = false) ∧
      (∀ i, triangle_before_selection.act i = true → triangle_after_selection.act i = false →
        i = ((2 : Int), (2 : Int)).2.toNat ∨
          i ∈ ((init_best pendant_triangle_kernel).graph.inc
              ((2 : Int), (2 : Int)).2.toNat).filter
            (fun h => triangle_before_selection.act h))) :=
  ⟨⟨by decide, fun _ l => List.Perm.refl l, by decide⟩,
    greedy_selection_enters_the_cover (init_best pendant_triangle_kernel) [true, true, true] 0
      (fun _ l => l) none (by decide) (fun _ l => List.Perm.refl l) (2, 2)
      triangle_before_selection triangle_after_selection (by decide)⟩

/-! ## The output of check_signal after kernelization -/

theorem solution_cost_eq (s : Solution) : solution_cost s = (s.count true : Int) := by
  unfold solution_cost
  have key : ∀ (l : List Bool) (acc : Int),
      l.foldl (fun sum x => sum + if x then 1 else 0) acc = acc + (l.count true : Int) := by
    intro l
    induction l with
    | nil => intro acc; simp
    | cons b t ih =>
      intro acc
      rw [List.foldl_cons, ih]
      cases b
      · simp
      · simp only [if_true, List.count_cons_self]
        push_cast
        omega
  rw [key]
  simp

theorem filter_range_succ (p : Nat → Bool) (m : Nat) :
    (List.range (m + 1)).filter p = (List.range m).filter p ++ if p m then [m] else [] := by
  rw [List.range_succ, List.filter_append]
  congr 1
  cases h : p m <;> simp [h]

theorem members_count (l : List Bool) :
    ((List.range l.length).filter (fun i => l.getD i false)).length = l.count true := by
  have key : ∀ m, ((List.range m).filter (fun i => l.getD i false)).length = new_index l m := by
    intro m
    induction m with
    | zero => simp [new_index_zero]
    | succ m ih =>
      rw [filter_range_succ, List.length_append, ih, new_index_succ]
      congr 1
      cases l.getD m false <;> simp
  rw [key, new_index_length l (Nat.le_refl _)]

theorem emitted_ids_eq (gl : Globals) (hlen : gl.best.length = gl.graph.num_vertices) :
    emitted_ids gl =
      some (((List.range gl.graph.num_vertices).filter (fun i => gl.best.getD i false)).map
        gl.graph.vid ++ gl.always_in_solution) := by
  have key : ∀ f : Option (List Nat) → Nat → Option (List Nat),
      (∀ ids i, i < gl.best.length →
        f (some ids) i = some (if gl.best.getD i false then ids ++ [gl.graph.vid i] else ids)) →
      ∀ m ≤ gl.best.length,
        (List.range m).foldl f (some []) =
          some (((List.range m).filter (fun i => gl.best.getD i false)).map gl.graph.vid) := by
    intro f hf m
    induction m with
    | zero => intro _; rfl
    | succ m ih =>
      intro hm
      rw [filter_range_succ, List.range_succ, List.foldl_append, ih (by omega)]
      simp only [List.foldl_cons, List.foldl_nil]
      rw [hf _ m (by omega)]
      cases gl.best.getD m false <;> simp
  unfold emitted_ids
  rw [← hlen, key _ ?_ _ (Nat.le_refl _)]
  · rfl
  · intro ids i hi
    have hget : gl.best.get? i = some (gl.best.getD i false) := by
      rw [List.get?_eq_getElem?, List.getD_eq_getElem?_getD, List.getElem?_eq_getElem hi]
      rfl
    simp only [hget]

/-- A non-kernel call of `greeduce` on a well-formed graph with non-empty
hyperedges returns; it leaves the graph and the forced set alone, and `best` is
either left alone or replaced by a vector of the right size with its cost. -/
theorem greeduce_search_spec (gl : Globals) (hint : Solution) (cap : Nat)
    (shuffle : Nat → List (Int × Int) → List (Int × Int)) (budget : Option Nat)
    (hw : WellFormed gl.graph) (hne : NonemptyHyperedges gl.graph)
    (hshuf : ∀ level l, (shuffle level l).Perm l) :
    ∃ gl', greeduce gl hint cap false shuffle budget = .ok gl' ∧ gl'.graph = gl.graph ∧
      gl'.always_in_solution = gl.always_in_solution ∧
      ((gl'.best = gl.best ∧ gl'.best_cost = gl.best_cost) ∨
        (gl'.best.length = gl.graph.num_vertices ∧
          gl'.best_cost = (gl'.best.count true : Int) ∧ gl'.best_cost < gl.best_cost ∧
          gl.graph.Hits (members gl'.best))) := by
  obtain ⟨st, s1, s2, s3, s4⟩ := greeduce_schedule_spec gl hint cap shuffle budget hw hne hshuf
  have hhits := hits_of_nah_zero s2 s3 s4
  obtain ⟨r, r1, r2, _, r4, _⟩ := remove_unnecessary_nodes_spec hw st.solution s2.sol_len hhits
  have hr : gl.graph.Hits (members r) := by
    intro h hlt hge
    have h1 := r4 h hlt hge
    unfold hit_count at h1
    obtain ⟨v, hv, hp⟩ := List.countP_pos_iff.1 (show 0 < _ from h1)
    exact ⟨v, hv, hp⟩
  unfold greeduce
  simp only [s1, Bool.false_eq_true, if_false, s4, ne_eq, not_true_eq_false, r1]
  by_cases hlt : solution_cost r < gl.best_cost
  · rw [if_pos hlt]
    exact ⟨_, rfl, rfl, rfl, Or.inr ⟨r2, solution_cost_eq r, hlt, hr⟩⟩
  · rw [if_neg hlt]
    exact ⟨_, rfl, rfl, rfl, Or.inl ⟨rfl, rfl⟩⟩

theorem search_loop_spec (g' : Graph) (F : List Nat) (hw : WellFormed g')
    (hne : NonemptyHyperedges g') :
    ∀ (draws : List Draws) (iter : Nat) (gl : Globals),
      (∀ d ∈ draws, ∀ level l, (d.shuffle level l).Perm l) →
      gl.graph = g' → gl.always_in_solution = F → gl.best.length = g'.num_vertices →
      gl.best_cost = (gl.best.count true : Int) →
      ∃ gl', search_loop iter draws gl = .ok gl' ∧ gl'.graph = g' ∧
        gl'.always_in_solution = F ∧ gl'.best.length = g'.num_vertices ∧
        gl'.best_cost = (gl'.best.count true : Int) := by
  intro draws
  induction draws with
  | nil =>
    intro iter gl _ h1 h2 h3 h4
    exact ⟨gl, rfl, h1, h2, h3, h4⟩
  | cons d rest ih =>
    intro iter gl hshuf h1 h2 h3 h4
    obtain ⟨gl1, e1, e2, e3, e4⟩ := greeduce_search_spec gl
      (if iter > 0 then mutate gl.best d.picks else gl.best) (min iter 1000000) d.shuffle none
      (h1 ▸ hw) (h1 ▸ hne) (hshuf d (List.mem_cons_self _ _))
    have hstep : search_iteration gl iter d.picks d.shuffle = .ok gl1 := e1
    have hb : gl1.best.length = g'.num_vertices ∧ gl1.best_cost = (gl1.best.count true : Int) := by
      rcases e4 with ⟨a, b⟩ | ⟨a, b, _⟩
      · rw [a, b]
        exact ⟨h3, h4⟩
      · rw [h1] at a
        exact ⟨a, b⟩
    obtain ⟨gl', f1, f2⟩ := ih (iter + 1) gl1
      (fun d' hd' => hshuf d' (List.mem_cons_of_mem _ hd')) (e2.trans h1) (e3.trans h2) hb.1 hb.2
    refine ⟨gl', ?_, f2⟩
    unfold search_loop
    rw [hstep]
    exact f1

/-- The kernel of a well-formed instance with non-empty hyperedges is a
well-formed instance with non-empty hyperedges, and the ids of its vertices
together with the forced ids are pairwise distinct. -/
theorem kernel_spec (g : Graph) (gl1 : Globals) (budget : Option Nat) (hw : WellFormed g)
    (hne : NonemptyHyperedges g) (hid : g.vertex_to_original_id.Nodup)
    (hk : fast_lazy_reductions (initial_globals g) budget = .ok gl1) :
    WellFormed gl1.graph ∧ NonemptyHyperedges gl1.graph ∧
      ((List.range gl1.graph.num_vertices).map gl1.graph.vid ++ gl1.always_in_solution).Nodup := by
  obtain ⟨st, _, k1, k2, k4, _, _, k6, k7, _⟩ :=
    fast_lazy_reductions_spec (initial_globals g) gl1 budget hw hne hk
  have hw' : WellFormed gl1.graph := pruned_well_formed hw st.active k6
  have hf : ForcedInv g st :=
    forced_steps hw k4 ⟨[], rfl, List.nodup_nil, fun u hu => absurd hu (List.not_mem_nil _)⟩
  have hold : ∀ c < gl1.graph.num_vertices,
      ∃ v < g.num_vertices, st.act v = true ∧ new_index st.active v = c ∧
        gl1.graph.vid c = g.vid v := by
    intro c hc
    rw [k6.num_vertices] at hc
    obtain ⟨v, hv, hav, he⟩ := new_index_surj st.active _ _ hc
    exact ⟨v, hv, hav, he, he ▸ k6.vid v hv hav⟩
  refine ⟨hw', ?_, ?_⟩
  · intro h hlt hge
    obtain ⟨v, hv, _⟩ := kernel_hits_all_vertices hw k2 k6 h hlt hge
    exact List.ne_nil_of_mem hv
  · rw [List.nodup_append]
    refine ⟨?_, ?_, ?_⟩
    · refine List.Nodup.map_on ?_ (List.nodup_range _)
      intro c hc d hd hcd
      obtain ⟨v, hv, _, e1, e2⟩ := hold c (List.mem_range.1 hc)
      obtain ⟨w, hw2, _, f1, f2⟩ := hold d (List.mem_range.1 hd)
      have : v = w := vid_injective hw hid hv hw2 (by rw [← e2, ← f2, hcd])
      rw [← e1, ← f1, this]
    · rw [k7]
      exact forced_nodup hw hid hf
    · intro id h1 h2
      obtain ⟨c, hc, rfl⟩ := List.mem_map.1 h1
      obtain ⟨v, hv, hav, _, e2⟩ := hold c (List.mem_range.1 hc)
      obtain ⟨U, hU, _, hin⟩ := hf
      rw [k7, hU] at h2
      obtain ⟨u, hu, huv⟩ := List.mem_map.1 h2
      have : u = v := vid_injective hw hid (hin u hu).1 hv (by rw [huv, e2])
      have hfalse := (hin u hu).2
      rw [this, hav] at hfalse
      exact Bool.noConfusion hfalse

/-- C11. Output consistency: when `read_input` has stored a well-formed instance
(hyperedges non-empty, original ids distinct) and the kernelizer has completed,
then after the initialisation of `best` and any number of iterations of the
search loop the globals are such that check_signal, on a signal or at the
deadline, prints best_cost + |always_in_solution| as first line, then the original
ids of the members of best in ascending internal index, then always_in_solution;
best_cost is the number of true entries of best, the number of ids printed equals
the first line, and the ids printed are pairwise distinct. -/
theorem check_signal_output_is_consistent (g : Graph) (budget : Option Nat)
    (draws : List Draws) (gl1 : Globals) (hw : WellFormed g) (hne : NonemptyHyperedges g)
    (hid : g.vertex_to_original_id.Nodup)
    (hk : fast_lazy_reductions (initial_globals g) budget = .ok gl1)
    (hshuf : ∀ d ∈ draws, ∀ level l, (d.shuffle level l).Perm l) :
    ∃ gl ids, solver_run g budget draws = .ok gl ∧
      ids = ((List.range gl.graph.num_vertices).filter (fun i => gl.best.getD i false)).map
          gl.graph.vid ++ gl.always_in_solution ∧
      check_signal true gl = some (gl.best_cost + gl.always_in_solution.length, some ids) ∧
      gl.best_cost = (gl.best.count true : Int) ∧
      (ids.length : Int) = gl.best_cost + gl.always_in_solution.length ∧
      ids.Nodup := by
  obtain ⟨hw', hne', hnd⟩ := kernel_spec g gl1 budget hw hne hid hk
  obtain ⟨gl, e1, e2, e3, e4, e5⟩ := search_loop_spec gl1.graph gl1.always_in_solution hw' hne'
    draws 0 (init_best gl1) hshuf rfl rfl (by simp [init_best]) (by simp [init_best])
  refine ⟨gl, _, ?_, rfl, ?_, e5, ?_, ?_⟩
  · unfold solver_run
    rw [hk]
    exact e1
  · unfold check_signal
    rw [if_pos rfl, emitted_ids_eq gl (by rw [e4, e2])]
  · rw [List.length_append, List.length_map, e2, ← e4, members_count, e5]
    push_cast
    rfl
  · rw [e2, e3]
    rw [List.nodup_append] at hnd ⊢
    refine ⟨?_, hnd.2.1, ?_⟩
    · exact List.Nodup.sublist (List.Sublist.map _ (List.filter_sublist _)) hnd.1
    · intro id h1 h2
      exact hnd.2.2 ((List.Sublist.map _ (List.filter_sublist _)).subset h1) h2

theorem check_signal_output_is_consistent_witness :
    (WellFormed pendant_triangle ∧ NonemptyHyperedges pendant_triangle ∧
      pendant_triangle.vertex_to_original_id.Nodup ∧
      fast_lazy_reductions (initial_globals pendant_triangle) none =
        .ok pendant_triangle_kernel ∧
      ∀ d ∈ [({ picks := [], shuffle := fun _ l => l } : Draws),
          { picks := [0, 2], shuffle := fun _ l => l.reverse }],
        ∀ level l, (d.shuffle level l).Perm l) ∧
    ∃ gl ids, solver_run pendant_triangle none
        [({ picks := [], shuffle := fun _ l => l } : Draws),
          { picks := [0, 2], shuffle := fun _ l => l.reverse }] = .ok gl ∧
      ids = ((List.range gl.graph.num_vertices).filter (fun i => gl.best.getD i false)).map
          gl.graph.vid ++ gl.always_in_solution ∧
      check_signal true gl = some (gl.best_cost + gl.always_in_solution.length, some ids) ∧
      gl.best_cost = (gl.best.count true : Int) ∧
      (ids.length : Int) = gl.best_cost + gl.always_in_solution.length ∧
      ids.Nodup :=
  ⟨⟨by decide, by decide, by decide, rfl, by
      intro d hd level l
      simp only [List.mem_cons, List.mem_singleton, List.not_mem_nil, or_false] at hd
      rcases hd with rfl | rfl
      · exact List.Perm.refl l
      · exact List.reverse_perm l⟩,
    check_signal_output_is_consistent pendant_triangle none _ pendant_triangle_kernel
      (by decide) (by decide) (by decide) rfl (by
        intro d hd level l
        simp only [List.mem_cons, List.mem_singleton, List.not_mem_nil, or_false] at hd
        rcases hd with rfl | rfl
        · exact List.Perm.refl l
        · exact List.reverse_perm l)⟩

/-! ## No reduction is missed: the candidates -/

theorem length_le_of_nodup_lt (l : List Nat) (N : Nat) (hn : l.Nodup) (hb : ∀ a ∈ l, a < N) :
    l.length ≤ N := by
  have := List.subperm_of_subset hn (fun a ha => List.mem_range.2 (hb a ha))
  simpa using this.length_le

theorem set_insert_sorted (a : Nat) :
    ∀ s : List Nat, s.Sorted (· < ·) → (set_insert s a).Sorted (· < ·) := by
  intro s
  induction s with
  | nil => intro _; simp [set_insert]
  | cons b s ih =>
    intro hs
    have hs' := List.sorted_cons.1 hs
    unfold set_insert
    by_cases h1 : a < b
    · rw [if_pos h1]
      refine List.sorted_cons.2 ⟨?_, hs⟩
      intro c hc
      rcases List.mem_cons.1 hc with h | h
      · rw [h]; exact h1
      · exact lt_trans h1 (hs'.1 c h)
    · rw [if_neg h1]
      by_cases h2 : a = b
      · rw [if_pos h2]
        exact hs
      · rw [if_neg h2]
        refine List.sorted_cons.2 ⟨?_, ih hs'.2⟩
        intro c hc
        rcases (mem_set_insert c a s).1 hc with h | h
        · rw [h]; omega
        · exact hs'.1 c h

theorem foldl_set_insert_sorted :
    ∀ (l s : List Nat), s.Sorted (· < ·) → (l.foldl set_insert s).Sorted (· < ·) := by
  intro l
  induction l with
  | nil => intro s hs; exact hs
  | cons a rest ih =>
    intro s hs
    rw [List.foldl_cons]
    exact ih _ (set_insert_sorted a s hs)

/-- With a cap of at least twice the number of objects no list is skipped by the
candidate discovery: every object that shares a neighbour with `x` is a candidate. -/
theorem collect_candidates_complete {g : Graph} (hw : WellFormed g) (cap : Nat)
    (hcap : 2 * g.num_objects ≤ cap) (x y : Nat) (h : SharesNeighbour g x y) :
    y ∈ collect_candidates g cap x := by
  obtain ⟨z, hz, hzy⟩ := h
  have hyz : y ∈ g.inc z := mem_inc_symm hw hzy
  unfold collect_candidates
  have key : ∀ (l c : List Nat), c.Sorted (· < ·) → (∀ a ∈ c, a < g.num_objects) →
      (y ∈ c ∨ ∃ z ∈ l, y ∈ g.inc z) →
      y ∈ l.foldl (fun candidates z =>
        if candidates.length + (g.inc z).length > cap then candidates
        else (g.inc z).foldl set_insert candidates) c := by
    intro l
    induction l with
    | nil =>
      intro c _ _ hy
      rcases hy with hy | ⟨z, hz, _⟩
      · exact hy
      · exact absurd hz (List.not_mem_nil _)
    | cons z' rest ih =>
      intro c hs hb hy
      rw [List.foldl_cons]
      have h1 : c.length ≤ g.num_objects :=
        length_le_of_nodup_lt c _ (List.Sorted.nodup hs) hb
      have h2 : (g.inc z').length ≤ g.num_objects :=
        length_le_of_nodup_lt _ _ (inc_nodup hw z') (fun a ha => (mem_inc_lt hw ha).2)
      rw [if_neg (by omega)]
      refine ih _ (foldl_set_insert_sorted _ _ hs) ?_ ?_
      · intro a ha
        rcases (mem_foldl_set_insert a _ _).1 ha with h | h
        · exact hb a h
        · exact (mem_inc_lt hw h).2
      · rcases hy with hy | ⟨z'', hz'', hy⟩
        · exact Or.inl ((mem_foldl_set_insert y _ _).2 (Or.inl hy))
        · rcases List.mem_cons.1 hz'' with h | h
          · subst h
            exact Or.inl ((mem_foldl_set_insert y _ _).2 (Or.inr hy))
          · exact Or.inr ⟨z'', h, hy⟩
  exact key _ _ List.sorted_nil (fun a ha => absurd ha (List.not_mem_nil _))
    (Or.inr ⟨z, hz, hyz⟩)

/-! ## No reduction is missed: the tests of the domination rule -/

theorem test_of_dominated {g : Graph} (hw : WellFormed g) (st : Engine) (x y : Nat)
    (h : Dominated g st x y) : x_is_subset_of_y g st x y = true := by
  unfold x_is_subset_of_y
  rw [List.all_eq_true]
  intro z hz
  by_cases haz : st.act z = true
  · have := (sorted_vector_contains_iff _ _ (inc_sorted hw y)).2 (h z hz haz)
    rw [this]
    simp
  · unfold Engine.act at haz
    rw [Bool.not_eq_true] at haz
    rw [haz]
    simp

theorem degree_le_of_dominated {g : Graph} (hw : WellFormed g) {st : Engine}
    (hinv : EngineInv g (fun _ => False) st) (x y : Nat) (hax : st.act x = true)
    (hay : st.act y = true) (h : Dominated g st x y) : st.deg x ≤ st.deg y := by
  rw [hinv.coherent x (act_lt hinv hax) hax (fun h => h),
    hinv.coherent y (act_lt hinv hay) hay (fun h => h)]
  unfold active_count
  rw [List.countP_eq_length_filter, List.countP_eq_length_filter]
  have hsub : ((g.inc x).filter (fun j => st.act j)).Subperm
      ((g.inc y).filter (fun j => st.act j)) := by
    apply List.subperm_of_subset ((inc_nodup hw x).filter _)
    intro z hz
    rw [List.mem_filter] at hz ⊢
    exact ⟨h z hz.1 hz.2, hz.2⟩
  exact_mod_cast hsub.length_le

/-! ## No reduction is missed: what the rules enqueue -/

theorem cover_loop_notifies {g : Graph} (hw : WellFormed g) {ex : Nat → Prop} :
    ∀ (l : List Nat) (st : Engine), EngineInv g ex st → (∀ h ∈ l, g.num_vertices ≤ h) →
      ∀ h ∈ l, st.act h = true → ∀ w ∈ g.inc h, st.act w = true →
        w ∈ (cover_loop g st l).Q := by
  intro l
  induction l with
  | nil =>
    intro st _ _ h hh
    exact absurd hh (List.not_mem_nil _)
  | cons h0 rest ih =>
    intro st hinv hl h hh hah w hw' haw
    have hh0 := hl h0 (List.mem_cons_self _ _)
    have hrest : ∀ h' ∈ rest, g.num_vertices ≤ h' :=
      fun h' hm => hl h' (List.mem_cons_of_mem _ hm)
    by_cases ha : st.act h0 = true
    · have hstep : cover_loop g st (h0 :: rest) =
          cover_loop g (deactivate_hyperedge g st h0) rest := by
        unfold Engine.act at ha
        simp only [cover_loop, List.foldl_cons, ha, if_true]
      rw [hstep]
      obtain ⟨d1, d2⟩ : EngineInv g ex (deactivate_hyperedge g st h0) ∧
          Deactivated g st h0 (deactivate_hyperedge g st h0) :=
        deactivate_spec hw hinv h0 ha (st.num_active_hyperedges - 1) (by rw [if_pos hh0])
      by_cases he : h = h0
      · subst he
        exact (cover_loop_spec hw rest _ d1 hrest).2.queue w
          ((d2.queue w).2 (Or.inr ⟨hw', haw⟩))
      · have hin : h ∈ rest := by
          rcases List.mem_cons.1 hh with h1 | h1
          · exact absurd h1 he
          · exact h1
        have hwlt := mem_inc_of_hyperedge hw hw' (hl h hh)
        refine ih _ d1 hrest h hin ?_ w hw' ?_
        · rw [d2.act h, hah]
          simp [he]
        · rw [d2.act w, haw]
          simp
          omega
    · have hstep : cover_loop g st (h0 :: rest) = cover_loop g st rest := by
        unfold Engine.act at ha
        simp only [cover_loop, List.foldl_cons, ha]
        rfl
      rw [hstep]
      have hin : h ∈ rest := by
        rcases List.mem_cons.1 hh with h1 | h1
        · rw [h1] at hah
          exact absurd hah ha
        · exact h1
      exact ih st hinv hrest h hin hah w hw' haw

/-- The state in which the loop over the hyperedges of a taken vertex `u` starts:
the bookkeeping invariant holds except for the degrees of the hyperedges of `u`. -/
theorem take_vertex_inv0 {g : Graph} (hw : WellFormed g) {st : Engine}
    (hinv : EngineInv g (fun _ => False) st) (u : Nat) (hu : u < g.num_vertices)
    (hau : st.act u = true) (S : Solution) (hS : S.length = g.num_vertices) (F : List Nat)
    (st0 : Engine)
    (h0 : st0 = { st with active := st.active.set u false, solution := S,
                          always_in_solution := F }) :
    EngineInv g (fun i => i ∈ g.inc u) st0 ∧
      (∀ i, st0.act i = (st.act i && decide (i ≠ u))) ∧ (∀ i, st0.deg i = st.deg i) := by
  have hact0 : ∀ i, st0.act i = (st.act i && decide (i ≠ u)) := by
    intro i
    rw [h0]
    exact act_set_false st u i st.num_active_hyperedges
  have hdeg0 : ∀ i, st0.deg i = st.deg i := by intro i; rw [h0]; rfl
  refine ⟨⟨by rw [h0]; simp [hinv.active_len], by rw [h0]; exact hinv.degree_len,
    by rw [h0]; exact hinv.enq_len, by rw [h0]; exact hS, by rw [h0]; exact hinv.q_nodup,
    by rw [h0]; exact hinv.q_enq, ?_, ?_⟩, hact0, hdeg0⟩
  · intro i hi hai hex
    rw [hact0 i, Bool.and_eq_true] at hai
    have hc := hinv.coherent i hi hai.1 (fun h => h)
    have := active_count_deactivate hw st st0 u i hau hact0
    rw [if_neg hex] at this
    rw [hdeg0 i, hc, this]
    simp
  · rw [h0]
    show st.num_active_hyperedges = _
    rw [hinv.nah]
    simp only
    rw [List.drop_set_of_lt _ _ hu]

theorem take_vertex_notifies {g : Graph} (hw : WellFormed g) {st : Engine}
    (hinv : EngineInv g (fun _ => False) st) (u : Nat) (hu : u < g.num_vertices)
    (hau : st.act u = true) (S : Solution) (hS : S.length = g.num_vertices) (F : List Nat)
    (st0 : Engine)
    (h0 : st0 = { st with active := st.active.set u false, solution := S,
                          always_in_solution := F }) :
    ∀ z, st.act z = true → (cover_loop g st0 (g.inc u)).act z = false →
      ∀ w ∈ g.inc z, (cover_loop g st0 (g.inc u)).act w = true →
        w ∈ (cover_loop g st0 (g.inc u)).Q := by
  obtain ⟨hinv0, hact0, _⟩ := take_vertex_inv0 hw hinv u hu hau S hS F st0 h0
  obtain ⟨_, t2, _⟩ := take_vertex_spec hw hinv u hu hau S hS F st0 h0
  intro z haz hz' w hwz haw
  rw [t2 w] at haw
  simp only [Bool.and_eq_true, decide_eq_true_eq] at haw
  rw [t2 z, haz] at hz'
  have hzu : z = u ∨ z ∈ g.inc u := by
    by_contra hc
    rw [not_or] at hc
    simp [hc.1, hc.2] at hz'
  rcases hzu with hzu | hzu
  · subst hzu
    exact absurd hwz haw.2
  · have hzne : z ≠ u := fun e => not_mem_inc_self hw u (e ▸ hzu)
    refine cover_loop_notifies hw (g.inc u) st0 hinv0
      (fun h hm => (mem_inc_of_vertex hw hm hu).1) z hzu ?_ w hwz ?_
    · rw [hact0 z, haz]
      simp [hzne]
    · rw [hact0 w, haw.1.1]
      simp [haw.1.2]

theorem unit_edge_rule_settles {g : Graph} (hw : WellFormed g) (ros : Bool) {st : Engine}
    (hinv : EngineInv g (fun _ => False) st) (x : Nat) (hx : g.num_vertices ≤ x)
    (hax : st.act x = true) (hdeg : st.deg x = 1) :
    ∃ st', unit_edge_rule g ros x st = .ok st' ∧ st'.act x = false ∧
      ∀ z, st.act z = true → st'.act z = false →
        ∀ w ∈ g.inc z, st'.act w = true → w ∈ st'.Q := by
  have hxlt := act_lt hinv hax
  have hc := hinv.coherent x hxlt hax (fun h => h)
  have hcount : (g.inc x).countP (fun v => st.active.getD v false) = 1 := by
    rw [hdeg] at hc
    unfold active_count Engine.act at hc
    omega
  obtain ⟨u, hu, hau, hf⟩ := find_unit_one st.active (g.inc x) hcount
  have hult := mem_inc_of_hyperedge hw hu hx
  have hxu : x ∈ g.inc u := mem_inc_symm hw hu
  unfold unit_edge_rule
  rw [hf]
  simp only
  cases ros with
  | true =>
    obtain ⟨_, t2, _⟩ := take_vertex_spec hw hinv u hult hau st.solution
      hinv.sol_len (st.always_in_solution ++ [g.vid u]) _ rfl
    refine ⟨_, rfl, ?_, take_vertex_notifies hw hinv u hult hau st.solution
      hinv.sol_len (st.always_in_solution ++ [g.vid u]) _ rfl⟩
    refine (t2 x).trans ?_
    simp [hxu]
  | false =>
    obtain ⟨_, t2, _⟩ := take_vertex_spec hw hinv u hult hau
      (st.solution.set u true) (by simp [hinv.sol_len]) st.always_in_solution _ rfl
    refine ⟨_, rfl, ?_, take_vertex_notifies hw hinv u hult hau
      (st.solution.set u true) (by simp [hinv.sol_len]) st.always_in_solution _ rfl⟩
    refine (t2 x).trans ?_
    simp [hxu]

/-- The loop of the domination rule for the popped `x`: whatever it deactivates
has its active neighbours in the worklist afterwards, the neighbours of `x` are
left as they are, and if `x` is still active then no candidate that is still
active dominated it. -/
theorem dominate_settles {g : Graph} (hw : WellFormed g) (x : Nat) :
    ∀ (cands : List Nat) (st : Engine), EngineInv g (fun _ => False) st → st.act x = true →
      (g.num_vertices ≤ x → st.deg x ≠ 1) →
      (∀ y ∈ cands, (x < g.num_vertices ↔ y < g.num_vertices)) →
      ∃ st', dominate g x cands st = .ok st' ∧ EngineInv g (fun _ => False) st' ∧
        (∀ i, st'.act i = true → st.act i = true) ∧ (∀ q ∈ st.Q, q ∈ st'.Q) ∧
        (∀ z, st.act z = true → st'.act z = false →
          ∀ w ∈ g.inc z, st'.act w = true → w ∈ st'.Q) ∧
        (∀ z ∈ g.inc x, st'.act z = st.act z) ∧
        (st'.act x = true → ∀ y ∈ cands, y ≠ x → st'.act y = true → ¬ Dominated g st x y) := by
  intro cands
  induction cands with
  | nil =>
    intro st hinv _ _ _
    refine ⟨st, rfl, hinv, fun _ h => h, fun _ h => h, ?_, fun _ _ => rfl, ?_⟩
    · intro z h1 h2
      rw [h1] at h2
      exact Bool.noConfusion h2
    · intro _ y hy
      exact absurd hy (List.not_mem_nil _)
  | cons y rest ih =>
    intro st hinv hax hnu hk
    have hky := hk y (List.mem_cons_self _ _)
    have hrest : ∀ y' ∈ rest, (x < g.num_vertices ↔ y' < g.num_vertices) :=
      fun y' h => hk y' (List.mem_cons_of_mem _ h)
    have hassert : ¬ (decide (x < g.num_vertices) ≠ decide (y < g.num_vertices)) := by
      simp only [ne_eq, decide_eq_decide, not_not]
      exact hky
    -- the candidate is passed over: it is `x`, inactive, or does not dominate `x`
    have hskip : dominate g x (y :: rest) st = dominate g x rest st →
        (y ≠ x → st.act y = true → ¬ Dominated g st x y) →
        ∃ st', dominate g x (y :: rest) st = .ok st' ∧ EngineInv g (fun _ => False) st' ∧
          (∀ i, st'.act i = true → st.act i = true) ∧ (∀ q ∈ st.Q, q ∈ st'.Q) ∧
          (∀ z, st.act z = true → st'.act z = false →
            ∀ w ∈ g.inc z, st'.act w = true → w ∈ st'.Q) ∧
          (∀ z ∈ g.inc x, st'.act z = st.act z) ∧
          (st'.act x = true → ∀ y' ∈ y :: rest, y' ≠ x → st'.act y' = true →
            ¬ Dominated g st x y') := by
      intro heq hnd
      obtain ⟨st', e1, e2, e3, e4, e5, e6, e7⟩ := ih st hinv hax hnu hrest
      refine ⟨st', heq.trans e1, e2, e3, e4, e5, e6, ?_⟩
      intro hx' y' hy' hne' hay'
      rcases List.mem_cons.1 hy' with h | h
      · subst h
        exact hnd hne' (e3 _ hay')
      · exact e7 hx' y' h hne' hay'
    by_cases h1 : (x = y || !st.active.getD y false) = true
    · apply hskip
      · rw [dominate_cons, if_neg hassert, if_pos h1]
      · intro hne hay
        simp only [Bool.or_eq_true, decide_eq_true_eq, Bool.not_eq_true'] at h1
        rcases h1 with h | h
        · exact absurd h.symm hne
        · unfold Engine.act at hay
          rw [hay] at h
          exact Bool.noConfusion h
    · by_cases h2 : st.degree.getD x 0 > st.degree.getD y 0
      · apply hskip
        · rw [dominate_cons, if_neg hassert, if_neg h1, if_pos h2]
        · intro _ hay hdom
          have := degree_le_of_dominated hw hinv x y hax hay hdom
          unfold Engine.deg at this
          omega
      · by_cases h3 : x_is_subset_of_y g st x y = true
        · simp only [Bool.or_eq_true, decide_eq_true_eq, Bool.not_eq_true', not_or,
            Bool.not_eq_false] at h1
          obtain ⟨hne, hay⟩ := h1
          have hay' : st.act y = true := hay
          have h1' : ¬ ((x = y || !st.active.getD y false) = true) := by
            rw [hay]
            simp [hne]
          by_cases hxv : x < g.num_vertices
          · -- the vertex `x` is removed
            obtain ⟨d1, d2⟩ := remove_dominated_spec hw hinv x hax
            refine ⟨remove_dominated g st x, ?_, d1, ?_, ?_, ?_, ?_, ?_⟩
            · rw [dominate_cons, if_neg hassert, if_neg h1', if_neg h2, if_pos h3]
              simp only [hxv, if_true]
            · intro i hi
              rw [d2.act i, Bool.and_eq_true] at hi
              exact hi.1
            · intro q hq
              exact (d2.queue q).2 (Or.inl hq)
            · intro z haz hz' w hwz haw
              have hzx : z = x := by
                by_contra hc
                rw [d2.act z, haz] at hz'
                simp [hc] at hz'
              subst hzx
              rw [d2.act w, Bool.and_eq_true] at haw
              exact (d2.queue w).2 (Or.inr ⟨hwz, haw.1⟩)
            · intro z hz
              rw [d2.act z]
              have : z ≠ x := fun e => not_mem_inc_self hw x (e ▸ hz)
              simp [this]
            · intro hx'
              rw [d2.act x] at hx'
              simp at hx'
          · -- the hyperedge `y` is removed and the loop goes on
            have hxk : g.num_vertices ≤ x := Nat.le_of_not_lt hxv
            have hyk : g.num_vertices ≤ y := Nat.le_of_not_lt (fun h => hxv (hky.2 h))
            obtain ⟨d1, d2⟩ := remove_dominated_spec hw hinv y hay'
            have hax1 : (remove_dominated g st y).act x = true := by
              rw [d2.act x, hax]
              simp [hne]
            have hnu1 : g.num_vertices ≤ x → (remove_dominated g st y).deg x ≠ 1 := by
              intro _
              rw [d2.deg x, if_neg (fun hm => by
                have := mem_inc_of_hyperedge hw hm hyk
                omega)]
              simpa using hnu hxk
            obtain ⟨st', e1, e2, e3, e4, e5, e6, e7⟩ := ih _ d1 hax1 hnu1 hrest
            have hact1 : ∀ i, (remove_dominated g st y).act i = true → st.act i = true := by
              intro i hi
              rw [d2.act i, Bool.and_eq_true] at hi
              exact hi.1
            refine ⟨st', ?_, e2, fun i hi => hact1 i (e3 i hi), ?_, ?_, ?_, ?_⟩
            · rw [dominate_cons, if_neg hassert, if_neg h1', if_neg h2, if_pos h3]
              simp only [hxv, if_false]
              rw [if_neg (Ne.symm hne)]
              exact e1
            · intro q hq
              exact e4 q ((d2.queue q).2 (Or.inl hq))
            · intro z haz hz' w hwz haw
              by_cases hzy : z = y
              · subst hzy
                exact e4 w ((d2.queue w).2 (Or.inr ⟨hwz, hact1 w (e3 w haw)⟩))
              · refine e5 z ?_ hz' w hwz haw
                rw [d2.act z, haz]
                simp [hzy]
            · intro z hz
              rw [e6 z hz, d2.act z]
              have hzlt := mem_inc_of_hyperedge hw hz hxk
              have : z ≠ y := by omega
              simp [this]
            · intro hx' y' hy' hne' hay''
              rcases List.mem_cons.1 hy' with h | h
              · subst h
                have := e3 _ hay''
                rw [d2.act y'] at this
                simp at this
              · intro hdom
                refine e7 hx' y' h hne' hay'' ?_
                intro z hz haz
                exact hdom z hz (hact1 z haz)
        · apply hskip
          · rw [dominate_cons, if_neg hassert, if_neg h1, if_neg h2, if_neg h3]
          · intro _ _ hdom
            exact h3 (test_of_dominated hw st x y hdom)

/-! ## No reduction is missed: the invariant of the worklist -/

theorem reduce_step_eq (g : Graph) (cap : Nat) (ros : Bool) (st : Engine) (x : Nat)
    (rest : List Nat) (hQ : st.Q = x :: rest) (henq : st.enqueued.getD x false = true)
    (stp : Engine) (hp : stp = { st with Q := rest, enqueued := st.enqueued.set x false }) :
    reduce_step g cap ros st =
      if cap = 0 then .ok stp
      else if !stp.active.getD x false then .ok stp
      else if g.num_vertices ≤ x ∧ stp.degree.getD x 0 = 1 then unit_edge_rule g ros x stp
      else dominate g x (collect_candidates g cap x) stp := by
  subst hp
  unfold reduce_step
  rw [hQ]
  simp only [henq, if_true]

/-- An active object outside the worklist whose neighbours were all left active
stays settled. -/
theorem worklist_frame {g : Graph} (hw : WellFormed g) {st st' : Engine}
    (hinv : EngineInv g (fun _ => False) st) (hinv' : EngineInv g (fun _ => False) st')
    (hprog : ∀ i, st'.act i = true → st.act i = true)
    (hN : ∀ z, st.act z = true → st'.act z = false →
      ∀ w ∈ g.inc z, st'.act w = true → w ∈ st'.Q)
    (w : Nat) (haw : st'.act w = true) (hq : w ∉ st'.Q) (hs : Settled g st w) :
    Settled g st' w := by
  have hsame : ∀ z ∈ g.inc w, st'.act z = st.act z := by
    intro z hz
    by_cases haz : st.act z = true
    · rw [haz]
      by_contra hc
      rw [Bool.not_eq_true] at hc
      exact hq (hN z haz hc w (mem_inc_symm hw hz) haw)
    · rw [Bool.not_eq_true] at haz
      rw [haz]
      by_contra hc
      rw [Bool.not_eq_false] at hc
      have := hprog z hc
      rw [haz] at this
      exact Bool.noConfusion this
  have hcount : active_count g st' w = active_count g st w := by
    unfold active_count
    exact List.countP_congr (fun z hz => by rw [hsame z hz])
  refine ⟨?_, ?_⟩
  · intro hge
    rw [hinv'.coherent w (act_lt hinv' haw) haw (fun h => h), hcount,
      ← hinv.coherent w (act_lt hinv (hprog w haw)) (hprog w haw) (fun h => h)]
    exact hs.1 hge
  · intro y hne hay hsh hdom
    refine hs.2 y hne (hprog y hay) hsh ?_
    intro z hz haz
    exact hdom z hz (by rw [hsame z hz]; exact haz)

/-- A pop of the worklist, with a cap of at least twice the number of objects,
keeps every active object outside the worklist settled. -/
theorem reduce_step_worklist {g : Graph} (hw : WellFormed g) (cap : Nat) (ros : Bool)
    (hcap : 2 * g.num_objects ≤ cap) {st st' : Engine}
    (hinv : EngineInv g (fun _ => False) st) (hwl : WorklistInv g st) (hne : st.Q ≠ [])
    (hstep : reduce_step g cap ros st = .ok st') : WorklistInv g st' := by
  cases hQ : st.Q with
  | nil => exact absurd hQ hne
  | cons x rest =>
    have hxq : x ∈ st.Q := by rw [hQ]; exact List.mem_cons_self _ _
    have hxlt := queue_lt hinv hxq
    have henq : st.enqueued.getD x false = true := (hinv.q_enq x).1 hxq
    obtain ⟨st'', r1, r2, _, r4, r5, _⟩ := reduce_step_spec hw cap ros hinv x rest hQ
    have hst : st'' = st' := Except.ok.inj (r1.symm.trans hstep)
    subst hst
    obtain ⟨stp, hp⟩ : ∃ stp : Engine,
        stp = { st with Q := rest, enqueued := st.enqueued.set x false } := ⟨_, rfl⟩
    have hinvp := pop_inv hinv x rest hQ stp hp
    have hpa : ∀ i, stp.act i = st.act i := by intro i; subst hp; rfl
    have heq := reduce_step_eq g cap ros st x rest hQ henq stp hp
    rw [hstep, if_neg (by omega)] at heq
    -- what the step enqueues, and the popped object
    have hmain : (∀ z, st.act z = true → st''.act z = false →
          ∀ w ∈ g.inc z, st''.act w = true → w ∈ st''.Q) ∧
        (st''.act x = true → x ∉ st''.Q → Settled g st'' x) := by
      by_cases h1 : (!stp.active.getD x false) = true
      · rw [if_pos h1] at heq
        have hst : st'' = stp := Except.ok.inj heq
        subst hst
        constructor
        · intro z h2 h3
          rw [hpa z, h2] at h3
          exact Bool.noConfusion h3
        · intro h2
          rw [Bool.not_eq_true'] at h1
          have : st''.act x = false := h1
          rw [this] at h2
          exact Bool.noConfusion h2
      · rw [if_neg h1] at heq
        rw [Bool.not_eq_true', Bool.not_eq_false] at h1
        have hax : stp.act x = true := h1
        by_cases h2 : g.num_vertices ≤ x ∧ stp.degree.getD x 0 = 1
        · rw [if_pos h2] at heq
          obtain ⟨st1, u1, u2, u3⟩ := unit_edge_rule_settles hw ros hinvp x h2.1 hax h2.2
          have hst : st'' = st1 := Except.ok.inj (heq.trans u1)
          subst hst
          constructor
          · intro z hz
            exact u3 z (by rw [hpa z]; exact hz)
          · intro h3
            rw [u2] at h3
            exact Bool.noConfusion h3
        · rw [if_neg h2] at heq
          obtain ⟨st1, d1, d2, _, _, d5, d6, d7⟩ := dominate_settles hw x
            (collect_candidates g cap x) stp hinvp hax (fun hk hd => h2 ⟨hk, hd⟩) (by
              intro y hy
              obtain ⟨z, hz, hyz⟩ := mem_collect_candidates g cap x y hy
              exact same_kind_of_two_steps hw hz hyz)
          have hst : st'' = st1 := Except.ok.inj (heq.trans d1)
          subst hst
          constructor
          · intro z hz
            exact d5 z (by rw [hpa z]; exact hz)
          · intro h3 _
            have hcount : active_count g st'' x = active_count g stp x := by
              unfold active_count
              exact List.countP_congr (fun z hz => by rw [d6 z hz])
            refine ⟨?_, ?_⟩
            · intro hge hd
              rw [d2.coherent x hxlt h3 (fun h => h), hcount,
                ← hinvp.coherent x hxlt hax (fun h => h)] at hd
              exact h2 ⟨hge, hd⟩
            · intro y hne hay hsh hdom
              have hy := collect_candidates_complete hw cap hcap x y hsh
              refine d7 h3 y hy hne hay ?_
              intro z hz haz
              exact hdom z hz (by rw [d6 z hz]; exact haz)
    intro w haw hq
    by_cases hwx : w = x
    · subst hwx
      exact hmain.2 haw hq
    · have hwq : w ∉ st.Q := by
        intro h
        rw [hQ] at h
        rcases List.mem_cons.1 h with h | h
        · exact hwx h
        · exact hq (r5 w h)
      exact worklist_frame hw hinv r2 r4.act hmain.1 w haw hq (hwl w (r4.act w haw) hwq)

theorem worklist_inv_init {g : Graph} (hw : WellFormed g) (F : List Nat) :
    WorklistInv g (init_engine g F) := by
  intro x hax hq
  have := act_lt (init_engine_inv hw F) hax
  exact absurd (List.mem_range.2 this) hq

theorem no_reduction_left_of_worklist {g : Graph} {st : Engine} (hwl : WorklistInv g st)
    (hq : st.Q = []) : NoReductionLeft g st := by
  have hs : ∀ x, st.act x = true → Settled g st x :=
    fun x hax => hwl x hax (by rw [hq]; exact List.not_mem_nil _)
  refine ⟨?_, ?_⟩
  · intro h _ hge hah
    exact (hs h hah).1 hge
  · intro x _ y _ hne hax hay _ hsh
    exact (hs x hax).2 y (Ne.symm hne) hay hsh

/-- C19. No reduction is missed at quiescence: on a well-formed instance (with
num_objects in the range of `int`) the reduction run of the kernelizer, with the
unbounded cap and without time-budget abort, empties the worklist, and in the state
it then has no active hyperedge has degree 1, and there are no two distinct active
objects x, y of the same kind that share a neighbour such that every active
neighbour of x is a neighbour of y. -/
theorem no_reduction_is_missed_at_quiescence (gl : Globals) (hw : WellFormed gl.graph)
    (hsize : gl.graph.num_objects < 2 ^ 31) :
    ∃ st, greeduce_schedule gl [] unbounded_cap true (fun _ l => l) none = .ok st ∧
      st.Q = [] ∧
      (∀ h < gl.graph.num_objects, gl.graph.num_vertices ≤ h → st.act h = true →
        st.deg h ≠ 1) ∧
      (∀ x < gl.graph.num_objects, ∀ y < gl.graph.num_objects, x ≠ y → st.act x = true →
        st.act y = true → (x < gl.graph.num_vertices ↔ y < gl.graph.num_vertices) →
        (∃ z ∈ gl.graph.inc x, z ∈ gl.graph.inc y) →
        ¬ ∀ z ∈ gl.graph.inc x, st.act z = true → z ∈ gl.graph.inc y) := by
  have hcap : 2 * gl.graph.num_objects ≤ unbounded_cap := by
    have h1 : unbounded_cap = 18446744073709551615 := by
      unfold unbounded_cap
      norm_num
    have h2 : (2 : Nat) ^ 31 = 2147483648 := by norm_num
    omega
  have hinv0 := init_engine_inv hw gl.always_in_solution
  obtain ⟨st, d1, _, d3, _, _, d6⟩ := drain_spec hw unbounded_cap true (WorklistInv gl.graph)
    (fun st st' hinv hp hne hstep => reduce_step_worklist hw unbounded_cap true hcap hinv hp
      hne hstep)
    (drain_fuel gl.graph) none _ hinv0 (measure_le_fuel hinv0)
    (worklist_inv_init hw gl.always_in_solution)
  have hq : st.Q = [] := by
    rcases d6 with h | ⟨_, h⟩
    · exact h
    · exact absurd rfl h
  have hsched : greeduce_schedule gl [] unbounded_cap true (fun _ l => l) none = .ok st := by
    unfold greeduce_schedule
    simp only [if_true]
    unfold schedule_loop
    rw [d1]
    simp only [if_true]
  exact ⟨st, hsched, hq, no_reduction_left_of_worklist d3 hq⟩

theorem no_reduction_is_missed_at_quiescence_witness :
    (WellFormed (initial_globals triangle_and_unit).graph ∧
      (initial_globals triangle_and_unit).graph.num_objects < 2 ^ 31) ∧
    ∃ st, greeduce_schedule (initial_globals triangle_and_unit) [] unbounded_cap true
        (fun _ l => l) none = .ok st ∧
      st.Q = [] ∧
      (∀ h < (initial_globals triangle_and_unit).graph.num_objects,
        (initial_globals triangle_and_unit).graph.num_vertices ≤ h → st.act h = true →
        st.deg h ≠ 1) ∧
      (∀ x < (initial_globals triangle_and_unit).graph.num_objects,
        ∀ y < (initial_globals triangle_and_unit).graph.num_objects, x ≠ y →
        st.act x = true → st.act y = true →
        (x < (initial_globals triangle_and_unit).graph.num_vertices ↔
          y < (initial_globals triangle_and_unit).graph.num_vertices) →
        (∃ z ∈ (initial_globals triangle_and_unit).graph.inc x,
          z ∈ (initial_globals triangle_and_unit).graph.inc y) →
        ¬ ∀ z ∈ (initial_globals triangle_and_unit).graph.inc x, st.act z = true →
          z ∈ (initial_globals triangle_and_unit).graph.inc y) :=
  ⟨⟨by decide, by decide⟩,
    no_reduction_is_missed_at_quiescence (initial_globals triangle_and_unit) (by decide)
      (by decide)⟩

/-! ## Degree coherence for inactive objects -/

theorem degree_bound_congr {g : Graph} {st st' : Engine} (ha : ∀ i, st'.act i = st.act i)
    (hd : ∀ i, st'.deg i = st.deg i) (hb : DegreeBound g st) : DegreeBound g st' := by
  intro i hi
  have hc : active_count g st' i = active_count g st i := by
    unfold active_count
    exact List.countP_congr (fun z _ => by rw [ha z])
  rw [hc, hd i]
  exact hb i hi

theorem degree_bound_deactivated {g : Graph} (hw : WellFormed g) {st st' : Engine} {r : Nat}
    (hr : st.act r = true) (hd : Deactivated g st r st') (hb : DegreeBound g st) :
    DegreeBound g st' := by
  intro i hi
  have h1 := hd.deg i
  have h2 := active_count_deactivate hw st st' r i hr hd.act
  obtain ⟨b1, b2⟩ := hb i hi
  by_cases hm : i ∈ g.inc r
  · rw [if_pos hm] at h1 h2
    exact ⟨by omega, fun hv => by have := b2 hv; omega⟩
  · rw [if_neg hm] at h1 h2
    exact ⟨by omega, fun hv => by have := b2 hv; omega⟩

theorem degree_bound_take {g : Graph} (hw : WellFormed g) {st st0 : Engine} (u : Nat)
    (hu : u < g.num_vertices) (hau : st.act u = true)
    (hact0 : ∀ i, st0.act i = (st.act i && decide (i ≠ u)))
    (hdeg0 : ∀ i, st0.deg i = st.deg i) (hb : DegreeBound g st) : DegreeBound g st0 := by
  intro i hi
  have h2 := active_count_deactivate hw st st0 u i hau hact0
  obtain ⟨b1, b2⟩ := hb i hi
  rw [hdeg0 i]
  by_cases hm : i ∈ g.inc u
  · rw [if_pos hm] at h2
    refine ⟨by omega, fun hv => ?_⟩
    have := (mem_inc_of_vertex hw hm hu).1
    omega
  · rw [if_neg hm] at h2
    exact ⟨by omega, fun hv => by have := b2 hv; omega⟩

theorem cover_loop_bound {g : Graph} (hw : WellFormed g) {ex : Nat → Prop} :
    ∀ (l : List Nat) (st : Engine), EngineInv g ex st → (∀ h ∈ l, g.num_vertices ≤ h) →
      DegreeBound g st → DegreeBound g (cover_loop g st l) := by
  intro l
  induction l with
  | nil =>
    intro st _ _ hb
    exact hb
  | cons h0 rest ih =>
    intro st hinv hl hb
    have hh0 := hl h0 (List.mem_cons_self _ _)
    have hrest : ∀ h' ∈ rest, g.num_vertices ≤ h' :=
      fun h' hm => hl h' (List.mem_cons_of_mem _ hm)
    by_cases ha : st.act h0 = true
    · have hstep : cover_loop g st (h0 :: rest) =
          cover_loop g (deactivate_hyperedge g st h0) rest := by
        unfold Engine.act at ha
        simp only [cover_loop, List.foldl_cons, ha, if_true]
      rw [hstep]
      obtain ⟨d1, d2⟩ : EngineInv g ex (deactivate_hyperedge g st h0) ∧
          Deactivated g st h0 (deactivate_hyperedge g st h0) :=
        deactivate_spec hw hinv h0 ha (st.num_active_hyperedges - 1) (by rw [if_pos hh0])
      exact ih _ d1 hrest (degree_bound_deactivated hw ha d2 hb)
    · have hstep : cover_loop g st (h0 :: rest) = cover_loop g st rest := by
        unfold Engine.act at ha
        simp only [cover_loop, List.foldl_cons, ha]
        rfl
      rw [hstep]
      exact ih st hinv hrest hb

theorem take_vertex_bound {g : Graph} (hw : WellFormed g) {st : Engine}
    (hinv : EngineInv g (fun _ => False) st) (u : Nat) (hu : u < g.num_vertices)
    (hau : st.act u = true) (S : Solution) (hS : S.length = g.num_vertices) (F : List Nat)
    (st0 : Engine)
    (h0 : st0 = { st with active := st.active.set u false, solution := S,
                          always_in_solution := F })
    (hb : DegreeBound g st) : DegreeBound g (cover_loop g st0 (g.inc u)) := by
  obtain ⟨hinv0, hact0, hdeg0⟩ := take_vertex_inv0 hw hinv u hu hau S hS F st0 h0
  exact cover_loop_bound hw (g.inc u) st0 hinv0 (fun h hm => (mem_inc_of_vertex hw hm hu).1)
    (degree_bound_take hw u hu hau hact0 hdeg0 hb)

theorem unit_edge_rule_bound {g : Graph} (hw : WellFormed g) (ros : Bool) {st : Engine}
    (hinv : EngineInv g (fun _ => False) st) (x : Nat) (hx : g.num_vertices ≤ x)
    (hax : st.act x = true) (hdeg : st.deg x = 1) (hb : DegreeBound g st) :
    ∃ st', unit_edge_rule g ros x st = .ok st' ∧ DegreeBound g st' := by
  have hxlt := act_lt hinv hax
  have hc := hinv.coherent x hxlt hax (fun h => h)
  have hcount : (g.inc x).countP (fun v => st.active.getD v false) = 1 := by
    rw [hdeg] at hc
    unfold active_count Engine.act at hc
    omega
  obtain ⟨u, hu, hau, hf⟩ := find_unit_one st.active (g.inc x) hcount
  have hult := mem_inc_of_hyperedge hw hu hx
  unfold unit_edge_rule
  rw [hf]
  simp only
  cases ros with
  | true =>
    exact ⟨_, rfl, take_vertex_bound hw hinv u hult hau st.solution hinv.sol_len
      (st.always_in_solution ++ [g.vid u]) _ rfl hb⟩
  | false =>
    exact ⟨_, rfl, take_vertex_bound hw hinv u hult hau (st.solution.set u true)
      (by simp [hinv.sol_len]) st.always_in_solution _ rfl hb⟩

theorem greedy_choice_bound {g : Graph} (hw : WellFormed g) {st : Engine}
    (hinv : EngineInv g (fun _ => False) st) (v : Nat) (hv : v < g.num_vertices)
    (hav : st.act v = true) (hb : DegreeBound g st) : DegreeBound g (greedy_choice g v st) := by
  have heq : greedy_choice g v st =
      { cover_loop g { st with active := st.active.set v false, solution := st.solution,
                               always_in_solution := st.always_in_solution } (g.inc v) with
        solution := (greedy_choice g v st).solution } := by
    unfold greedy_choice
    rw [select_loop_eq]
  rw [heq]
  exact degree_bound_congr (fun _ => rfl) (fun _ => rfl)
    (take_vertex_bound hw hinv v hv hav st.solution hinv.sol_len st.always_in_solution _ rfl hb)

/-- What every removal of the domination rule preserves, the loop of the rule
preserves. -/
theorem dominate_preserves {g : Graph} (hw : WellFormed g) (P : Engine → Prop)
    (hP : ∀ st r, EngineInv g (fun _ => False) st → st.act r = true → P st →
      P (remove_dominated g st r)) (x : Nat) :
    ∀ (cands : List Nat) (st st' : Engine), EngineInv g (fun _ => False) st →
      st.act x = true → P st → dominate g x cands st = .ok st' → P st' := by
  intro cands
  induction cands with
  | nil =>
    intro st st' _ _ hp h
    have : st = st' := Except.ok.inj h
    exact this ▸ hp
  | cons y rest ih =>
    intro st st' hinv hax hp h
    rw [dominate_cons] at h
    by_cases h0 : decide (x < g.num_vertices) ≠ decide (y < g.num_vertices)
    · rw [if_pos h0] at h
      exact Except.noConfusion h
    · rw [if_neg h0] at h
      by_cases h1 : (x = y || !st.active.getD y false) = true
      · rw [if_pos h1] at h
        exact ih st st' hinv hax hp h
      · rw [if_neg h1] at h
        by_cases h2 : st.degree.getD x 0 > st.degree.getD y 0
        · rw [if_pos h2] at h
          exact ih st st' hinv hax hp h
        · rw [if_neg h2] at h
          by_cases h3 : x_is_subset_of_y g st x y = true
          · rw [if_pos h3] at h
            simp only [Bool.or_eq_true, decide_eq_true_eq, Bool.not_eq_true', not_or,
              Bool.not_eq_false] at h1
            have hay : st.act y = true := h1.2
            by_cases hxv : x < g.num_vertices
            · simp only [hxv, if_true] at h
              have : remove_dominated g st x = st' := Except.ok.inj h
              rw [← this]
              exact hP st x hinv hax hp
            · simp only [hxv, if_false] at h
              rw [if_neg (Ne.symm h1.1)] at h
              obtain ⟨d1, d2⟩ := remove_dominated_spec hw hinv y hay
              refine ih _ st' d1 ?_ (hP st y hinv hay hp) h
              rw [d2.act x, hax]
              simp [h1.1]
          · rw [if_neg h3] at h
            exact ih st st' hinv hax hp h

theorem reduce_step_bound {g : Graph} (hw : WellFormed g) (cap : Nat) (ros : Bool)
    {st st' : Engine} (hinv : EngineInv g (fun _ => False) st) (hb : DegreeBound g st)
    (hne : st.Q ≠ []) (hstep : reduce_step g cap ros st = .ok st') : DegreeBound g st' := by
  cases hQ : st.Q with
  | nil => exact absurd hQ hne
  | cons x rest =>
    have hxq : x ∈ st.Q := by rw [hQ]; exact List.mem_cons_self _ _
    have henq : st.enqueued.getD x false = true := (hinv.q_enq x).1 hxq
    obtain ⟨stp, hp⟩ : ∃ stp : Engine,
        stp = { st with Q := rest, enqueued := st.enqueued.set x false } := ⟨_, rfl⟩
    have hinvp := pop_inv hinv x rest hQ stp hp
    have hbp : DegreeBound g stp :=
      degree_bound_congr (fun _ => by subst hp; rfl) (fun _ => by subst hp; rfl) hb
    have heq := reduce_step_eq g cap ros st x rest hQ henq stp hp
    rw [hstep] at heq
    split_ifs at heq with h0 h1 h2
    · exact (Except.ok.inj heq) ▸ hbp
    · exact (Except.ok.inj heq) ▸ hbp
    · rw [Bool.not_eq_true', Bool.not_eq_false] at h1
      obtain ⟨st1, u1, u2⟩ := unit_edge_rule_bound hw ros hinvp x h2.1 h1 h2.2 hbp
      exact (Except.ok.inj (heq.trans u1)) ▸ u2
    · rw [Bool.not_eq_true', Bool.not_eq_false] at h1
      exact dominate_preserves hw (DegreeBound g)
        (fun s r hs hr hp' =>
          degree_bound_deactivated hw hr (remove_dominated_spec hw hs r hr).2 hp')
        x _ stp st' hinvp h1 hbp heq.symm

theorem degree_bound_init {g : Graph} (hw : WellFormed g) (F : List Nat) :
    DegreeBound g (init_engine g F) := by
  intro i hi
  have := (init_engine_inv hw F).coherent i hi (init_act g F i hi) (fun h => h)
  exact ⟨by omega, fun _ => this⟩

/-! ## The states in which the reduction loop ends -/

theorem reduce_events_nil (g : Graph) (cap : Nat) (ros : Bool) (st : Engine)
    (hQ : st.Q = []) : reduce_events g cap ros st = [] := by
  unfold reduce_events
  rw [hQ]

theorem reduce_events_cons (g : Graph) (cap : Nat) (ros : Bool) (st : Engine) (x : Nat)
    (rest : List Nat) (hQ : st.Q = x :: rest) (stp : Engine)
    (hp : stp = { st with Q := rest, enqueued := st.enqueued.set x false }) :
    reduce_events g cap ros st =
      if st.enqueued.getD x false then
        .popped x stp ::
          (if cap = 0 then []
           else if !stp.active.getD x false then []
           else if g.num_vertices ≤ x ∧ stp.degree.getD x 0 = 1 then
             unit_edge_events g ros x stp
           else dominate_events g x (collect_candidates g cap x) stp)
      else [] := by
  subst hp
  unfold reduce_events
  rw [hQ]

theorem drained_not_mem_reduce_events (g : Graph) (cap : Nat) (ros : Bool) (st s : Engine) :
    Event.drained s ∉ reduce_events g cap ros st := by
  intro h
  cases hQ : st.Q with
  | nil =>
    rw [reduce_events_nil g cap ros st hQ] at h
    exact absurd h (List.not_mem_nil _)
  | cons x rest =>
    rw [reduce_events_cons g cap ros st x rest hQ _ rfl] at h
    by_cases henq : st.enqueued.getD x false = true
    · rw [if_pos henq] at h
      rcases List.mem_cons.1 h with h | h
      · exact Event.noConfusion h
      · by_cases h0 : cap = 0
        · rw [if_pos h0] at h
          exact absurd h (List.not_mem_nil _)
        · rw [if_neg h0] at h
          by_cases h1 : (!st.active.getD x false) = true
          · rw [if_pos h1] at h
            exact absurd h (List.not_mem_nil _)
          · rw [if_neg h1] at h
            by_cases h2 : g.num_vertices ≤ x ∧ st.degree.getD x 0 = 1
            · rw [if_pos h2] at h
              unfold unit_edge_events at h
              split at h
              · exact absurd h (List.not_mem_nil _)
              · exact Event.noConfusion (List.mem_singleton.1 h)
            · rw [if_neg h2] at h
              obtain ⟨_, _, y, _, _, e⟩ := dominate_events_prefix g _ _ _ _ h
              exact Event.noConfusion e
    · rw [if_neg henq] at h
      exact absurd h (List.not_mem_nil _)

/-- A state noted as the end of the reduction loop is the state that the loop
returns. -/
theorem drain_of_drained (g : Graph) (cap : Nat) (ros : Bool) (s : Engine) :
    ∀ (fuel : Nat) (budget : Option Nat) (st : Engine),
      Event.drained s ∈ drain_events g cap ros fuel budget st →
      drain g cap ros fuel budget st = .ok s := by
  intro fuel
  induction fuel with
  | zero =>
    intro budget st h
    unfold drain_events at h
    unfold drain
    split_ifs at h ⊢ with h0 h1
    · rw [Event.drained.inj (List.mem_singleton.1 h)]
    · rw [Event.drained.inj (List.mem_singleton.1 h)]
    · exact absurd h (List.not_mem_nil _)
  | succ fuel ih =>
    intro budget st h
    unfold drain_events at h
    unfold drain
    split_ifs at h ⊢ with h0 h1
    · rw [Event.drained.inj (List.mem_singleton.1 h)]
    · rw [Event.drained.inj (List.mem_singleton.1 h)]
    · rcases List.mem_append.1 h with h | h
      · exact absurd h (drained_not_mem_reduce_events g cap ros st s)
      · cases hr : reduce_step g cap ros st with
        | error e =>
          rw [hr] at h
          exact absurd h (List.not_mem_nil _)
        | ok st1 =>
          rw [hr] at h
          exact ih _ st1 h

theorem schedule_drained_bound {g : Graph} (hw : WellFormed g) (cap : Nat) (ros : Bool)
    (budget : Option Nat) (s : Engine) :
    ∀ (rest : List (Int × Int)) (st : Engine),
      (ros = false → ∀ e ∈ rest, 0 ≤ e.2 ∧ e.2 < (g.num_vertices : Int)) →
      EngineInv g (fun _ => False) st → DegreeBound g st →
      Event.drained s ∈ schedule_events g cap ros budget rest st → DegreeBound g s := by
  intro rest
  induction rest with
  | nil =>
    intro st _ _ _ h
    exact absurd h (List.not_mem_nil _)
  | cons iter rest ih =>
    intro st hvalid hinv hb h
    have hrest : ros = false → ∀ e ∈ rest, 0 ≤ e.2 ∧ e.2 < (g.num_vertices : Int) :=
      fun hr e he => hvalid hr e (List.mem_cons_of_mem _ he)
    obtain ⟨st1, d1, d2, d3, _⟩ := drain_spec hw cap ros (DegreeBound g)
      (fun st st' hinv hp hne hstep => reduce_step_bound hw cap ros hinv hp hne hstep)
      (drain_fuel g) budget st hinv (measure_le_fuel hinv) hb
    unfold schedule_events at h
    rcases List.mem_append.1 h with h | h
    · have := drain_of_drained g cap ros s _ budget st h
      rw [d1] at this
      exact (Except.ok.inj this) ▸ d3
    · rw [d1] at h
      simp only at h
      cases ros with
      | true =>
        simp only [if_true] at h
        exact absurd h (List.not_mem_nil _)
      | false =>
        simp only [Bool.false_eq_true, if_false] at h
        split_ifs at h with h1 h2 h3
        · exact ih st1 hrest d2 d3 h
        · exact ih st1 hrest d2 d3 h
        · rcases List.mem_cons.1 h with h | h
          · exact Event.noConfusion h
          · exact absurd h (List.not_mem_nil _)
        · rw [Bool.not_eq_true', Bool.not_eq_false] at h1
          have hv := hvalid rfl iter (List.mem_cons_self _ _)
          have hvlt : iter.2.toNat < g.num_vertices := by omega
          rcases List.mem_cons.1 h with h | h
          · exact Event.noConfusion h
          · exact ih _ hrest (greedy_choice_spec hw d2 iter.2.toNat hvlt h1).1
              (greedy_choice_bound hw d2 iter.2.toNat hvlt h1 d3) h

/-- C13, amended. In every call of greeduce on a well-formed graph, in every state
in which the loop over the worklist has ended, so at every quiescent point of the
reduction engine, for every object i in [0, num_objects): degree[i] is at least
the number of j in incidence[i] with active[j] = true, and it equals that number
when i is active or i is a vertex (an inactive hyperedge may keep a larger, stale
degree). -/
theorem degree_coherent_at_quiescent_points (gl : Globals) (hint : Solution) (cap : Nat)
    (ros : Bool) (shuffle : Nat → List (Int × Int) → List (Int × Int)) (budget : Option Nat)
    (hw : WellFormed gl.graph) (hshuf : ∀ level l, (shuffle level l).Perm l) (st : Engine)
    (hst : Event.drained st ∈ greeduce_events gl hint cap ros shuffle budget)
    (i : Nat) (hi : i < gl.graph.num_objects) :
    (active_count gl.graph st i : Int) ≤ st.deg i ∧
    (st.act i = true ∨ i < gl.graph.num_vertices →
      st.deg i = (active_count gl.graph st i : Int)) := by
  obtain ⟨PQ, hPQ, hok⟩ := greeduce_events_ok gl hint cap ros shuffle budget hw hshuf
  have hinv : EngineInv gl.graph (fun _ => False) st := (hok _ hst).1
  have hb : DegreeBound gl.graph st := by
    unfold greeduce_events at hst
    rcases List.mem_cons.1 hst with h | h
    · exact Event.noConfusion h
    · cases ros with
      | true =>
        simp only [if_true] at h
        exact schedule_drained_bound hw cap true budget st _ _ (fun hr => Bool.noConfusion hr)
          (init_engine_inv hw _) (degree_bound_init hw _) h
      | false =>
        obtain ⟨PQ', b1, b2, _⟩ := build_schedule_spec gl.graph hint
          (init_engine gl.graph gl.always_in_solution).degree shuffle hshuf
        simp only [Bool.false_eq_true, if_false, b1] at h
        exact schedule_drained_bound hw cap false budget st _ _
          (fun _ e he => ⟨(b2 e he).2.1, (b2 e he).2.2.1⟩)
          (init_engine_inv hw _) (degree_bound_init hw _) h
  refine ⟨(hb i hi).1, ?_⟩
  rintro (h | h)
  · exact hinv.coherent i hi h (fun h => h)
  · exact (hb i hi).2 h

theorem degree_coherent_at_quiescent_points_witness :
    (WellFormed (initial_globals triangle_and_unit).graph ∧
      (∀ (level : Nat) (l : List (Int × Int)), ((fun _ l => l) level l).Perm l) ∧
      Event.drained triangle_and_unit_drained ∈
        greeduce_events (initial_globals triangle_and_unit) [] unbounded_cap true
          (fun _ l => l) none ∧
      3 < (initial_globals triangle_and_unit).graph.num_objects) ∧
    ((active_count (initial_globals triangle_and_unit).graph triangle_and_unit_drained 3 : Int) ≤
        triangle_and_unit_drained.deg 3 ∧
      (triangle_and_unit_drained.act 3 = true ∨
          3 < (initial_globals triangle_and_unit).graph.num_vertices →
        triangle_and_unit_drained.deg 3 =
          (active_count (initial_globals triangle_and_unit).graph
            triangle_and_unit_drained 3 : Int))) :=
  ⟨⟨by decide, fun _ l => List.Perm.refl l, by decide, by decide⟩,
    degree_coherent_at_quiescent_points (initial_globals triangle_and_unit) [] unbounded_cap
      true (fun _ l => l) none (by decide) (fun _ l => List.Perm.refl l)
      triangle_and_unit_drained (by decide) 3 (by decide)⟩

/-! ## Every best of the search is a cover -/

/-- The iterations of the search loop return, leave the graph and the forced set
alone, and keep `best` a vector that hits every hyperedge of the graph. -/
theorem search_loop_cover (g' : Graph) (F : List Nat) (hw : WellFormed g')
    (hne : NonemptyHyperedges g') :
    ∀ (draws : List Draws) (iter : Nat) (gl : Globals),
      (∀ d ∈ draws, ∀ level l, (d.shuffle level l).Perm l) →
      gl.graph = g' → gl.always_in_solution = F → g'.Hits (members gl.best) →
      ∃ gl', search_loop iter draws gl = .ok gl' ∧ gl'.graph = g' ∧
        gl'.always_in_solution = F ∧ g'.Hits (members gl'.best) := by
  intro draws
  induction draws with
  | nil =>
    intro iter gl _ h1 h2 h3
    exact ⟨gl, rfl, h1, h2, h3⟩
  | cons d rest ih =>
    intro iter gl hshuf h1 h2 h3
    obtain ⟨gl1, e1, e2, e3, e4⟩ := greeduce_search_spec gl
      (if iter > 0 then mutate gl.best d.picks else gl.best) (min iter 1000000) d.shuffle none
      (h1 ▸ hw) (h1 ▸ hne) (hshuf d (List.mem_cons_self _ _))
    have hstep : search_iteration gl iter d.picks d.shuffle = .ok gl1 := e1
    have hb : g'.Hits (members gl1.best) := by
      rcases e4 with ⟨a, _⟩ | ⟨_, _, _, a⟩
      · rw [a]
        exact h3
      · rw [h1] at a
        exact a
    obtain ⟨gl', f1, f2⟩ := ih (iter + 1) gl1
      (fun d' hd' => hshuf d' (List.mem_cons_of_mem _ hd')) (e2.trans h1) (e3.trans h2) hb
    refine ⟨gl', ?_, f2⟩
    unfold search_loop
    rw [hstep]
    exact f1

/-- C2. Kernel covers lift to the original instance: when the kernelizer
completes on a well-formed instance, with kernel `gl'.graph` and forced set
`gl'.always_in_solution`, every vertex set that hits every hyperedge of the
kernel gives, through `vertex_to_original_id` and together with the forced set, a
set of ids that hits every hyperedge of the instance; the initial `best` of all
kernel vertices is such a set; and so is every later `best`: after the
initialisation of `best` and any number of iterations of the search loop of
`main`, which all return and leave kernel and forced set as they are, `best` hits
every hyperedge of the kernel, and the forced set together with the original ids
of the members of `best` hits every hyperedge of the instance. -/
theorem kernel_cover_lifts (gl gl' : Globals) (budget : Option Nat)
    (hw : WellFormed gl.graph) (hne : NonemptyHyperedges gl.graph)
    (hk : fast_lazy_reductions gl budget = .ok gl') :
    (∀ C' : Nat → Prop, gl'.graph.Hits C' →
      gl.graph.HitsById (fun id => id ∈ gl'.always_in_solution ∨
        ∃ c < gl'.graph.num_vertices, C' c ∧ gl'.graph.vid c = id)) ∧
    gl'.graph.Hits (members (init_best gl').best) ∧
    ∀ draws : List Draws, (∀ d ∈ draws, ∀ level l, (d.shuffle level l).Perm l) →
      ∃ gl'', search_loop 0 draws (init_best gl') = .ok gl'' ∧
        gl''.graph = gl'.graph ∧ gl''.always_in_solution = gl'.always_in_solution ∧
        gl'.graph.Hits (members gl''.best) ∧
        gl.graph.HitsById (fun id => id ∈ gl''.always_in_solution ∨
          ∃ c < gl''.graph.num_vertices, gl''.best.getD c false = true ∧
            gl''.graph.vid c = id) := by
  obtain ⟨st, _, k1, k2, _, _, _, k6, k7, _⟩ := fast_lazy_reductions_spec gl gl' budget hw hne hk
  have hlift : ∀ C' : Nat → Prop, gl'.graph.Hits C' →
      gl.graph.HitsById (fun id => id ∈ gl'.always_in_solution ∨
        ∃ c < gl'.graph.num_vertices, C' c ∧ gl'.graph.vid c = id) := by
    intro C' hC h hlt hge
    rcases forced_or_active_witness k2 h hlt hge with ⟨v, hv, hf⟩ | ⟨h', hge', ha', hsub⟩
    · exact ⟨v, hv, Or.inl (by rw [k7]; exact hf)⟩
    · obtain ⟨v, hv, hav, _, hnlt, hCv, hvid⟩ := pruned_hit hw k1 k6 C' hC h' hge' ha'
      exact ⟨v, hsub v hv hav, Or.inr ⟨_, hnlt, hCv, hvid⟩⟩
  have hinit := kernel_hits_all_vertices hw k2 k6
  refine ⟨hlift, hinit, ?_⟩
  intro draws hshuf
  have hw' : WellFormed gl'.graph := pruned_well_formed hw st.active k6
  have hne' : NonemptyHyperedges gl'.graph := by
    intro h hlt hge
    obtain ⟨v, hv, _⟩ := hinit h hlt hge
    exact List.ne_nil_of_mem hv
  obtain ⟨gl'', e1, e2, e3, e4⟩ := search_loop_cover gl'.graph gl'.always_in_solution hw' hne'
    draws 0 (init_best gl') hshuf rfl rfl hinit
  refine ⟨gl'', e1, e2, e3, e4, ?_⟩
  rw [e2, e3]
  exact hlift (members gl''.best) e4

/-- C2 at `pendant_triangle`, whose kernel is the triangle, with two iterations
of the search loop. -/
theorem kernel_cover_lifts_witness :
    (WellFormed pendant_triangle ∧ NonemptyHyperedges pendant_triangle ∧
      fast_lazy_reductions (initial_globals pendant_triangle) none =
        .ok pendant_triangle_kernel ∧
      ∀ d ∈ [({ picks := [], shuffle := fun _ l => l } : Draws),
          { picks := [0, 2], shuffle := fun _ l => l.reverse }],
        ∀ level l, (d.shuffle level l).Perm l) ∧
    ((∀ C' : Nat → Prop, pendant_triangle_kernel.graph.Hits C' →
      (initial_globals pendant_triangle).graph.HitsById
        (fun id => id ∈ pendant_triangle_kernel.always_in_solution ∨
          ∃ c < pendant_triangle_kernel.graph.num_vertices,
            C' c ∧ pendant_triangle_kernel.graph.vid c = id)) ∧
    pendant_triangle_kernel.graph.Hits (members (init_best pendant_triangle_kernel).best) ∧
    ∃ gl'', search_loop 0
        [({ picks := [], shuffle := fun _ l => l } : Draws),
          { picks := [0, 2], shuffle := fun _ l => l.reverse }]
        (init_best pendant_triangle_kernel) = .ok gl'' ∧
      gl''.graph = pendant_triangle_kernel.graph ∧
      gl''.always_in_solution = pendant_triangle_kernel.always_in_solution ∧
      pendant_triangle_kernel.graph.Hits (members gl''.best) ∧
      (initial_globals pendant_triangle).graph.HitsById
        (fun id => id ∈ gl''.always_in_solution ∨
          ∃ c < gl''.graph.num_vertices, gl''.best.getD c false = true ∧
            gl''.graph.vid c = id)) :=
  have hperm : ∀ d ∈ [({ picks := [], shuffle := fun _ l => l } : Draws),
      { picks := [0, 2], shuffle := fun _ l => l.reverse }],
      ∀ level l, (d.shuffle level l).Perm l := by
    intro d hd level l
    simp only [List.mem_cons, List.mem_singleton, List.not_mem_nil, or_false] at hd
    rcases hd with rfl | rfl
    · exact List.Perm.refl l
    · exact List.reverse_perm l
  ⟨⟨by decide, by decide, rfl, hperm⟩,
    (kernel_cover_lifts (initial_globals pendant_triangle) pendant_triangle_kernel none
      (by decide) (by decide) rfl).1,
    (kernel_cover_lifts (initial_globals pendant_triangle) pendant_triangle_kernel none
      (by decide) (by decide) rfl).2.1,
    (kernel_cover_lifts (initial_globals pendant_triangle) pendant_triangle_kernel none
      (by decide) (by decide) rfl).2.2 _ hperm⟩

end Greeduce
